import Mathlib

/-! # WAVM `HashTable`: Robin Hood probing with backward-shift deletion

A shallow embedding of `Include/Inline/HashTableImpl.h`.

* `Uptr` values are natural numbers; the word width `w` is a parameter and the
  one addition that can wrap, `hashAndOccupancy + probeCount`, is reduced modulo
  `2 ^ w`, as are the increments and decrements of `numElements`.
* The bucket array is a map from indices to buckets: `buckets` is a bare pointer
  in the source and the only length the table knows is `hashToBucketIndexMask + 1`.
* Bucket storage is `Option Element`: `none` is unconstructed storage.
* A result of `none` means that a `wavmAssert` failed, that a `while(true)` loop
  used up its fuel or that an allocation failed; `some r` means that the code
  returned `r`.
-/

namespace WAVM

/-- A slot of the bucket array: the combined hash-and-occupancy word and the
storage for one element (`none` when no element is constructed there). -/
structure HashTableBucket (Element : Type) where
  hashAndOccupancy : Nat
  contents : Option Element

/-- The key/value policy: the two static functions the table calls. -/
structure HashTablePolicy (Key Element : Type) where
  getKey : Element → Key
  areKeysEqual : Key → Key → Bool

/-- The allocation policy: the two static functions the table calls. -/
structure AllocPolicy where
  getMinDesiredBuckets : Nat → Nat
  getMaxDesiredBuckets : Nat → Nat

/-- The table: bucket array, index mask and element count. -/
structure HashTable (Element : Type) where
  buckets : Nat → HashTableBucket Element
  hashToBucketIndexMask : Nat
  numElements : Nat

variable {Key Element : Type}

/-- Modelled from the spec: `Bucket::isOccupiedMask` is declared in `HashTable.h`,
which is not among the sources; the spec calls it the most significant bit of the
machine word. -/
def isOccupiedMask (w : Nat) : Nat := 2 ^ (w - 1)

/-- Modelled from the spec: `numBuckets()` is declared in `HashTable.h`, which is
not among the sources; the spec fixes `hashToBucketIndexMask == bucketCount - 1`. -/
def numBuckets (t : HashTable Element) : Nat := t.hashToBucketIndexMask + 1

/-- A value-initialised bucket, as produced by `new Bucket[n]()`. -/
def emptyBucket : HashTableBucket Element := ⟨0, none⟩

/-- The array with slot `i` replaced by `b`. -/
def setBucket (buckets : Nat → HashTableBucket Element) (i : Nat)
    (b : HashTableBucket Element) : Nat → HashTableBucket Element :=
  fun j => if j = i then b else buckets j

/-- Modelled from the spec: `new Bucket[n]()`. The allocator is not among the
sources; the spec names allocation failure as the one runtime error. Every slot
of a fresh array is empty, and an array of `n` buckets, each of at least two
bytes (a word and an element), is allocated only when its `2 * n` bytes can be
addressed by a machine word. -/
def allocateBuckets (w n : Nat) : Option (Nat → HashTableBucket Element) :=
  if 2 * n < 2 ^ w then some (fun _ => emptyBucket) else none

/-- The test `areKeysEqual(getKey(bucket.storage.contents), key)`. -/
def bucketHoldsKey (pol : HashTablePolicy Key Element) (bucket : HashTableBucket Element)
    (key : Key) : Bool :=
  match bucket.contents with
  | some e => pol.areKeysEqual (pol.getKey e) key
  | none => false

/-- `HashTable::calcProbeCount`. Both operands of the wrap-around branch are at
most `numBuckets()`, so the sum cannot leave the word. The two assertions of the
source (bucket occupied, mask disjoint from the occupancy bit) are left to the
callers, each of which tests occupancy first. -/
def calcProbeCount (t : HashTable Element) (bucketIndex : Nat) : Nat :=
  let idealBucketIndex := (t.buckets bucketIndex).hashAndOccupancy &&& t.hashToBucketIndexMask
  if idealBucketIndex ≤ bucketIndex then bucketIndex - idealBucketIndex
  else numBuckets t - idealBucketIndex + bucketIndex

/-- The loop of `HashTable::getBucketForRead`. `hashAndOccupancy` already has the
occupancy bit. The fuel stands for `wavmAssert(probeCount < numBuckets())`. The
result is `some none` for `nullptr` and `some (some i)` for `&buckets[i]`. -/
def getBucketForReadLoop (w : Nat) (pol : HashTablePolicy Key Element) (t : HashTable Element)
    (hashAndOccupancy : Nat) (key : Key) : Nat → Nat → Option (Option Nat)
  | 0, _ => none
  | fuel + 1, probeCount =>
    let bucketIndex := ((hashAndOccupancy + probeCount) % 2 ^ w) &&& t.hashToBucketIndexMask
    let bucket := t.buckets bucketIndex
    if bucket.hashAndOccupancy = 0 then some none
    else if bucket.hashAndOccupancy = hashAndOccupancy ∧ bucketHoldsKey pol bucket key = true then
      some (some bucketIndex)
    else if probeCount > calcProbeCount t bucketIndex then some none
    else getBucketForReadLoop w pol t hashAndOccupancy key fuel (probeCount + 1)

/-- `HashTable::getBucketForRead`. -/
def getBucketForRead (w : Nat) (pol : HashTablePolicy Key Element) (t : HashTable Element)
    (hash : Nat) (key : Key) : Option (Option Nat) :=
  getBucketForReadLoop w pol t (hash ||| isOccupiedMask w) key (numBuckets t) 0

/-- `HashTable::getBucketForModify`. -/
def getBucketForModify (w : Nat) (pol : HashTablePolicy Key Element) (t : HashTable Element)
    (hash : Nat) (key : Key) : Option (Option Nat) :=
  getBucketForRead w pol t hash key

/-- The loop of `HashTable::evictHashBucket`: the in-hand element and word are
carried forward until an empty bucket takes them. -/
def evictLoop (mask : Nat) :
    Nat → (Nat → HashTableBucket Element) → Nat → Option Element → Nat →
      Option (Nat → HashTableBucket Element)
  | 0, _, _, _, _ => none
  | fuel + 1, buckets, bucketIndex, evictedElement, evictedHashAndOccupancy =>
    let bucketIndex := (bucketIndex + 1) &&& mask
    let bucket := buckets bucketIndex
    if bucket.hashAndOccupancy = 0 then
      some (setBucket buckets bucketIndex ⟨evictedHashAndOccupancy, evictedElement⟩)
    else
      evictLoop mask fuel (setBucket buckets bucketIndex ⟨evictedHashAndOccupancy, evictedElement⟩)
        bucketIndex bucket.contents bucket.hashAndOccupancy

/-- `HashTable::evictHashBucket`. -/
def evictHashBucket (t : HashTable Element) (bucketIndex : Nat) : Option (HashTable Element) :=
  let evictedBucket := t.buckets bucketIndex
  if evictedBucket.hashAndOccupancy = 0 then none
  else
    match evictLoop t.hashToBucketIndexMask (numBuckets t)
        (setBucket t.buckets bucketIndex ⟨0, none⟩) bucketIndex
        evictedBucket.contents evictedBucket.hashAndOccupancy with
    | none => none
    | some buckets => some { t with buckets := buckets }

/-- The loop of `HashTable::getBucketForWrite`; returns the table (changed only
by an eviction) and the index of the returned bucket. -/
def getBucketForWriteLoop (w : Nat) (pol : HashTablePolicy Key Element) (t : HashTable Element)
    (hashAndOccupancy : Nat) (key : Key) : Nat → Nat → Option (HashTable Element × Nat)
  | 0, _ => none
  | fuel + 1, probeCount =>
    let bucketIndex := ((hashAndOccupancy + probeCount) % 2 ^ w) &&& t.hashToBucketIndexMask
    let bucket := t.buckets bucketIndex
    if bucket.hashAndOccupancy = 0 then some (t, bucketIndex)
    else if bucket.hashAndOccupancy = hashAndOccupancy ∧ bucketHoldsKey pol bucket key = true then
      some (t, bucketIndex)
    else if probeCount > calcProbeCount t bucketIndex then
      match evictHashBucket t bucketIndex with
      | none => none
      | some t1 => some (t1, bucketIndex)
    else getBucketForWriteLoop w pol t hashAndOccupancy key fuel (probeCount + 1)

/-- `HashTable::getBucketForWrite`. -/
def getBucketForWrite (w : Nat) (pol : HashTablePolicy Key Element) (t : HashTable Element)
    (hash : Nat) (key : Key) : Option (HashTable Element × Nat) :=
  getBucketForWriteLoop w pol t (hash ||| isOccupiedMask w) key (numBuckets t) 0

/-- The loop of `HashTable::eraseHashBucket`. A moved-from bucket keeps its word
and storage until it is overwritten or cleared. -/
def eraseLoop : Nat → HashTable Element → Nat → Option (HashTable Element)
  | 0, _, _ => none
  | fuel + 1, t, eraseBucketIndex =>
    let bucketToErase := t.buckets eraseBucketIndex
    let bucketIndex := (eraseBucketIndex + 1) &&& t.hashToBucketIndexMask
    let bucket := t.buckets bucketIndex
    if bucket.hashAndOccupancy = 0 then
      if bucketToErase.hashAndOccupancy = 0 then none
      else some { t with buckets := setBucket t.buckets eraseBucketIndex ⟨0, none⟩ }
    else if calcProbeCount t bucketIndex = 0 then
      if bucketToErase.hashAndOccupancy = 0 then none
      else some { t with buckets := setBucket t.buckets eraseBucketIndex ⟨0, none⟩ }
    else
      eraseLoop fuel
        { t with buckets := setBucket t.buckets eraseBucketIndex
                              ⟨bucket.hashAndOccupancy, bucket.contents⟩ }
        bucketIndex

/-- `HashTable::eraseHashBucket`. -/
def eraseHashBucket (t : HashTable Element) (eraseBucketIndex : Nat) :
    Option (HashTable Element) :=
  eraseLoop (numBuckets t) t eraseBucketIndex

/-- The reinsertion loop of `HashTable::resize` over the old bucket indices, in
order; the state is the table with the new array. Reading the key of an occupied
old bucket whose storage is unconstructed has no defined result. -/
def resizeLoop (w : Nat) (pol : HashTablePolicy Key Element)
    (oldBuckets : Nat → HashTableBucket Element) :
    List Nat → HashTable Element → Option (HashTable Element)
  | [], t => some t
  | bucketIndex :: rest, t =>
    let oldBucket := oldBuckets bucketIndex
    if oldBucket.hashAndOccupancy = 0 then resizeLoop w pol oldBuckets rest t
    else
      match oldBucket.contents with
      | none => none
      | some e =>
        match getBucketForWrite w pol t oldBucket.hashAndOccupancy (pol.getKey e) with
        | none => none
        | some (t1, newBucket) =>
          resizeLoop w pol oldBuckets rest
            { t1 with buckets := setBucket t1.buckets newBucket
                                   ⟨oldBucket.hashAndOccupancy, some e⟩ }

/-- `HashTable::resize`. -/
def resize (w : Nat) (pol : HashTablePolicy Key Element) (t : HashTable Element)
    (newNumBuckets : Nat) : Option (HashTable Element) :=
  if ¬ newNumBuckets > 1 then none
  else if newNumBuckets &&& (newNumBuckets - 1) ≠ 0 then none
  else
    let oldNumBuckets := numBuckets t
    let oldBuckets := t.buckets
    match allocateBuckets w newNumBuckets with
    | none => none
    | some buckets =>
      resizeLoop w pol oldBuckets (List.range oldNumBuckets)
        { t with buckets := buckets, hashToBucketIndexMask := newNumBuckets - 1 }

/-- `HashTable::remove`; returns the result and the table afterwards. -/
def remove (w : Nat) (pol : HashTablePolicy Key Element) (alloc : AllocPolicy)
    (t : HashTable Element) (hash : Nat) (key : Key) : Option (Bool × HashTable Element) :=
  let hashAndOccupancy := hash ||| isOccupiedMask w
  match getBucketForRead w pol t hashAndOccupancy key with
  | none => none
  | some none => some (false, t)
  | some (some bucket) =>
    match eraseHashBucket t bucket with
    | none => none
    | some t1 =>
      let t2 := { t1 with numElements := (t1.numElements + 2 ^ w - 1) % 2 ^ w }
      let maxDesiredBuckets := alloc.getMaxDesiredBuckets t2.numElements
      if numBuckets t2 > maxDesiredBuckets then
        match resize w pol t2 maxDesiredBuckets with
        | none => none
        | some t3 => some (true, t3)
      else some (true, t2)

/-- `HashTable::getBucketForAdd`; returns the table afterwards and the index of
the bucket handed to the caller. -/
def getBucketForAdd (w : Nat) (pol : HashTablePolicy Key Element) (alloc : AllocPolicy)
    (t : HashTable Element) (hash : Nat) (key : Key) : Option (HashTable Element × Nat) :=
  let minDesiredBuckets := alloc.getMinDesiredBuckets ((t.numElements + 1) % 2 ^ w)
  match (if numBuckets t < minDesiredBuckets then resize w pol t minDesiredBuckets
         else some t) with
  | none => none
  | some t1 =>
    match getBucketForWrite w pol t1 hash key with
    | none => none
    | some (t2, bucket) =>
      if (t2.buckets bucket).hashAndOccupancy = 0 then
        some ({ t2 with numElements := (t2.numElements + 1) % 2 ^ w }, bucket)
      else if (t2.buckets bucket).hashAndOccupancy = (hash ||| isOccupiedMask w) then
        some (t2, bucket)
      else none

/-- Modelled from the spec: the callers of `getBucketForAdd` (`HashMap.h`,
`HashSet.h`) are not among the sources. A completed insertion is
`getBucketForAdd(hash, key)` followed by the caller storing the element in the
returned bucket and setting its word to `hash | OCCUPIED_MASK`. -/
def insert (w : Nat) (pol : HashTablePolicy Key Element) (alloc : AllocPolicy)
    (t : HashTable Element) (hash : Nat) (element : Element) : Option (HashTable Element) :=
  match getBucketForAdd w pol alloc t hash (pol.getKey element) with
  | none => none
  | some (t1, bucket) =>
    some { t1 with buckets := setBucket t1.buckets bucket
                                ⟨hash ||| isOccupiedMask w, some element⟩ }

/-- `HashTable::HashTable(Uptr estimatedNumElements)`. -/
def HashTable.construct (w : Nat) (alloc : AllocPolicy) (estimatedNumElements : Nat) :
    Option (HashTable Element) :=
  let numBuckets := alloc.getMinDesiredBuckets estimatedNumElements
  let hashToBucketIndexMask := (numBuckets + 2 ^ w - 1) % 2 ^ w
  if numBuckets &&& hashToBucketIndexMask = 0 then
    match allocateBuckets w numBuckets with
    | none => none
    | some buckets =>
      some { buckets := buckets, hashToBucketIndexMask := hashToBucketIndexMask,
             numElements := 0 }
  else none

/-- `HashTable::copyFrom`: the table that `this` becomes. Storage of an empty
slot of the new array is left unconstructed. -/
def copyFrom (copy : HashTable Element) : HashTable Element :=
  { buckets := fun bucketIndex =>
      if bucketIndex < numBuckets copy then
        ⟨(copy.buckets bucketIndex).hashAndOccupancy,
          if (copy.buckets bucketIndex).hashAndOccupancy = 0 then none
          else (copy.buckets bucketIndex).contents⟩
      else emptyBucket
    hashToBucketIndexMask := copy.hashToBucketIndexMask
    numElements := copy.numElements }

/-- `HashTable::moveFrom`: the table that `this` becomes, and the moved-from
table afterwards. -/
def moveFrom (w : Nat) (alloc : AllocPolicy) (movee : HashTable Element) :
    Option (HashTable Element × HashTable Element) :=
  let moveeNumBuckets := alloc.getMaxDesiredBuckets 0
  match allocateBuckets w moveeNumBuckets with
  | none => none
  | some buckets =>
    some ({ buckets := movee.buckets, hashToBucketIndexMask := movee.hashToBucketIndexMask,
            numElements := movee.numElements },
          { buckets := buckets
            hashToBucketIndexMask := (moveeNumBuckets + 2 ^ w - 1) % 2 ^ w
            numElements := 0 })

/-- The tables obtained from a freshly constructed table by completed
insertions, removals, copies and moves. -/
inductive Reachable (w : Nat) (pol : HashTablePolicy Key Element) (alloc : AllocPolicy) :
    HashTable Element → Prop
  | construct (estimatedNumElements : Nat) (t : HashTable Element) :
      HashTable.construct w alloc estimatedNumElements = some t → Reachable w pol alloc t
  | insert (t t1 : HashTable Element) (hash : Nat) (element : Element) :
      Reachable w pol alloc t → insert w pol alloc t hash element = some t1 →
      Reachable w pol alloc t1
  | remove (t t1 : HashTable Element) (hash : Nat) (key : Key) (found : Bool) :
      Reachable w pol alloc t → remove w pol alloc t hash key = some (found, t1) →
      Reachable w pol alloc t1
  | copy (t : HashTable Element) :
      Reachable w pol alloc t → Reachable w pol alloc (copyFrom t)
  | moveTo (t t1 t2 : HashTable Element) :
      Reachable w pol alloc t → moveFrom w alloc t = some (t1, t2) → Reachable w pol alloc t1
  | moveSource (t t1 t2 : HashTable Element) :
      Reachable w pol alloc t → moveFrom w alloc t = some (t1, t2) → Reachable w pol alloc t2

/-- The probe count of a word stored at index `i` of an array of `n` buckets. -/
def probeCountOf (n word i : Nat) : Nat := (i + n - word % n) % n

/-- Power-of-two sizing: the mask is `2 ^ k - 1` with `1 ≤ k < w`. -/
def SizeInv (w : Nat) (t : HashTable Element) : Prop :=
  ∃ k, 1 ≤ k ∧ k < w ∧ t.hashToBucketIndexMask = 2 ^ k - 1

/-- Robin Hood ordering. -/
def RobinHoodOrdering (t : HashTable Element) : Prop :=
  ∀ i, i < numBuckets t → (t.buckets i).hashAndOccupancy ≠ 0 →
    (t.buckets ((i + 1) % numBuckets t)).hashAndOccupancy ≠ 0 →
    calcProbeCount t ((i + 1) % numBuckets t) ≤ calcProbeCount t i + 1

/-- An occupied bucket that follows an empty bucket sits in its ideal slot. -/
def IdealAfterEmpty (t : HashTable Element) : Prop :=
  ∀ i, i < numBuckets t → (t.buckets i).hashAndOccupancy = 0 →
    (t.buckets ((i + 1) % numBuckets t)).hashAndOccupancy ≠ 0 →
    calcProbeCount t ((i + 1) % numBuckets t) = 0

/-- Some bucket of the array is empty. -/
def HasEmptyBucket (t : HashTable Element) : Prop :=
  ∃ i, i < numBuckets t ∧ (t.buckets i).hashAndOccupancy = 0

/-- The run invariant on a raw array of `n` buckets: a bucket that is not in its
ideal slot follows an occupied bucket whose probe count is at most one less. -/
def RunInv (n : Nat) (b : Nat → HashTableBucket Element) : Prop :=
  ∀ i, i < n → (b ((i + 1) % n)).hashAndOccupancy ≠ 0 →
    probeCountOf n (b ((i + 1) % n)).hashAndOccupancy ((i + 1) % n) ≠ 0 →
    (b i).hashAndOccupancy ≠ 0 ∧
      probeCountOf n (b ((i + 1) % n)).hashAndOccupancy ((i + 1) % n)
        ≤ probeCountOf n (b i).hashAndOccupancy i + 1

/-- The index after `x` in an array of `n` buckets. -/
def nextIndex (n x : Nat) : Nat := if x + 1 < n then x + 1 else 0

/-- The index before `y` in an array of `n` buckets. -/
def prevIndex (n y : Nat) : Nat := if y = 0 then n - 1 else y - 1

/-- The number of forward steps from index `x` to index `y`. -/
def distance (n x y : Nat) : Nat := if x ≤ y then y - x else n - x + y

/-- A key/value policy for examples: elements are their own keys, compared with `==`. -/
def natSetPolicy : HashTablePolicy Nat Nat := ⟨fun e => e, fun a b => decide (a = b)⟩

/-- Four buckets, of which only bucket 1 is occupied, by an element whose ideal
bucket is 0. -/
def gapTable : HashTable Nat :=
  { buckets := fun i => if i = 1 then ⟨4 ||| isOccupiedMask 64, some 7⟩ else emptyBucket
    hashToBucketIndexMask := 3
    numElements := 1 }

/-- Four buckets with two elements of ideal bucket 1 in buckets 1 and 2. -/
def runTable : HashTable Nat :=
  { buckets := fun i =>
      if i = 1 then ⟨5 ||| isOccupiedMask 64, some 7⟩
      else if i = 2 then ⟨1 ||| isOccupiedMask 64, some 9⟩ else emptyBucket
    hashToBucketIndexMask := 3
    numElements := 2 }

/-- The occupied buckets of an array of `n` buckets, as a multiset of
(word, element) pairs. -/
def storedBuckets (n : Nat) (b : Nat → HashTableBucket Element) :
    Multiset (HashTableBucket Element) :=
  ((Multiset.range n).map b).filter (fun x => x.hashAndOccupancy ≠ 0)

/-- A bucket answers the lookup of `key` with the word `word`. -/
def Matches (pol : HashTablePolicy Key Element) (word : Nat) (key : Key)
    (x : HashTableBucket Element) : Prop :=
  x.hashAndOccupancy = word ∧ bucketHoldsKey pol x key = true

instance (pol : HashTablePolicy Key Element) (word : Nat) (key : Key) :
    DecidablePred (Matches pol word key) :=
  fun x => inferInstanceAs
    (Decidable (x.hashAndOccupancy = word ∧ bucketHoldsKey pol x key = true))

/-- At most one stored bucket answers any lookup. -/
def UniqueKeys (pol : HashTablePolicy Key Element) (S : Multiset (HashTableBucket Element)) :
    Prop :=
  ∀ (word : Nat) (key : Key), Multiset.card (S.filter (Matches pol word key)) ≤ 1

/-- Every stored word carries the occupancy bit and every stored element is
constructed. -/
def WordsOK (w : Nat) (S : Multiset (HashTableBucket Element)) : Prop :=
  ∀ x ∈ S, x.hashAndOccupancy ||| isOccupiedMask w = x.hashAndOccupancy ∧ x.contents ≠ none

/-- The probe for `(hao, key)` has passed the first `pf` probe positions: each
is occupied by another key whose probe count is at least the probe number. -/
def ProbedPast (pol : HashTablePolicy Key Element) (n : Nat) (b : Nat → HashTableBucket Element)
    (hao : Nat) (key : Key) (pf : Nat) : Prop :=
  ∀ q, q < pf → (b ((hao + q) % n)).hashAndOccupancy ≠ 0 ∧
    ¬ Matches pol hao key (b ((hao + q) % n)) ∧
    q ≤ probeCountOf n (b ((hao + q) % n)).hashAndOccupancy ((hao + q) % n)

/-- The key comparison of the policy is an equivalence relation. -/
structure LawfulKeys (pol : HashTablePolicy Key Element) : Prop where
  refl : ∀ a, pol.areKeysEqual a a = true
  symm : ∀ a b, pol.areKeysEqual a b = true → pol.areKeysEqual b a = true
  trans : ∀ a b c, pol.areKeysEqual a b = true → pol.areKeysEqual b c = true →
    pol.areKeysEqual a c = true

/-- The part of the policy contract that insertion relies on: the minimum is a
power of two that is at least 2 and leaves room for one more element than asked
for. -/
structure MinContract (alloc : AllocPolicy) : Prop where
  minPow : ∀ n, ∃ k, 1 ≤ k ∧ alloc.getMinDesiredBuckets n = 2 ^ k
  minRoom : ∀ n, n < alloc.getMinDesiredBuckets n

/-- The part of the policy contract that sizing relies on: both functions return
a power of two that is at least 2. -/
structure PowContract (alloc : AllocPolicy) : Prop where
  minPow : ∀ n, ∃ k, 1 ≤ k ∧ alloc.getMinDesiredBuckets n = 2 ^ k
  maxPow : ∀ n, ∃ k, 1 ≤ k ∧ alloc.getMaxDesiredBuckets n = 2 ^ k

/-- The contract of the allocation policy: both functions return a power of two
that is at least 2, the minimum leaves room for one more element than asked for,
and the minimum does not exceed the maximum. -/
structure AllocContract (alloc : AllocPolicy) : Prop where
  minPow : ∀ n, ∃ k, 1 ≤ k ∧ alloc.getMinDesiredBuckets n = 2 ^ k
  maxPow : ∀ n, ∃ k, 1 ≤ k ∧ alloc.getMaxDesiredBuckets n = 2 ^ k
  minRoom : ∀ n, n < alloc.getMinDesiredBuckets n
  minLeMax : ∀ n, alloc.getMinDesiredBuckets n ≤ alloc.getMaxDesiredBuckets n

/-- The invariants of the bucket array: power-of-two sizing, the run invariant,
well-formed words and key uniqueness. -/
structure Structured (w : Nat) (pol : HashTablePolicy Key Element) (t : HashTable Element) :
    Prop where
  size : SizeInv w t
  run : RunInv (numBuckets t) t.buckets
  words : WordsOK w (storedBuckets (numBuckets t) t.buckets)
  unique : UniqueKeys pol (storedBuckets (numBuckets t) t.buckets)

/-- The invariants of the table: those of the array, an addressable array, the
element count and at least one empty bucket. -/
structure TableInv (w : Nat) (pol : HashTablePolicy Key Element) (t : HashTable Element) :
    Prop where
  structured : Structured w pol t
  allocated : 2 * numBuckets t < 2 ^ w
  count : t.numElements = Multiset.card (storedBuckets (numBuckets t) t.buckets)
  room : t.numElements < numBuckets t

/-- A key/value policy for examples: the elements are (key, value) pairs and
keys are compared with `==`. -/
def natMapPolicy : HashTablePolicy Nat (Nat × Nat) := ⟨fun e => e.1, fun a b => decide (a = b)⟩

/-- An allocation policy for examples: room for `n` elements is `2 ^ (n + 1)`
buckets at least and `2 ^ (n + 2)` buckets at most. -/
def doublingPolicy : AllocPolicy := ⟨fun n => 2 ^ (n + 1), fun n => 2 ^ (n + 2)⟩

/-- The freshly constructed example table: two empty buckets. -/
def exampleEmpty : HashTable (Nat × Nat) :=
  (HashTable.construct 64 doublingPolicy 0).get (by decide)

/-- The example table after inserting key 7 with hash 5. -/
def exampleOne : HashTable (Nat × Nat) :=
  (insert 64 natMapPolicy doublingPolicy exampleEmpty 5 (7, 70)).get (by decide)

/-- The example table after inserting key 9 with hash 1 as well. -/
def exampleTwo : HashTable (Nat × Nat) :=
  (insert 64 natMapPolicy doublingPolicy exampleOne 1 (9, 90)).get (by decide)

/-- The table that `remove(5, 7)` leaves of `exampleTwo`. -/
def exampleTwoRemoved : HashTable (Nat × Nat) :=
  ((remove 64 natMapPolicy doublingPolicy exampleTwo 5 7).get (by decide)).2

/-- No phantom occupancy: `numElements` is the number of buckets whose word has
the occupancy bit, and every word is 0 or has the occupancy bit. -/
def NoPhantomOccupancy (w : Nat) (t : HashTable Element) : Prop :=
  t.numElements = ((List.range (numBuckets t)).filter
      (fun i => decide ((t.buckets i).hashAndOccupancy &&& isOccupiedMask w ≠ 0))).length ∧
    ∀ i, i < numBuckets t → (t.buckets i).hashAndOccupancy = 0 ∨
      (t.buckets i).hashAndOccupancy &&& isOccupiedMask w ≠ 0

/-- Power-of-two sizing as the spec states it: `bucketCount & (bucketCount - 1)`
is 0, `bucketCount` is at least 2, the mask is `bucketCount - 1`, and the mask has
no bit in common with the occupancy bit. -/
def PowerOfTwoSizing (w : Nat) (t : HashTable Element) : Prop :=
  numBuckets t &&& (numBuckets t - 1) = 0 ∧ 2 ≤ numBuckets t ∧
    t.hashToBucketIndexMask = numBuckets t - 1 ∧
    t.hashToBucketIndexMask &&& isOccupiedMask w = 0

/-- Modelled from the spec: a finite sequence of completed insertions of
`(hash, element)` pairs, in order; the key of a pair is the key of its element. -/
def insertAll (w : Nat) (pol : HashTablePolicy Key Element) (alloc : AllocPolicy) :
    HashTable Element → List (Nat × Element) → Option (HashTable Element)
  | t, [] => some t
  | t, item :: rest =>
    match insert w pol alloc t item.1 item.2 with
    | none => none
    | some t1 => insertAll w pol alloc t1 rest

/-- The bucket that a completed insertion of `(hash, element)` stores. -/
def bucketOf (w : Nat) (item : Nat × Element) : HashTableBucket Element :=
  ⟨item.1 ||| isOccupiedMask w, some item.2⟩

/-- The items of the example sequence: keys 7 and 9 with hashes 5 and 1. -/
def exampleItems : List (Nat × (Nat × Nat)) := [(5, (7, 70)), (1, (9, 90))]

/-- An allocation policy for examples without a hysteresis band: `2 ^ (n + 1)`
buckets at least and at most. -/
def tightPolicy : AllocPolicy := ⟨fun n => 2 ^ (n + 1), fun n => 2 ^ (n + 1)⟩

/-- The table freshly constructed with `tightPolicy`: two empty buckets. -/
def tightEmpty : HashTable (Nat × Nat) :=
  (HashTable.construct 64 tightPolicy 0).get (by decide)

/-- The table `tightEmpty` after inserting key 7: four buckets. -/
def tightOne : HashTable (Nat × Nat) :=
  (insert 64 natMapPolicy tightPolicy tightEmpty 5 (7, 70)).get (by decide)

/-- One toggle of an element at a boundary: `remove` of its key followed by a
completed insertion of the element. -/
def toggle (w : Nat) (pol : HashTablePolicy Key Element) (alloc : AllocPolicy)
    (hash : Nat) (element : Element) (t : HashTable Element) : Option (HashTable Element) :=
  match remove w pol alloc t hash (pol.getKey element) with
  | none => none
  | some (_, t1) => insert w pol alloc t1 hash element

/-- A number of toggles in a row. -/
def toggles (w : Nat) (pol : HashTablePolicy Key Element) (alloc : AllocPolicy)
    (hash : Nat) (element : Element) : Nat → HashTable Element → Option (HashTable Element)
  | 0, t => some t
  | m + 1, t =>
    match toggle w pol alloc hash element t with
    | none => none
    | some t1 => toggles w pol alloc hash element m t1

/-- The table that `remove(5, 7)` leaves of `tightOne`. -/
def tightEmptied : HashTable (Nat × Nat) :=
  ((remove 64 natMapPolicy tightPolicy tightOne 5 7).get (by decide)).2

/-- The table that a second insertion of key 7 makes of `tightEmptied`. -/
def tightAgain : HashTable (Nat × Nat) :=
  (insert 64 natMapPolicy tightPolicy tightEmptied 5 (7, 70)).get (by decide)

/-- The state that a toggle returns to: the invariants hold, `n + 1` elements
are stored in `B` buckets, and the key is present. -/
def ToggleInv (w : Nat) (pol : HashTablePolicy Key Element) (hash : Nat) (element : Element)
    (n B : Nat) (t : HashTable Element) : Prop :=
  TableInv w pol t ∧ t.numElements = n + 1 ∧ numBuckets t = B ∧
    ∃ j, getBucketForRead w pol t hash (pol.getKey element) = some (some j)

/-- The moved-from table that `moveFrom` leaves of `exampleTwo`. -/
def exampleMovedFrom : HashTable (Nat × Nat) :=
  ((moveFrom 64 doublingPolicy exampleTwo).get (by decide)).2

/-- Two tables with the same mask whose buckets in range carry the same words,
and the same elements where occupied. -/
def SameLayout (t1 t : HashTable Element) : Prop :=
  t1.hashToBucketIndexMask = t.hashToBucketIndexMask ∧
    ∀ i, i < numBuckets t →
      (t1.buckets i).hashAndOccupancy = (t.buckets i).hashAndOccupancy ∧
      ((t.buckets i).hashAndOccupancy ≠ 0 → (t1.buckets i).contents = (t.buckets i).contents)

/-- The inner loop of `HashTable::analyzeSpaceUsage` for one ideal bucket index:
the number of buckets a probe that starts there passes before it stops. The loop
has no assertion; the fuel bounds its iterations. -/
def analyzeProbeLoop (w : Nat) (t : HashTable Element) (idealBucketIndex : Nat) :
    Nat → Nat → Option Nat
  | 0, _ => none
  | fuel + 1, probeCount =>
    let bucketIndex := ((idealBucketIndex + probeCount) % 2 ^ w) &&& t.hashToBucketIndexMask
    if (t.buckets bucketIndex).hashAndOccupancy = 0 ∨ probeCount > calcProbeCount t bucketIndex
    then some probeCount
    else analyzeProbeLoop w t idealBucketIndex fuel (probeCount + 1)

/-- The outer loop of `HashTable::analyzeSpaceUsage` over the ideal bucket
indices, carrying `outMaxProbeCount`. -/
def analyzeSpaceUsageLoop (w : Nat) (t : HashTable Element) : List Nat → Nat → Option Nat
  | [], outMaxProbeCount => some outMaxProbeCount
  | idealBucketIndex :: rest, outMaxProbeCount =>
    match analyzeProbeLoop w t idealBucketIndex (numBuckets t + 1) 0 with
    | none => none
    | some probeCount =>
      analyzeSpaceUsageLoop w t rest
        (if probeCount > outMaxProbeCount then probeCount else outMaxProbeCount)

/-- `HashTable::analyzeSpaceUsage`, its output `outMaxProbeCount`. The byte count
depends on `sizeof` and the two other outputs are floating point. -/
def analyzeSpaceUsage (w : Nat) (t : HashTable Element) : Option Nat :=
  analyzeSpaceUsageLoop w t (List.range (numBuckets t)) 0

/-- Keys 1 and 2 with hash 0 and key 3 with hash 2, inserted in this order into
a fresh table: buckets 0, 1 and 2 of 16 hold them with probe counts 0, 1, 0. -/
def exampleRun : HashTable (Nat × Nat) :=
  (insertAll 64 natMapPolicy doublingPolicy exampleEmpty
    [(0, (1, 10)), (0, (2, 20)), (2, (3, 30))]).get (by decide)

/-- Keys 1, 2 and 3, all with hash 0, inserted into a fresh table: buckets 0, 1
and 2 of 16 hold them with probe counts 0, 1, 2. -/
def exampleChain : HashTable (Nat × Nat) :=
  (insertAll 64 natMapPolicy doublingPolicy exampleEmpty
    [(0, (1, 10)), (0, (2, 20)), (0, (3, 30))]).get (by decide)

/-- Key 1 with hash 0 and key 2 with hash 1, inserted into a fresh table:
buckets 0 and 1 of 8 hold them, both with probe count 0. -/
def examplePair : HashTable (Nat × Nat) :=
  (insertAll 64 natMapPolicy doublingPolicy exampleEmpty
    [(0, (1, 10)), (1, (2, 20))]).get (by decide)

/-- Four buckets, of which only bucket 0 is occupied, by an element whose ideal
bucket is 1: its probe count is 3, the largest a table of four buckets has. -/
def wrapTable : HashTable Nat :=
  { buckets := fun i => if i = 0 then ⟨1 ||| isOccupiedMask 64, some 7⟩ else emptyBucket
    hashToBucketIndexMask := 3
    numElements := 1 }

/-- The occupancy lower bound: the table has at least the buckets that the
policy desires at least for its element count. -/
def OccupancyLowerBound (alloc : AllocPolicy) (t : HashTable Element) : Prop :=
  alloc.getMinDesiredBuckets t.numElements ≤ numBuckets t

/-- Every key is always supplied with the same hash: equal keys have the same
hash. -/
def ConsistentHash (pol : HashTablePolicy Key Element) (hashOf : Key → Nat) : Prop :=
  ∀ a b, pol.areKeysEqual a b = true → hashOf a = hashOf b

/-- The tables obtained from a freshly constructed table by completed
insertions, each with the hash of its key, and by removals, copies and moves. -/
inductive ReachableHashed (w : Nat) (pol : HashTablePolicy Key Element) (alloc : AllocPolicy)
    (hashOf : Key → Nat) : HashTable Element → Prop
  | construct (estimatedNumElements : Nat) (t : HashTable Element) :
      HashTable.construct w alloc estimatedNumElements = some t →
      ReachableHashed w pol alloc hashOf t
  | insert (t t1 : HashTable Element) (element : Element) :
      ReachableHashed w pol alloc hashOf t →
      insert w pol alloc t (hashOf (pol.getKey element)) element = some t1 →
      ReachableHashed w pol alloc hashOf t1
  | remove (t t1 : HashTable Element) (hash : Nat) (key : Key) (found : Bool) :
      ReachableHashed w pol alloc hashOf t →
      remove w pol alloc t hash key = some (found, t1) →
      ReachableHashed w pol alloc hashOf t1
  | copy (t : HashTable Element) :
      ReachableHashed w pol alloc hashOf t → ReachableHashed w pol alloc hashOf (copyFrom t)
  | moveTo (t t1 t2 : HashTable Element) :
      ReachableHashed w pol alloc hashOf t → moveFrom w alloc t = some (t1, t2) →
      ReachableHashed w pol alloc hashOf t1
  | moveSource (t t1 t2 : HashTable Element) :
      ReachableHashed w pol alloc hashOf t → moveFrom w alloc t = some (t1, t2) →
      ReachableHashed w pol alloc hashOf t2

/-- The hash function of the example keys: key 7 has hash 5, every other key has
hash 1. -/
def exampleHash : Nat → Nat := fun key => if key = 7 then 5 else 1

/-- Every stored bucket carries the hash of its own key. -/
def HashedWords (w : Nat) (pol : HashTablePolicy Key Element) (hashOf : Key → Nat)
    (S : Multiset (HashTableBucket Element)) : Prop :=
  ∀ x ∈ S, ∀ e, x.contents = some e →
    x.hashAndOccupancy = (hashOf (pol.getKey e) ||| isOccupiedMask w)

/-- Modelled from the spec: the free store that `new Bucket[n]` and `delete[]`
work on. The allocator is not among the sources. The store maps the address of
every live bucket array to its contents; addresses from `nextAddress` on have
never been handed out. -/
structure BucketStore (Element : Type) where
  arrays : Nat → Option (Nat → HashTableBucket Element)
  nextAddress : Nat

/-- The fields of a `HashTable` object: `buckets` is a pointer to a bucket array
in the store. -/
structure HashTableObject where
  buckets : Nat
  hashToBucketIndexMask : Nat
  numElements : Nat

/-- Modelled from the spec: `new Bucket[n]` yields an array at an address that no
live array has. -/
def BucketStore.newBuckets (s : BucketStore Element)
    (contents : Nat → HashTableBucket Element) : Nat × BucketStore Element :=
  (s.nextAddress,
    { arrays := fun a => if a = s.nextAddress then some contents else s.arrays a
      nextAddress := s.nextAddress + 1 })

/-- Modelled from the spec: `delete[]` of the array at `address`. -/
def BucketStore.deleteBuckets (s : BucketStore Element) (address : Nat) :
    BucketStore Element :=
  { s with arrays := fun a => if a = address then none else s.arrays a }

/-- The writes through the pointer `buckets`: the array at `address` gets new
contents, no other array is touched. -/
def BucketStore.writeBuckets (s : BucketStore Element) (address : Nat)
    (contents : Nat → HashTableBucket Element) : BucketStore Element :=
  { s with arrays := fun a => if a = address then some contents else s.arrays a }

/-- The table that an object denotes: its fields with the array its pointer
leads to. -/
def BucketStore.load (s : BucketStore Element) (object : HashTableObject) :
    Option (HashTable Element) :=
  match s.arrays object.buckets with
  | none => none
  | some buckets =>
    some { buckets := buckets, hashToBucketIndexMask := object.hashToBucketIndexMask,
           numElements := object.numElements }

/-- `HashTable::copyFrom` on the store: `buckets = new Bucket[copy.numBuckets()]`
is a new array, which the loop fills from the array of `copy`; the array of
`copy` is only read. -/
def copyFromStore (s : BucketStore Element) (copy : HashTableObject) :
    Option (HashTableObject × BucketStore Element) :=
  match s.load copy with
  | none => none
  | some t =>
    let allocated := s.newBuckets (copyFrom t).buckets
    some ({ buckets := allocated.1, hashToBucketIndexMask := copy.hashToBucketIndexMask,
            numElements := copy.numElements }, allocated.2)

/-- A completed insertion on the store. When `getBucketForAdd` calls `resize`,
`resize` allocates a new array, fills it and deletes the old one; otherwise every
write goes through the pointer `buckets` of the object. -/
def insertStore (w : Nat) (pol : HashTablePolicy Key Element) (alloc : AllocPolicy)
    (s : BucketStore Element) (object : HashTableObject) (hash : Nat) (element : Element) :
    Option (HashTableObject × BucketStore Element) :=
  match s.load object with
  | none => none
  | some t =>
    match insert w pol alloc t hash element with
    | none => none
    | some t1 =>
      if numBuckets t < alloc.getMinDesiredBuckets ((t.numElements + 1) % 2 ^ w) then
        let allocated := s.newBuckets t1.buckets
        some ({ buckets := allocated.1, hashToBucketIndexMask := t1.hashToBucketIndexMask,
                numElements := t1.numElements }, allocated.2.deleteBuckets object.buckets)
      else
        some ({ buckets := object.buckets, hashToBucketIndexMask := t1.hashToBucketIndexMask,
                numElements := t1.numElements }, s.writeBuckets object.buckets t1.buckets)

/-- `HashTable::remove` on the store. When `remove` calls `resize`, `resize`
allocates a new array, fills it and deletes the old one; otherwise every write
goes through the pointer `buckets` of the object. -/
def removeStore (w : Nat) (pol : HashTablePolicy Key Element) (alloc : AllocPolicy)
    (s : BucketStore Element) (object : HashTableObject) (hash : Nat) (key : Key) :
    Option (Bool × HashTableObject × BucketStore Element) :=
  match s.load object with
  | none => none
  | some t =>
    match remove w pol alloc t hash key with
    | none => none
    | some (found, t1) =>
      if found = true ∧ numBuckets t > alloc.getMaxDesiredBuckets t1.numElements then
        let allocated := s.newBuckets t1.buckets
        some (found, { buckets := allocated.1, hashToBucketIndexMask := t1.hashToBucketIndexMask,
                       numElements := t1.numElements },
          allocated.2.deleteBuckets object.buckets)
      else
        some (found, { buckets := object.buckets,
                       hashToBucketIndexMask := t1.hashToBucketIndexMask,
                       numElements := t1.numElements },
          s.writeBuckets object.buckets t1.buckets)

/-- No address from `nextAddress` on holds an array. -/
def BucketStore.WellFormed (s : BucketStore Element) : Prop :=
  ∀ a, s.nextAddress ≤ a → s.arrays a = none

/-- A store with the array of `exampleTwo` at address 0. -/
def exampleStore : BucketStore (Nat × Nat) :=
  { arrays := fun a => if a = 0 then some exampleTwo.buckets else none
    nextAddress := 1 }

/-- The object of `exampleTwo` in `exampleStore`. -/
def exampleObject : HashTableObject :=
  { buckets := 0, hashToBucketIndexMask := exampleTwo.hashToBucketIndexMask,
    numElements := exampleTwo.numElements }

/-! ## Arithmetic of probe counts and the probing loop of `getBucketForRead` -/

theorem mod_lt_two_mul (x n : Nat) (h : x < 2 * n) :
    x % n = if x < n then x else x - n := by
  split
  · rename_i h1; exact Nat.mod_eq_of_lt h1
  · rename_i h1
    rw [Nat.mod_eq_sub_mod (by omega), Nat.mod_eq_of_lt (by omega)]

theorem and_mask_eq_mod (x k : Nat) : x &&& (2 ^ k - 1) = x % 2 ^ k :=
  Nat.and_pow_two_sub_one_eq_mod x k

theorem probeIndex_eq_mod (w k a p : Nat) (hk : k < w) :
    ((a + p) % 2 ^ w) &&& (2 ^ k - 1) = (a + p) % 2 ^ k := by
  rw [and_mask_eq_mod]
  exact Nat.mod_mod_of_dvd _ (Nat.pow_dvd_pow 2 (Nat.le_of_lt hk))

theorem probeCountOf_lt (n word i : Nat) (hn : 0 < n) : probeCountOf n word i < n :=
  Nat.mod_lt _ hn

theorem probeCountOf_eq (n word i : Nat) (hi : i < n) :
    probeCountOf n word i = if word % n ≤ i then i - word % n else n - word % n + i := by
  have hr : word % n < n := Nat.mod_lt _ (by omega)
  unfold probeCountOf
  rw [mod_lt_two_mul _ _ (by omega)]
  split <;> split <;> omega

theorem add_mod_eq (n word c : Nat) (hn : 0 < n) (hc : c < n) :
    (word + c) % n = if word % n + c < n then word % n + c else word % n + c - n := by
  have hr : word % n < n := Nat.mod_lt _ hn
  rw [Nat.add_mod, Nat.mod_eq_of_lt hc, mod_lt_two_mul _ _ (by omega)]

theorem probeCountOf_spec (n word i : Nat) (hi : i < n) :
    (word + probeCountOf n word i) % n = i := by
  have hr : word % n < n := Nat.mod_lt _ (by omega)
  have hp := probeCountOf_lt n word i (by omega)
  rw [add_mod_eq n word _ (by omega) hp, probeCountOf_eq n word i hi]
  split <;> split <;> omega

theorem probeCountOf_unique (n word i c : Nat) (hc : c < n) (h : (word + c) % n = i) :
    probeCountOf n word i = c := by
  have hn : 0 < n := by omega
  have hr : word % n < n := Nat.mod_lt _ hn
  have hi : i < n := h ▸ Nat.mod_lt _ hn
  rw [add_mod_eq n word c hn hc] at h
  rw [probeCountOf_eq n word i hi]
  split at h <;> split <;> omega

theorem probeCountOf_probe (n word c : Nat) (hc : c < n) :
    probeCountOf n word ((word + c) % n) = c :=
  probeCountOf_unique n word _ c hc rfl

theorem calcProbeCount_eq (t : HashTable Element) (k i : Nat)
    (hmask : t.hashToBucketIndexMask = 2 ^ k - 1) (hi : i < numBuckets t) :
    calcProbeCount t i = probeCountOf (numBuckets t) (t.buckets i).hashAndOccupancy i := by
  have hn : numBuckets t = 2 ^ k := by
    have := Nat.one_le_two_pow (n := k)
    unfold numBuckets; omega
  rw [probeCountOf_eq _ _ _ hi]
  unfold calcProbeCount
  simp only [hmask, and_mask_eq_mod, hn]

theorem numBuckets_eq_of_mask {t : HashTable Element} {k : Nat}
    (hmask : t.hashToBucketIndexMask = 2 ^ k - 1) : numBuckets t = 2 ^ k := by
  have := Nat.one_le_two_pow (n := k)
  unfold numBuckets; omega

theorem runInv_of_ordering (w : Nat) (t : HashTable Element) (hsize : SizeInv w t)
    (hrh : RobinHoodOrdering t) (hgap : IdealAfterEmpty t) :
    RunInv (numBuckets t) t.buckets := by
  obtain ⟨k, hk1, hkw, hmask⟩ := hsize
  have hn : 0 < numBuckets t := by unfold numBuckets; omega
  intro i hi hocc hpc
  have hs : (i + 1) % numBuckets t < numBuckets t := Nat.mod_lt _ hn
  rw [← calcProbeCount_eq t k _ hmask hs] at hpc ⊢
  rw [← calcProbeCount_eq t k _ hmask hi]
  by_cases h0 : (t.buckets i).hashAndOccupancy = 0
  · exact absurd (hgap i hi h0 hocc) hpc
  · exact ⟨h0, hrh i hi h0 hocc⟩

theorem run_path (n : Nat) (b : Nat → HashTableBucket Element) (hn : 0 < n)
    (hrun : RunInv n b) (i : Nat) (hi : i < n) (hocc : (b i).hashAndOccupancy ≠ 0) :
    ∀ d, d ≤ probeCountOf n (b i).hashAndOccupancy i →
      (b (((b i).hashAndOccupancy + (probeCountOf n (b i).hashAndOccupancy i - d)) % n)).hashAndOccupancy ≠ 0 ∧
      probeCountOf n (b i).hashAndOccupancy i - d ≤
        probeCountOf n
          (b (((b i).hashAndOccupancy + (probeCountOf n (b i).hashAndOccupancy i - d)) % n)).hashAndOccupancy
          (((b i).hashAndOccupancy + (probeCountOf n (b i).hashAndOccupancy i - d)) % n) := by
  intro d
  induction d with
  | zero =>
    intro _
    simp only [Nat.sub_zero]
    rw [probeCountOf_spec n _ i hi]
    exact ⟨hocc, Nat.le_refl _⟩
  | succ d ih =>
    intro hd
    obtain ⟨ho, hp⟩ := ih (by omega)
    set c := probeCountOf n (b i).hashAndOccupancy i with hc
    set a := (b i).hashAndOccupancy with ha
    have hsucc : ((a + (c - (d + 1))) % n + 1) % n = (a + (c - d)) % n := by
      rw [Nat.mod_add_mod]
      congr 1; omega
    have hy : (a + (c - (d + 1))) % n < n := Nat.mod_lt _ hn
    have := hrun _ hy (by rw [hsucc]; exact ho) (by rw [hsucc]; omega)
    rw [hsucc] at this
    exact ⟨this.1, by omega⟩

/-- Every probe position before an occupied bucket is occupied by an element
whose probe count is at least the probe number. -/
theorem run_probe (n : Nat) (b : Nat → HashTableBucket Element) (hn : 0 < n)
    (hrun : RunInv n b) (i : Nat) (hi : i < n) (hocc : (b i).hashAndOccupancy ≠ 0)
    (p : Nat) (hp : p ≤ probeCountOf n (b i).hashAndOccupancy i) :
    (b (((b i).hashAndOccupancy + p) % n)).hashAndOccupancy ≠ 0 ∧
      p ≤ probeCountOf n (b (((b i).hashAndOccupancy + p) % n)).hashAndOccupancy
            (((b i).hashAndOccupancy + p) % n) := by
  have := run_path n b hn hrun i hi hocc (probeCountOf n (b i).hashAndOccupancy i - p) (by omega)
  have e : probeCountOf n (b i).hashAndOccupancy i - (probeCountOf n (b i).hashAndOccupancy i - p) = p := by
    omega
  rw [e] at this
  exact this

theorem getBucketForReadLoop_succ (w : Nat) (pol : HashTablePolicy Key Element)
    (t : HashTable Element) (hao : Nat) (key : Key) (k : Nat) (hkw : k < w)
    (hmask : t.hashToBucketIndexMask = 2 ^ k - 1) (fuel p : Nat) :
    getBucketForReadLoop w pol t hao key (fuel + 1) p =
      if (t.buckets ((hao + p) % numBuckets t)).hashAndOccupancy = 0 then some none
      else if (t.buckets ((hao + p) % numBuckets t)).hashAndOccupancy = hao
          ∧ bucketHoldsKey pol (t.buckets ((hao + p) % numBuckets t)) key = true then
        some (some ((hao + p) % numBuckets t))
      else if p > probeCountOf (numBuckets t)
          (t.buckets ((hao + p) % numBuckets t)).hashAndOccupancy ((hao + p) % numBuckets t) then
        some none
      else getBucketForReadLoop w pol t hao key fuel (p + 1) := by
  have hn : numBuckets t = 2 ^ k := numBuckets_eq_of_mask hmask
  have hlt : (hao + p) % 2 ^ k < numBuckets t := by
    rw [hn]; exact Nat.mod_lt _ (Nat.two_pow_pos k)
  have hidx : ((hao + p) % 2 ^ w) &&& t.hashToBucketIndexMask = (hao + p) % 2 ^ k := by
    rw [hmask]; exact probeIndex_eq_mod w k hao p hkw
  simp only [getBucketForReadLoop, hidx, calcProbeCount_eq t k _ hmask hlt]
  rw [hn]

theorem getBucketForReadLoop_sound (w : Nat) (pol : HashTablePolicy Key Element)
    (t : HashTable Element) (hao : Nat) (key : Key) (k : Nat) (hkw : k < w)
    (hmask : t.hashToBucketIndexMask = 2 ^ k - 1) :
    ∀ fuel p j, getBucketForReadLoop w pol t hao key fuel p = some (some j) →
      j < numBuckets t ∧ (t.buckets j).hashAndOccupancy ≠ 0 ∧ (t.buckets j).hashAndOccupancy = hao ∧
        bucketHoldsKey pol (t.buckets j) key = true := by
  intro fuel
  induction fuel with
  | zero => intro p j h; simp [getBucketForReadLoop] at h
  | succ fuel ih =>
    intro p j h
    rw [getBucketForReadLoop_succ w pol t hao key k hkw hmask] at h
    have hn : 0 < numBuckets t := by unfold numBuckets; omega
    split at h
    · simp at h
    · rename_i h0
      split at h
      · rename_i h1
        simp only [Option.some.injEq] at h
        subst h
        exact ⟨Nat.mod_lt _ hn, h0, h1.1, h1.2⟩
      · split at h
        · simp at h
        · exact ih _ _ h

/-- With an empty bucket in the array the probing loop returns before the fuel
runs out. -/
theorem getBucketForReadLoop_returns (w : Nat) (pol : HashTablePolicy Key Element)
    (t : HashTable Element) (hao : Nat) (key : Key) (k : Nat) (hkw : k < w)
    (hmask : t.hashToBucketIndexMask = 2 ^ k - 1) (e : Nat) (he : e < numBuckets t)
    (hempty : (t.buckets e).hashAndOccupancy = 0) :
    ∀ fuel p, p ≤ probeCountOf (numBuckets t) hao e →
      probeCountOf (numBuckets t) hao e < p + fuel →
      ∃ r, getBucketForReadLoop w pol t hao key fuel p = some r := by
  intro fuel
  induction fuel with
  | zero => intro p h1 h2; omega
  | succ fuel ih =>
    intro p h1 h2
    rw [getBucketForReadLoop_succ w pol t hao key k hkw hmask]
    split
    · exact ⟨_, rfl⟩
    · rename_i h0
      split
      · exact ⟨_, rfl⟩
      · split
        · exact ⟨_, rfl⟩
        · have hne : p ≠ probeCountOf (numBuckets t) hao e := by
            intro hp
            apply h0
            rw [hp, probeCountOf_spec _ _ _ he]
            exact hempty
          exact ih (p + 1) (by omega) (by omega)

/-- Under the run invariant the probing loop reaches a bucket that holds the
key, if there is one. -/
theorem getBucketForReadLoop_finds (w : Nat) (pol : HashTablePolicy Key Element)
    (t : HashTable Element) (hao : Nat) (key : Key) (k : Nat) (hkw : k < w)
    (hmask : t.hashToBucketIndexMask = 2 ^ k - 1) (hrun : RunInv (numBuckets t) t.buckets)
    (i : Nat) (hi : i < numBuckets t) (hocc : (t.buckets i).hashAndOccupancy ≠ 0)
    (hword : (t.buckets i).hashAndOccupancy = hao)
    (hkey : bucketHoldsKey pol (t.buckets i) key = true) :
    ∀ fuel p, p ≤ probeCountOf (numBuckets t) hao i →
      probeCountOf (numBuckets t) hao i < p + fuel →
      ∃ j, getBucketForReadLoop w pol t hao key fuel p = some (some j) := by
  have hn : 0 < numBuckets t := by unfold numBuckets; omega
  intro fuel
  induction fuel with
  | zero => intro p h1 h2; omega
  | succ fuel ih =>
    intro p h1 h2
    rw [getBucketForReadLoop_succ w pol t hao key k hkw hmask]
    have hpath := run_probe (numBuckets t) t.buckets hn hrun i hi hocc p (by rw [hword]; exact h1)
    rw [hword] at hpath
    rw [if_neg hpath.1]
    split
    · exact ⟨_, rfl⟩
    · rename_i hnm
      rw [if_neg (by omega)]
      have hne : p ≠ probeCountOf (numBuckets t) hao i := by
        intro hp
        apply hnm
        rw [hp, probeCountOf_spec _ _ _ hi]
        exact ⟨hword, hkey⟩
      exact ih (p + 1) (by omega) (by omega)

/-! ## Eviction: the forward shift -/

theorem succ_mod_eq_nextIndex (n x : Nat) (hx : x < n) : (x + 1) % n = nextIndex n x := by
  unfold nextIndex
  rw [mod_lt_two_mul _ _ (by omega)]
  split_ifs <;> omega

theorem succ_and_mask_eq_nextIndex (k x : Nat) (hx : x < 2 ^ k) :
    (x + 1) &&& (2 ^ k - 1) = nextIndex (2 ^ k) x := by
  rw [and_mask_eq_mod, succ_mod_eq_nextIndex _ _ hx]

theorem probeCountOf_eq_distance (n word i : Nat) (hi : i < n) :
    probeCountOf n word i = distance n (word % n) i := by
  rw [probeCountOf_eq n word i hi]; rfl

theorem distance_lt (n x y : Nat) (hx : x < n) (hy : y < n) : distance n x y < n := by
  unfold distance; split_ifs <;> omega

theorem distance_eq_zero (n x y : Nat) (hx : x < n) :
    distance n x y = 0 ↔ y = x := by
  unfold distance; split_ifs <;> omega

theorem distance_eq_one (n x y : Nat) (hn : 2 ≤ n) (hx : x < n) (hy : y < n) :
    distance n x y = 1 ↔ y = nextIndex n x := by
  unfold distance nextIndex; split_ifs <;> omega

theorem nextIndex_lt (n x : Nat) (hn : 0 < n) : nextIndex n x < n := by
  unfold nextIndex; split_ifs <;> omega

theorem prevIndex_lt (n y : Nat) (hn : 0 < n) (hy : y < n) : prevIndex n y < n := by
  unfold prevIndex; split_ifs <;> omega

theorem distance_nextIndex (n x y : Nat) (hn : 2 ≤ n) (hx : x < n) (hy : y < n) :
    distance n (nextIndex n x) y = if y = x then n - 1 else distance n x y - 1 := by
  unfold distance nextIndex; split_ifs <;> omega

theorem distance_prevIndex (n x y : Nat) (hn : 2 ≤ n) (hx : x < n) (hy : y < n) :
    distance n x (prevIndex n y) = if y = x then n - 1 else distance n x y - 1 := by
  unfold distance prevIndex; split_ifs <;> omega

theorem nextIndex_prevIndex (n y : Nat) (hn : 0 < n) (hy : y < n) :
    nextIndex n (prevIndex n y) = y := by
  unfold nextIndex prevIndex; split_ifs <;> omega

theorem prevIndex_nextIndex (n x : Nat) (hn : 0 < n) (hx : x < n) :
    prevIndex n (nextIndex n x) = x := by
  unfold nextIndex prevIndex; split_ifs <;> first | omega | contradiction

theorem evictLoop_spec (k : Nat) :
    ∀ (fuel : Nat) (B : Nat → HashTableBucket Element) (x : Nat) (e : Option Element) (h j : Nat),
      x < 2 ^ k → 1 ≤ j → j < 2 ^ k → j ≤ fuel →
      (∀ y, y < 2 ^ k → 1 ≤ distance (2 ^ k) x y → distance (2 ^ k) x y < j →
        (B y).hashAndOccupancy ≠ 0) →
      (∀ y, y < 2 ^ k → distance (2 ^ k) x y = j → (B y).hashAndOccupancy = 0) →
      ∃ R, evictLoop (2 ^ k - 1) fuel B x e h = some R ∧
        ∀ y, y < 2 ^ k →
          R y = if 1 ≤ distance (2 ^ k) x y ∧ distance (2 ^ k) x y ≤ j then
                  (if distance (2 ^ k) x y = 1 then ⟨h, e⟩ else B (prevIndex (2 ^ k) y))
                else B y := by
  intro fuel
  induction fuel with
  | zero => intro B x e h j _ h1 _ h2; omega
  | succ fuel ih =>
    intro B x e h j hx hj1 hjn hjf hocc hemp
    have hx1 : nextIndex (2 ^ k) x < 2 ^ k := by unfold nextIndex; split_ifs <;> omega
    have hd1 : distance (2 ^ k) x (nextIndex (2 ^ k) x) = 1 := by
      unfold distance nextIndex; split_ifs <;> omega
    simp only [evictLoop, succ_and_mask_eq_nextIndex k x hx]
    by_cases h0 : (B (nextIndex (2 ^ k) x)).hashAndOccupancy = 0
    · rw [if_pos h0]
      have hj : j = 1 := by
        by_contra hne
        exact hocc _ hx1 (by omega) (by omega) h0
      subst hj
      refine ⟨_, rfl, ?_⟩
      intro y hy
      have hn2 : 2 ≤ 2 ^ k := by omega
      have e1 := distance_eq_one (2 ^ k) x y hn2 hx hy
      unfold setBucket
      by_cases hy1 : y = nextIndex (2 ^ k) x
      · rw [if_pos hy1, if_pos (by omega), if_pos (e1.2 hy1)]
      · rw [if_neg hy1, if_neg (by omega)]
    · rw [if_neg h0]
      have hj : 2 ≤ j := by
        by_contra hne
        exact h0 (hemp _ hx1 (by omega))
      obtain ⟨R, hR, hspec⟩ := ih (setBucket B (nextIndex (2 ^ k) x) ⟨h, e⟩) (nextIndex (2 ^ k) x)
        (B (nextIndex (2 ^ k) x)).contents (B (nextIndex (2 ^ k) x)).hashAndOccupancy (j - 1)
        hx1 (by omega) (by omega) (by omega)
        (by
          intro y hy hy1 hy2
          have hne : y ≠ nextIndex (2 ^ k) x := by
            intro he
            have := (distance_eq_zero (2 ^ k) _ y hx1).2 he
            omega
          have : setBucket B (nextIndex (2 ^ k) x) ⟨h, e⟩ y = B y := by
            unfold setBucket; rw [if_neg hne]
          rw [this]
          have hn2 : 2 ≤ 2 ^ k := by omega
          have e2 := distance_nextIndex (2 ^ k) x y hn2 hx hy
          have e3 := distance_eq_zero (2 ^ k) x y hx
          have e4 := distance_lt (2 ^ k) x y hx hy
          apply hocc y hy
          · split_ifs at e2 <;> omega
          · split_ifs at e2 <;> omega)
        (by
          intro y hy hyj
          have hne : y ≠ nextIndex (2 ^ k) x := by
            intro he
            have := (distance_eq_zero (2 ^ k) _ y hx1).2 he
            omega
          have : setBucket B (nextIndex (2 ^ k) x) ⟨h, e⟩ y = B y := by
            unfold setBucket; rw [if_neg hne]
          rw [this]
          have hn2 : 2 ≤ 2 ^ k := by omega
          have e2 := distance_nextIndex (2 ^ k) x y hn2 hx hy
          have e3 := distance_eq_zero (2 ^ k) x y hx
          have e4 := distance_lt (2 ^ k) x y hx hy
          apply hemp y hy
          split_ifs at e2 <;> omega)
      refine ⟨R, hR, ?_⟩
      intro y hy
      rw [hspec y hy]
      have hn2 : 2 ≤ 2 ^ k := by omega
      have e0 := distance_eq_zero (2 ^ k) _ y hx1
      have e1 := distance_eq_one (2 ^ k) _ y hn2 hx1 hy
      have e2 := distance_nextIndex (2 ^ k) x y hn2 hx hy
      have e3 := distance_eq_zero (2 ^ k) x y hx
      have e4 := distance_lt (2 ^ k) x y hx hy
      have e5 := distance_eq_one (2 ^ k) x y hn2 hx hy
      have hpy := prevIndex_lt (2 ^ k) y (by omega) hy
      have e6 := distance_eq_zero (2 ^ k) _ (prevIndex (2 ^ k) y) hx1
      have e7 := distance_prevIndex (2 ^ k) (nextIndex (2 ^ k) x) y hn2 hx1 hy
      have e8 := nextIndex_prevIndex (2 ^ k) y (by omega) hy
      unfold setBucket
      generalize distance (2 ^ k) x y = d at *
      generalize distance (2 ^ k) (nextIndex (2 ^ k) x) y = d1 at *
      generalize distance (2 ^ k) (nextIndex (2 ^ k) x) (prevIndex (2 ^ k) y) = d2 at *
      by_cases c0 : d1 = 0
      · have hy1 := e0.1 c0
        rw [if_neg (by omega), if_pos hy1, if_pos (by split_ifs at e2 <;> omega),
          if_pos (e5.2 hy1)]
      · have hy1 : y ≠ nextIndex (2 ^ k) x := fun hh => c0 (e0.2 hh)
        by_cases c1 : d1 = 1
        · have hp : prevIndex (2 ^ k) y = nextIndex (2 ^ k) x := by
            have := e1.1 c1
            rw [this, prevIndex_nextIndex _ _ (by omega) hx1]
          rw [if_pos (by omega), if_pos c1, if_pos (by split_ifs at e2 <;> omega),
            if_neg (by split_ifs at e2 <;> omega), hp]
        · by_cases c2 : d1 ≤ j - 1
          · have hp : prevIndex (2 ^ k) y ≠ nextIndex (2 ^ k) x := by
              intro hh
              have := e6.2 hh
              split_ifs at e7 <;> omega
            rw [if_pos (by omega), if_neg c1, if_neg hp, if_pos (by split_ifs at e2 <;> omega),
              if_neg (by split_ifs at e2 <;> omega)]
          · rw [if_neg (by omega), if_neg hy1, if_neg (by split_ifs at e2 <;> omega)]

/-! ## C1: the early-exit probe against a scan of the array -/

theorem getBucketForRead_spec (w : Nat) (pol : HashTablePolicy Key Element)
    (t : HashTable Element) (k : Nat) (hkw : k < w)
    (hmask : t.hashToBucketIndexMask = 2 ^ k - 1) (hrun : RunInv (numBuckets t) t.buckets)
    (hempty : HasEmptyBucket t) (hash : Nat) (key : Key) :
    (∃ r, getBucketForRead w pol t hash key = some r) ∧
    ((∃ j, getBucketForRead w pol t hash key = some (some j)) ↔
      ∃ i, i < numBuckets t ∧ (t.buckets i).hashAndOccupancy ≠ 0 ∧
        (t.buckets i).hashAndOccupancy = (hash ||| isOccupiedMask w) ∧
        bucketHoldsKey pol (t.buckets i) key = true) ∧
    (∀ j, getBucketForRead w pol t hash key = some (some j) →
      j < numBuckets t ∧ (t.buckets j).hashAndOccupancy ≠ 0 ∧
        (t.buckets j).hashAndOccupancy = (hash ||| isOccupiedMask w) ∧
        bucketHoldsKey pol (t.buckets j) key = true) := by
  have hn : 0 < numBuckets t := by unfold numBuckets; omega
  have hsound := getBucketForReadLoop_sound w pol t (hash ||| isOccupiedMask w) key k hkw hmask
    (numBuckets t) 0
  refine ⟨?_, ⟨?_, ?_⟩, ?_⟩
  · obtain ⟨e, he, hemp⟩ := hempty
    exact getBucketForReadLoop_returns w pol t _ key k hkw hmask e he hemp (numBuckets t) 0
      (Nat.zero_le _) (by have := probeCountOf_lt (numBuckets t) (hash ||| isOccupiedMask w) e hn; omega)
  · rintro ⟨j, hj⟩
    exact ⟨j, hsound j hj⟩
  · rintro ⟨i, hi, hocc, hword, hkey⟩
    exact getBucketForReadLoop_finds w pol t _ key k hkw hmask hrun i hi hocc hword hkey
      (numBuckets t) 0 (Nat.zero_le _)
      (by have := probeCountOf_lt (numBuckets t) (hash ||| isOccupiedMask w) i hn; omega)
  · exact fun j hj => hsound j hj

/-- C1 (as amended). On a table with power-of-two sizing that satisfies the Robin
Hood ordering, in which every occupied bucket that follows an empty bucket sits in
its ideal slot, and that has an empty bucket, `getBucketForRead(h, k)` returns; it
returns a bucket if and only if some occupied bucket has the word
`h | OCCUPIED_MASK` and a key equal to `k`; and a returned bucket has that word
and an equal key. -/
theorem getBucketForRead_agrees_with_scan (w : Nat) (pol : HashTablePolicy Key Element)
    (t : HashTable Element) (hsize : SizeInv w t) (hrh : RobinHoodOrdering t)
    (hgap : IdealAfterEmpty t) (hempty : HasEmptyBucket t) (hash : Nat) (key : Key) :
    (∃ r, getBucketForRead w pol t hash key = some r) ∧
    ((∃ j, getBucketForRead w pol t hash key = some (some j)) ↔
      ∃ i, i < numBuckets t ∧ (t.buckets i).hashAndOccupancy ≠ 0 ∧
        (t.buckets i).hashAndOccupancy = (hash ||| isOccupiedMask w) ∧
        bucketHoldsKey pol (t.buckets i) key = true) ∧
    (∀ j, getBucketForRead w pol t hash key = some (some j) →
      j < numBuckets t ∧ (t.buckets j).hashAndOccupancy ≠ 0 ∧
        (t.buckets j).hashAndOccupancy = (hash ||| isOccupiedMask w) ∧
        bucketHoldsKey pol (t.buckets j) key = true) := by
  have hrun := runInv_of_ordering w t hsize hrh hgap
  obtain ⟨k, hk1, hkw, hmask⟩ := hsize
  exact getBucketForRead_spec w pol t k hkw hmask hrun hempty hash key

/-- Witness for C1 (as amended): the lookup of key 9 with hash 1 in `runTable`. -/
theorem getBucketForRead_agrees_with_scan_witness :
    (∃ r, getBucketForRead 64 natSetPolicy runTable 1 9 = some r) ∧
    ((∃ j, getBucketForRead 64 natSetPolicy runTable 1 9 = some (some j)) ↔
      ∃ i, i < numBuckets runTable ∧ (runTable.buckets i).hashAndOccupancy ≠ 0 ∧
        (runTable.buckets i).hashAndOccupancy = (1 ||| isOccupiedMask 64) ∧
        bucketHoldsKey natSetPolicy (runTable.buckets i) 9 = true) ∧
    (∀ j, getBucketForRead 64 natSetPolicy runTable 1 9 = some (some j) →
      j < numBuckets runTable ∧ (runTable.buckets j).hashAndOccupancy ≠ 0 ∧
        (runTable.buckets j).hashAndOccupancy = (1 ||| isOccupiedMask 64) ∧
        bucketHoldsKey natSetPolicy (runTable.buckets j) 9 = true) :=
  getBucketForRead_agrees_with_scan 64 natSetPolicy runTable ⟨2, by decide, by decide, by decide⟩
    (by unfold RobinHoodOrdering; decide) (by unfold IdealAfterEmpty; decide)
    ⟨0, by decide, by decide⟩ 1 9

/-- C1 (as stated) fails: `gapTable` satisfies the Robin Hood ordering and has
empty buckets, bucket 1 is occupied with the word `4 | OCCUPIED_MASK` and key 7,
and `getBucketForRead(4, 7)` returns `nullptr`. -/
theorem getBucketForRead_misses_after_gap :
    SizeInv 64 gapTable ∧ RobinHoodOrdering gapTable ∧ HasEmptyBucket gapTable ∧
    (∃ i, i < numBuckets gapTable ∧ (gapTable.buckets i).hashAndOccupancy ≠ 0 ∧
      (gapTable.buckets i).hashAndOccupancy = (4 ||| isOccupiedMask 64) ∧
      bucketHoldsKey natSetPolicy (gapTable.buckets i) 7 = true) ∧
    getBucketForRead 64 natSetPolicy gapTable 4 7 = some none := by
  refine ⟨⟨2, by decide, by decide, by decide⟩, by unfold RobinHoodOrdering; decide,
    ⟨0, by decide, by decide⟩, ⟨1, by decide, by decide, by decide, by decide⟩, by decide⟩

/-! ## The multiset of stored buckets -/

theorem mem_storedBuckets (n : Nat) (b : Nat → HashTableBucket Element)
    (x : HashTableBucket Element) :
    x ∈ storedBuckets n b ↔ x.hashAndOccupancy ≠ 0 ∧ ∃ i, i < n ∧ b i = x := by
  unfold storedBuckets
  simp only [Multiset.mem_filter, Multiset.mem_map, Multiset.mem_range]
  tauto

theorem storedBuckets_empty (n : Nat) :
    storedBuckets n (fun _ => (emptyBucket : HashTableBucket Element)) = 0 := by
  unfold storedBuckets
  rw [Multiset.filter_eq_nil]
  intro x hx
  simp only [Multiset.mem_map, Multiset.mem_range] at hx
  obtain ⟨_, _, rfl⟩ := hx
  simp [emptyBucket]

theorem storedBuckets_setBucket (n : Nat) (b : Nat → HashTableBucket Element) (i : Nat)
    (hi : i < n) (v : HashTableBucket Element) :
    storedBuckets n (setBucket b i v) + (if (b i).hashAndOccupancy ≠ 0 then {b i} else 0)
      = storedBuckets n b + (if v.hashAndOccupancy ≠ 0 then {v} else 0) := by
  unfold storedBuckets
  have hmem : i ∈ Multiset.range n := Multiset.mem_range.2 hi
  have hsplit : Multiset.range n = i ::ₘ (Multiset.range n).erase i :=
    (Multiset.cons_erase hmem).symm
  have hrest : Multiset.map (setBucket b i v) ((Multiset.range n).erase i)
      = Multiset.map b ((Multiset.range n).erase i) := by
    apply Multiset.map_congr rfl
    intro x hx
    have := ((Multiset.nodup_range n).mem_erase_iff).1 hx
    unfold setBucket
    rw [if_neg this.1]
  have hself : setBucket b i v i = v := by unfold setBucket; rw [if_pos rfl]
  rw [hsplit, Multiset.map_cons, Multiset.map_cons, hrest, hself]
  rw [Multiset.filter_cons, Multiset.filter_cons]
  by_cases h1 : (b i).hashAndOccupancy ≠ 0 <;> by_cases h2 : v.hashAndOccupancy ≠ 0
  · rw [if_pos h1, if_pos h2]; abel
  · rw [if_pos h1, if_neg h2]; abel
  · rw [if_neg h1, if_pos h2]; abel
  · rw [if_neg h1, if_neg h2]

theorem card_storedBuckets_le (n : Nat) (b : Nat → HashTableBucket Element) :
    Multiset.card (storedBuckets n b) ≤ n := by
  unfold storedBuckets
  calc Multiset.card (Multiset.filter _ (Multiset.map b (Multiset.range n)))
      ≤ Multiset.card (Multiset.map b (Multiset.range n)) :=
        Multiset.card_le_card (Multiset.filter_le _ _)
    _ = n := by simp

theorem exists_empty_of_card_lt (n : Nat) (b : Nat → HashTableBucket Element)
    (h : Multiset.card (storedBuckets n b) < n) :
    ∃ i, i < n ∧ (b i).hashAndOccupancy = 0 := by
  by_contra hne
  have hall : ∀ x ∈ Multiset.map b (Multiset.range n), x.hashAndOccupancy ≠ 0 := by
    intro x hx
    simp only [Multiset.mem_map, Multiset.mem_range] at hx
    obtain ⟨i, hi, rfl⟩ := hx
    intro h0
    exact hne ⟨i, hi, h0⟩
  have : storedBuckets n b = Multiset.map b (Multiset.range n) := by
    unfold storedBuckets
    exact Multiset.filter_eq_self.2 hall
  rw [this] at h
  simp at h

theorem card_storedBuckets_lt_of_empty (n : Nat) (b : Nat → HashTableBucket Element)
    (i : Nat) (hi : i < n) (h0 : (b i).hashAndOccupancy = 0) :
    Multiset.card (storedBuckets n b) < n := by
  have h := storedBuckets_setBucket n b i hi ⟨1, none⟩
  rw [if_neg (by simp [h0]), if_pos (by simp)] at h
  have hc := congrArg Multiset.card h
  simp only [Multiset.card_add, Multiset.card_singleton, add_zero] at hc
  have := card_storedBuckets_le n (setBucket b i ⟨1, none⟩)
  omega

theorem evictLoop_stored (k : Nat) :
    ∀ (fuel : Nat) (B : Nat → HashTableBucket Element) (x : Nat) (e : Option Element) (h : Nat)
      (R : Nat → HashTableBucket Element),
      x < 2 ^ k → h ≠ 0 → evictLoop (2 ^ k - 1) fuel B x e h = some R →
      storedBuckets (2 ^ k) R = storedBuckets (2 ^ k) B + {⟨h, e⟩} := by
  intro fuel
  induction fuel with
  | zero => intro B x e h R _ _ hR; simp [evictLoop] at hR
  | succ fuel ih =>
    intro B x e h R hx hh hR
    have hx1 : nextIndex (2 ^ k) x < 2 ^ k := nextIndex_lt _ _ (by omega)
    simp only [evictLoop, succ_and_mask_eq_nextIndex k x hx] at hR
    have hset := storedBuckets_setBucket (2 ^ k) B (nextIndex (2 ^ k) x) hx1 ⟨h, e⟩
    rw [if_pos (show (⟨h, e⟩ : HashTableBucket Element).hashAndOccupancy ≠ 0 from hh)] at hset
    by_cases h0 : (B (nextIndex (2 ^ k) x)).hashAndOccupancy = 0
    · rw [if_pos h0] at hR
      rw [if_neg (by simp [h0])] at hset
      simp only [Option.some.injEq] at hR
      subst hR
      simpa using hset
    · rw [if_neg h0] at hR
      rw [if_pos h0] at hset
      have := ih _ _ _ _ R hx1 h0 hR
      rw [this]
      exact hset

/-- The effect of `evictHashBucket` on an occupied bucket `i` of an array that
has an empty bucket at distance `j` and none nearer: the buckets up to distance
`j` move one slot forward, bucket `i` becomes empty, the others stay. -/
theorem evictHashBucket_spec (t : HashTable Element) (k : Nat) (hk1 : 1 ≤ k)
    (hmask : t.hashToBucketIndexMask = 2 ^ k - 1) (i : Nat) (hi : i < 2 ^ k)
    (hocc : (t.buckets i).hashAndOccupancy ≠ 0) (j : Nat) (hj1 : 1 ≤ j) (hjn : j < 2 ^ k)
    (hfull : ∀ y, y < 2 ^ k → distance (2 ^ k) i y < j → (t.buckets y).hashAndOccupancy ≠ 0)
    (hemp : ∀ y, y < 2 ^ k → distance (2 ^ k) i y = j → (t.buckets y).hashAndOccupancy = 0) :
    ∃ t1, evictHashBucket t i = some t1 ∧
      t1.hashToBucketIndexMask = t.hashToBucketIndexMask ∧ t1.numElements = t.numElements ∧
      storedBuckets (2 ^ k) t1.buckets = storedBuckets (2 ^ k) t.buckets ∧
      ∀ y, y < 2 ^ k →
        t1.buckets y = if y = i then ⟨0, none⟩
          else if distance (2 ^ k) i y ≤ j then t.buckets (prevIndex (2 ^ k) y)
          else t.buckets y := by
  have hn : numBuckets t = 2 ^ k := numBuckets_eq_of_mask hmask
  have hn2 : 2 ≤ 2 ^ k := by
    calc 2 = 2 ^ 1 := rfl
      _ ≤ 2 ^ k := Nat.pow_le_pow_right (by omega) hk1
  have hne : ∀ y, y < 2 ^ k → 1 ≤ distance (2 ^ k) i y → y ≠ i := by
    intro y _ hy1 he
    have := (distance_eq_zero (2 ^ k) i y hi).2 he
    omega
  obtain ⟨R, hR, hspec⟩ := evictLoop_spec k (numBuckets t) (setBucket t.buckets i ⟨0, none⟩) i
    (t.buckets i).contents (t.buckets i).hashAndOccupancy j hi hj1 hjn (by omega)
    (by
      intro y hy hy1 hy2
      unfold setBucket
      rw [if_neg (hne y hy hy1)]
      exact hfull y hy hy2)
    (by
      intro y hy hyj
      unfold setBucket
      rw [if_neg (hne y hy (by omega))]
      exact hemp y hy hyj)
  refine ⟨{ t with buckets := R }, ?_, rfl, rfl, ?_, ?_⟩
  · unfold evictHashBucket
    simp only [hocc, if_false, hmask, hR]
  · show storedBuckets (2 ^ k) R = _
    rw [evictLoop_stored k _ _ _ _ _ R hi hocc hR]
    have := storedBuckets_setBucket (2 ^ k) t.buckets i hi ⟨0, none⟩
    rw [if_pos hocc, if_neg (by simp)] at this
    simpa using this
  · intro y hy
    show R y = _
    rw [hspec y hy]
    have e0 := distance_eq_zero (2 ^ k) i y hi
    have e1 := distance_eq_one (2 ^ k) i y hn2 hi hy
    have e2 := prevIndex_nextIndex (2 ^ k) i (by omega) hi
    by_cases hyi : y = i
    · rw [if_pos hyi, if_neg (by omega)]
      unfold setBucket
      rw [if_pos hyi]
    · rw [if_neg hyi]
      have hd1 : 1 ≤ distance (2 ^ k) i y := by
        by_contra hh
        exact hyi (e0.1 (by omega))
      by_cases hdj : distance (2 ^ k) i y ≤ j
      · rw [if_pos ⟨hd1, hdj⟩, if_pos hdj]
        by_cases hd : distance (2 ^ k) i y = 1
        · rw [if_pos hd, e1.1 hd, e2]
        · rw [if_neg hd]
          unfold setBucket
          have : prevIndex (2 ^ k) y ≠ i := by
            intro hp
            have := nextIndex_prevIndex (2 ^ k) y (by omega) hy
            rw [hp] at this
            exact hd (e1.2 this.symm)
          rw [if_neg this]
      · rw [if_neg (by omega), if_neg hdj]
        unfold setBucket
        rw [if_neg hyi]

/-! ## Helpers for shifted runs -/

theorem two_le_two_pow (k : Nat) (hk1 : 1 ≤ k) : 2 ≤ 2 ^ k := by
  calc 2 = 2 ^ 1 := rfl
    _ ≤ 2 ^ k := Nat.pow_le_pow_right (by omega) hk1

theorem or_isOccupiedMask_ne_zero (w hash : Nat) : hash ||| isOccupiedMask w ≠ 0 := by
  intro h
  have h1 : (hash ||| isOccupiedMask w).testBit (w - 1) = true := by
    rw [Nat.testBit_or]
    unfold isOccupiedMask
    rw [Nat.testBit_two_pow_self]
    simp
  rw [h] at h1
  simp at h1

theorem or_isOccupiedMask_idem (w hash : Nat) :
    (hash ||| isOccupiedMask w) ||| isOccupiedMask w = hash ||| isOccupiedMask w := by
  rw [Nat.lor_assoc, Nat.or_self]

theorem probeCountOf_nextIndex (n word y : Nat) (hy : y < n) :
    probeCountOf n word (nextIndex n y) =
      if probeCountOf n word y + 1 < n then probeCountOf n word y + 1 else 0 := by
  have hr : word % n < n := Nat.mod_lt _ (by omega)
  rw [probeCountOf_eq_distance n word _ (nextIndex_lt n y (by omega)),
    probeCountOf_eq_distance n word y hy]
  generalize word % n = r at hr
  unfold distance nextIndex
  split_ifs <;> omega

theorem probeCountOf_prevIndex (n word y : Nat) (hy : y < n) :
    probeCountOf n word (prevIndex n y) =
      if probeCountOf n word y = 0 then n - 1 else probeCountOf n word y - 1 := by
  have hr : word % n < n := Nat.mod_lt _ (by omega)
  rw [probeCountOf_eq_distance n word _ (prevIndex_lt n y (by omega) hy),
    probeCountOf_eq_distance n word y hy]
  generalize word % n = r at hr
  unfold distance prevIndex
  split_ifs <;> omega

theorem distance_eq_probeCountOf (n x y : Nat) (hx : x < n) (hy : y < n) :
    distance n x y = probeCountOf n x y := by
  rw [probeCountOf_eq_distance n x y hy, Nat.mod_eq_of_lt hx]

theorem distance_inj (n x y z : Nat) (hx : x < n) (hy : y < n) (hz : z < n)
    (h : distance n x y = distance n x z) : y = z := by
  unfold distance at h
  split_ifs at h <;> omega

theorem distance_add_mod (n x d : Nat) (hx : x < n) (hd : d < n) :
    distance n x ((x + d) % n) = d := by
  rw [distance_eq_probeCountOf n x _ hx (Nat.mod_lt _ (by omega))]
  exact probeCountOf_probe n x d hd

/-- The run invariant stated with `nextIndex`. -/
theorem runInv_iff (n : Nat) (b : Nat → HashTableBucket Element) :
    RunInv n b ↔
      ∀ i, i < n → (b (nextIndex n i)).hashAndOccupancy ≠ 0 →
        probeCountOf n (b (nextIndex n i)).hashAndOccupancy (nextIndex n i) ≠ 0 →
        (b i).hashAndOccupancy ≠ 0 ∧
          probeCountOf n (b (nextIndex n i)).hashAndOccupancy (nextIndex n i)
            ≤ probeCountOf n (b i).hashAndOccupancy i + 1 := by
  unfold RunInv
  constructor
  · intro h i hi
    have := h i hi
    rwa [succ_mod_eq_nextIndex n i hi] at this
  · intro h i hi
    have := h i hi
    rwa [← succ_mod_eq_nextIndex n i hi] at this

/-- Under the run invariant, with an empty bucket in the array, no probe count
reaches `n - 1`. -/
theorem probeCountOf_succ_lt (n : Nat) (b : Nat → HashTableBucket Element)
    (hrun : RunInv n b) (e : Nat) (he : e < n) (hemp : (b e).hashAndOccupancy = 0)
    (y : Nat) (hy : y < n) (hocc : (b y).hashAndOccupancy ≠ 0) :
    probeCountOf n (b y).hashAndOccupancy y + 1 < n := by
  have hn : 0 < n := by omega
  by_contra hge
  have hlt := probeCountOf_lt n (b y).hashAndOccupancy e hn
  have := run_probe n b hn hrun y hy hocc (probeCountOf n (b y).hashAndOccupancy e)
    (by have := probeCountOf_lt n (b y).hashAndOccupancy y hn; omega)
  rw [probeCountOf_spec n _ e he] at this
  exact this.1 hemp

/-- The first empty bucket after an occupied bucket `i`. -/
theorem exists_first_empty (n : Nat) (b : Nat → HashTableBucket Element) (i : Nat)
    (hi : i < n) (hocc : (b i).hashAndOccupancy ≠ 0)
    (hempty : ∃ e, e < n ∧ (b e).hashAndOccupancy = 0) :
    ∃ j, 1 ≤ j ∧ j < n ∧
      (∀ y, y < n → distance n i y < j → (b y).hashAndOccupancy ≠ 0) ∧
      (∀ y, y < n → distance n i y = j → (b y).hashAndOccupancy = 0) := by
  classical
  have hex : ∃ d, ∃ y, y < n ∧ distance n i y = d ∧ (b y).hashAndOccupancy = 0 := by
    obtain ⟨e, he, h0⟩ := hempty
    exact ⟨_, e, he, rfl, h0⟩
  obtain ⟨y0, hy0, hd0, h0⟩ := Nat.find_spec hex
  have hmin := fun m (hm : m < Nat.find hex) => Nat.find_min hex hm
  refine ⟨Nat.find hex, ?_, ?_, ?_, ?_⟩
  · by_contra hlt
    have hz : distance n i y0 = 0 := by omega
    have := (distance_eq_zero n i y0 hi).1 hz
    rw [this] at h0
    exact hocc h0
  · rw [← hd0]; exact distance_lt n i y0 hi hy0
  · intro y hy hlt h0y
    exact hmin _ hlt ⟨y, hy, rfl, h0y⟩
  · intro y hy hyj
    have := distance_inj n i y y0 hi hy hy0 (by rw [hyj, hd0])
    rw [this]; exact h0

/-! ## The run invariant under insertion -/

theorem distance_nextIndex_right (n x y : Nat) (hx : x < n) (hy : y < n) :
    distance n x (nextIndex n y) =
      if distance n x y + 1 < n then distance n x y + 1 else 0 := by
  rw [distance_eq_probeCountOf n x _ hx (nextIndex_lt n y (by omega)),
    distance_eq_probeCountOf n x y hx hy]
  exact probeCountOf_nextIndex n x y hy

theorem nextIndex_ne_self (n i : Nat) (hn : 2 ≤ n) (hi : i < n) : nextIndex n i ≠ i := by
  unfold nextIndex; split_ifs <;> omega

theorem runInv_congr_words (n : Nat) (b c : Nat → HashTableBucket Element)
    (h : ∀ y, y < n → (c y).hashAndOccupancy = (b y).hashAndOccupancy) (hrun : RunInv n b) :
    RunInv n c := by
  rw [runInv_iff] at hrun ⊢
  intro i hi
  have hs := nextIndex_lt n i (by omega)
  rw [h _ hs, h _ hi]
  exact hrun i hi

/-- Filling an empty bucket that the probe of the new word reaches keeps the run
invariant. -/
theorem runInv_fill_empty (n : Nat) (hn : 2 ≤ n) (b : Nat → HashTableBucket Element)
    (hrun : RunInv n b) (idx : Nat) (hemp : (b idx).hashAndOccupancy = 0)
    (v : HashTableBucket Element)
    (hprev : probeCountOf n v.hashAndOccupancy idx ≠ 0 →
      (b (prevIndex n idx)).hashAndOccupancy ≠ 0 ∧
        probeCountOf n v.hashAndOccupancy idx
          ≤ probeCountOf n (b (prevIndex n idx)).hashAndOccupancy (prevIndex n idx) + 1) :
    RunInv n (setBucket b idx v) := by
  rw [runInv_iff] at hrun ⊢
  intro i hi hocc hpc
  have hne := nextIndex_ne_self n i hn hi
  by_cases hs : nextIndex n i = idx
  · have hi' : i = prevIndex n idx := by rw [← hs, prevIndex_nextIndex n i (by omega) hi]
    have hii : i ≠ idx := by rw [← hs]; exact fun h => hne h.symm
    unfold setBucket at hocc hpc ⊢
    rw [if_pos hs] at hocc hpc ⊢
    rw [if_neg hii]
    rw [hs] at hpc ⊢
    rw [hi']
    exact hprev hpc
  · unfold setBucket at hocc hpc ⊢
    rw [if_neg hs] at hocc hpc ⊢
    have := hrun i hi hocc hpc
    have hii : i ≠ idx := by
      intro h; rw [h] at this; exact this.1 hemp
    rw [if_neg hii]
    exact this

/-- Filling the bucket vacated by an eviction keeps the run invariant, when the
evicted occupant had a smaller probe count than the new word. -/
theorem runInv_fill_evicted (n : Nat) (hn : 2 ≤ n) (b : Nat → HashTableBucket Element)
    (hrun : RunInv n b) (idx : Nat) (hidx : idx < n)
    (j : Nat) (hj1 : 1 ≤ j) (hjn : j < n)
    (hfull : ∀ y, y < n → distance n idx y < j → (b y).hashAndOccupancy ≠ 0)
    (hempj : ∀ y, y < n → distance n idx y = j → (b y).hashAndOccupancy = 0)
    (v : HashTableBucket Element) (hv : v.hashAndOccupancy ≠ 0)
    (hless : probeCountOf n (b idx).hashAndOccupancy idx < probeCountOf n v.hashAndOccupancy idx)
    (hprev : (b (prevIndex n idx)).hashAndOccupancy ≠ 0 ∧
        probeCountOf n v.hashAndOccupancy idx
          ≤ probeCountOf n (b (prevIndex n idx)).hashAndOccupancy (prevIndex n idx) + 1)
    (R : Nat → HashTableBucket Element)
    (hR : ∀ y, y < n → R y = if y = idx then v
        else if distance n idx y ≤ j then b (prevIndex n y) else b y) :
    RunInv n R := by
  have hn0 : 0 < n := by omega
  -- an empty bucket of the old array
  have hje : (idx + j) % n < n := Nat.mod_lt _ hn0
  have hempe : (b ((idx + j) % n)).hashAndOccupancy = 0 :=
    hempj _ hje (distance_add_mod n idx j hidx hjn)
  have hwrap := probeCountOf_succ_lt n b hrun _ hje hempe
  rw [runInv_iff] at hrun ⊢
  intro i hi hocc hpc
  have hs := nextIndex_lt n i hn0
  have hne := nextIndex_ne_self n i hn hi
  have hds := distance_nextIndex_right n idx i hidx hi
  have hd0 := distance_eq_zero n idx i hidx
  have hds0 := distance_eq_zero n idx (nextIndex n i) hidx
  have hdlt := distance_lt n idx i hidx hi
  have hpi := prevIndex_nextIndex n i hn0 hi
  rw [hR _ hs] at hocc hpc ⊢
  rw [hR _ hi]
  by_cases hsidx : nextIndex n i = idx
  · -- the new element: its predecessor is unchanged
    have hi' : i = prevIndex n idx := by rw [← hsidx, hpi]
    have hii : i ≠ idx := by rw [← hsidx]; exact fun h => hne h.symm
    rw [if_pos hsidx] at hocc hpc ⊢
    rw [if_neg hii]
    have hdi : distance n idx i = n - 1 := by
      have := hds0.2 hsidx
      split_ifs at hds <;> omega
    have hbi : (b i).hashAndOccupancy ≠ 0 := by rw [hi']; exact hprev.1
    have hjne : ¬ distance n idx i ≤ j := by
      intro hle
      have : distance n idx i = j := by omega
      exact hbi (hempj i hi this)
    rw [if_neg hjne, hsidx, hi']
    exact hprev
  · rw [if_neg hsidx] at hocc hpc ⊢
    by_cases hseg : distance n idx (nextIndex n i) ≤ j
    · rw [if_pos hseg, hpi] at hocc hpc ⊢
      have hsucc := probeCountOf_nextIndex n (b i).hashAndOccupancy i hi
      by_cases hii : i = idx
      · rw [if_pos hii]
        refine ⟨hv, ?_⟩
        rw [hii] at hsucc ⊢
        split_ifs at hsucc <;> omega
      · rw [if_neg hii]
        have hdi1 : 1 ≤ distance n idx i := by
          by_contra hh; exact hii (hd0.1 (by omega))
        have hdij : distance n idx i < j := by split_ifs at hds <;> omega
        rw [if_pos (by omega)]
        have hp := prevIndex_lt n i hn0 hi
        have hdp := distance_prevIndex n idx i hn hidx hi
        rw [if_neg hii] at hdp
        have hpocc : (b (prevIndex n i)).hashAndOccupancy ≠ 0 := hfull _ hp (by omega)
        refine ⟨hpocc, ?_⟩
        have hnp := nextIndex_prevIndex n i hn0 hi
        have hrp := hrun _ hp
        rw [hnp] at hrp
        have hsp := probeCountOf_nextIndex n (b (prevIndex n i)).hashAndOccupancy _ hp
        rw [hnp] at hsp
        have hw := hwrap _ hp hpocc
        rw [if_pos hw] at hsp
        rw [hsp]
        by_cases ha : probeCountOf n (b i).hashAndOccupancy i = 0
        · split_ifs at hsucc <;> omega
        · have := (hrp hocc ha).2
          split_ifs at hsucc <;> omega
    · rw [if_neg hseg] at hocc hpc ⊢
      have hbi := hrun i hi hocc hpc
      have hii : i ≠ idx := by
        intro h
        have := hd0.2 h
        split_ifs at hds <;> omega
      rw [if_neg hii]
      have hjne : ¬ distance n idx i ≤ j := by
        intro hle
        have hdi1 : 1 ≤ distance n idx i := by
          by_contra hh; exact hii (hd0.1 (by omega))
        have : distance n idx i = j := by split_ifs at hds <;> omega
        exact hbi.1 (hempj i hi this)
      rw [if_neg hjne]
      exact hbi

/-! ## The probing loop of getBucketForWrite -/

theorem getBucketForWriteLoop_succ (w : Nat) (pol : HashTablePolicy Key Element)
    (t : HashTable Element) (hao : Nat) (key : Key) (k : Nat) (hkw : k < w)
    (hmask : t.hashToBucketIndexMask = 2 ^ k - 1) (fuel p : Nat) :
    getBucketForWriteLoop w pol t hao key (fuel + 1) p =
      if (t.buckets ((hao + p) % numBuckets t)).hashAndOccupancy = 0 then
        some (t, (hao + p) % numBuckets t)
      else if Matches pol hao key (t.buckets ((hao + p) % numBuckets t)) then
        some (t, (hao + p) % numBuckets t)
      else if p > probeCountOf (numBuckets t)
          (t.buckets ((hao + p) % numBuckets t)).hashAndOccupancy ((hao + p) % numBuckets t) then
        match evictHashBucket t ((hao + p) % numBuckets t) with
        | none => none
        | some t1 => some (t1, (hao + p) % numBuckets t)
      else getBucketForWriteLoop w pol t hao key fuel (p + 1) := by
  have hn : numBuckets t = 2 ^ k := numBuckets_eq_of_mask hmask
  have hlt : (hao + p) % 2 ^ k < numBuckets t := by
    rw [hn]; exact Nat.mod_lt _ (Nat.two_pow_pos k)
  have hidx : ((hao + p) % 2 ^ w) &&& t.hashToBucketIndexMask = (hao + p) % 2 ^ k := by
    rw [hmask]; exact probeIndex_eq_mod w k hao p hkw
  simp only [getBucketForWriteLoop, hidx, calcProbeCount_eq t k _ hmask hlt, Matches]
  rw [hn]

/-- The outcome of the probing loop of `getBucketForWrite`: it stops at some probe
`pf`, having passed the earlier positions, on an empty bucket, on a bucket that
holds the key, or on a bucket with a smaller probe count, which it evicts. -/
theorem getBucketForWriteLoop_spec (w : Nat) (pol : HashTablePolicy Key Element)
    (t : HashTable Element) (hao : Nat) (key : Key) (k : Nat) (hkw : k < w)
    (hmask : t.hashToBucketIndexMask = 2 ^ k - 1) (e : Nat) (he : e < numBuckets t)
    (hempty : (t.buckets e).hashAndOccupancy = 0) :
    ∀ fuel p, p ≤ probeCountOf (numBuckets t) hao e →
      probeCountOf (numBuckets t) hao e < p + fuel →
      ProbedPast pol (numBuckets t) t.buckets hao key p →
      ∃ pf, pf ≤ probeCountOf (numBuckets t) hao e ∧
        ProbedPast pol (numBuckets t) t.buckets hao key pf ∧
        (((t.buckets ((hao + pf) % numBuckets t)).hashAndOccupancy = 0 ∧
            getBucketForWriteLoop w pol t hao key fuel p = some (t, (hao + pf) % numBuckets t)) ∨
          ((t.buckets ((hao + pf) % numBuckets t)).hashAndOccupancy ≠ 0 ∧
            Matches pol hao key (t.buckets ((hao + pf) % numBuckets t)) ∧
            getBucketForWriteLoop w pol t hao key fuel p = some (t, (hao + pf) % numBuckets t)) ∨
          ((t.buckets ((hao + pf) % numBuckets t)).hashAndOccupancy ≠ 0 ∧
            ¬ Matches pol hao key (t.buckets ((hao + pf) % numBuckets t)) ∧
            probeCountOf (numBuckets t)
              (t.buckets ((hao + pf) % numBuckets t)).hashAndOccupancy
              ((hao + pf) % numBuckets t) < pf ∧
            getBucketForWriteLoop w pol t hao key fuel p =
              match evictHashBucket t ((hao + pf) % numBuckets t) with
              | none => none
              | some t1 => some (t1, (hao + pf) % numBuckets t))) := by
  intro fuel
  induction fuel with
  | zero => intro p h1 h2; omega
  | succ fuel ih =>
    intro p h1 h2 hpast
    rw [getBucketForWriteLoop_succ w pol t hao key k hkw hmask]
    by_cases h0 : (t.buckets ((hao + p) % numBuckets t)).hashAndOccupancy = 0
    · exact ⟨p, h1, hpast, Or.inl ⟨h0, by rw [if_pos h0]⟩⟩
    · rw [if_neg h0]
      by_cases hm : Matches pol hao key (t.buckets ((hao + p) % numBuckets t))
      · exact ⟨p, h1, hpast, Or.inr (Or.inl ⟨h0, hm, by rw [if_pos hm]⟩)⟩
      · rw [if_neg hm]
        by_cases hlt : p > probeCountOf (numBuckets t)
            (t.buckets ((hao + p) % numBuckets t)).hashAndOccupancy ((hao + p) % numBuckets t)
        · exact ⟨p, h1, hpast, Or.inr (Or.inr ⟨h0, hm, hlt, by rw [if_pos hlt]⟩)⟩
        · rw [if_neg hlt]
          have hne : p ≠ probeCountOf (numBuckets t) hao e := by
            intro hp
            apply h0
            rw [hp, probeCountOf_spec _ _ _ he]
            exact hempty
          have hpast' : ProbedPast pol (numBuckets t) t.buckets hao key (p + 1) := by
            intro q hq
            by_cases hqp : q = p
            · subst hqp
              exact ⟨h0, hm, by omega⟩
            · exact hpast q (by omega)
          exact ih (p + 1) (by omega) (by omega) hpast'

/-- When the probe stops on an empty bucket or on a bucket with a smaller probe
count, no bucket of the array holds the key. -/
theorem absent_of_probedPast (pol : HashTablePolicy Key Element) (n : Nat) (hn : 0 < n)
    (b : Nat → HashTableBucket Element) (hrun : RunInv n b) (hao : Nat) (key : Key) (pf : Nat)
    (hpast : ProbedPast pol n b hao key pf)
    (hstop : (b ((hao + pf) % n)).hashAndOccupancy = 0 ∨
      probeCountOf n (b ((hao + pf) % n)).hashAndOccupancy ((hao + pf) % n) < pf) :
    ∀ x ∈ storedBuckets n b, ¬ Matches pol hao key x := by
  intro x hx hm
  obtain ⟨hx0, i, hi, rfl⟩ := (mem_storedBuckets n b x).1 hx
  have hword : (b i).hashAndOccupancy = hao := hm.1
  by_cases hc : pf ≤ probeCountOf n (b i).hashAndOccupancy i
  · have := run_probe n b hn hrun i hi hx0 pf hc
    rw [hword] at this
    rcases hstop with h | h
    · exact this.1 h
    · omega
  · have := (hpast (probeCountOf n (b i).hashAndOccupancy i) (by omega)).2.1
    rw [← hword, probeCountOf_spec n _ i hi] at this
    rw [← hword] at hm
    exact this hm

theorem prevIndex_probe (n a q : Nat) (hn : 0 < n) :
    prevIndex n ((a + (q + 1)) % n) = (a + q) % n := by
  have h1 : (a + q) % n < n := Nat.mod_lt _ hn
  have : nextIndex n ((a + q) % n) = (a + (q + 1)) % n := by
    rw [← succ_mod_eq_nextIndex n _ h1, Nat.mod_add_mod]
    rfl
  rw [← this, prevIndex_nextIndex n _ hn h1]

/-- The result of `getBucketForWrite` on an array that satisfies the run
invariant and has an empty bucket. -/
theorem getBucketForWrite_spec (w : Nat) (pol : HashTablePolicy Key Element)
    (t : HashTable Element) (k : Nat) (hk1 : 1 ≤ k) (hkw : k < w)
    (hmask : t.hashToBucketIndexMask = 2 ^ k - 1) (hrun : RunInv (2 ^ k) t.buckets)
    (hempty : ∃ e, e < 2 ^ k ∧ (t.buckets e).hashAndOccupancy = 0) (hash : Nat) (key : Key) :
    ∃ t1 idx, getBucketForWrite w pol t hash key = some (t1, idx) ∧ idx < 2 ^ k ∧
      t1.hashToBucketIndexMask = t.hashToBucketIndexMask ∧ t1.numElements = t.numElements ∧
      ((t1 = t ∧ (t.buckets idx).hashAndOccupancy ≠ 0 ∧
          Matches pol (hash ||| isOccupiedMask w) key (t.buckets idx)) ∨
        ((∀ x ∈ storedBuckets (2 ^ k) t.buckets, ¬ Matches pol (hash ||| isOccupiedMask w) key x) ∧
          (t1.buckets idx).hashAndOccupancy = 0 ∧
          storedBuckets (2 ^ k) t1.buckets = storedBuckets (2 ^ k) t.buckets)) ∧
      (∀ v : HashTableBucket Element, v.hashAndOccupancy = (hash ||| isOccupiedMask w) →
        RunInv (2 ^ k) (setBucket t1.buckets idx v)) := by
  have hn : numBuckets t = 2 ^ k := numBuckets_eq_of_mask hmask
  have hn2 : 2 ≤ 2 ^ k := two_le_two_pow k hk1
  have hn0 : 0 < 2 ^ k := by omega
  obtain ⟨e, he, hemp⟩ := hempty
  have hao0 := or_isOccupiedMask_ne_zero w hash
  unfold getBucketForWrite
  rw [hn]
  generalize hash ||| isOccupiedMask w = hao at hao0 ⊢
  have hpe := probeCountOf_lt (2 ^ k) hao e hn0
  obtain ⟨pf, hpf, hpast, hcase⟩ := getBucketForWriteLoop_spec w pol t hao key k hkw hmask e
    (by rw [hn]; exact he) hemp (numBuckets t) 0 (Nat.zero_le _) (by rw [hn]; omega)
    (fun q hq => absurd hq (Nat.not_lt_zero q))
  rw [hn] at hpf hpast hcase
  have hidx : (hao + pf) % 2 ^ k < 2 ^ k := Nat.mod_lt _ hn0
  have hpfn : pf < 2 ^ k := by omega
  have hpc : probeCountOf (2 ^ k) hao ((hao + pf) % 2 ^ k) = pf := probeCountOf_probe _ _ _ hpfn
  -- the predecessor of the stopping position
  have hprev : pf ≠ 0 →
      (t.buckets (prevIndex (2 ^ k) ((hao + pf) % 2 ^ k))).hashAndOccupancy ≠ 0 ∧
        pf ≤ probeCountOf (2 ^ k)
          (t.buckets (prevIndex (2 ^ k) ((hao + pf) % 2 ^ k))).hashAndOccupancy
          (prevIndex (2 ^ k) ((hao + pf) % 2 ^ k)) + 1 := by
    intro hpf0
    obtain ⟨q, rfl⟩ : ∃ q, pf = q + 1 := ⟨pf - 1, by omega⟩
    rw [prevIndex_probe _ _ _ hn0]
    have := hpast q (by omega)
    exact ⟨this.1, by omega⟩
  rcases hcase with ⟨h0, hres⟩ | ⟨h0, hm, hres⟩ | ⟨h0, hm, hlt, hres⟩
  · refine ⟨t, _, hres, hidx, rfl, rfl, Or.inr ⟨?_, h0, rfl⟩, ?_⟩
    · exact absent_of_probedPast pol _ hn0 _ hrun hao key pf hpast (Or.inl h0)
    · intro v hv
      apply runInv_fill_empty _ hn2 _ hrun _ h0
      rw [hv, hpc]
      exact hprev
  · refine ⟨t, _, hres, hidx, rfl, rfl, Or.inl ⟨rfl, h0, hm⟩, ?_⟩
    intro v hv
    apply runInv_congr_words _ t.buckets _ _ hrun
    intro y _
    unfold setBucket
    split
    · rename_i hy; rw [hv, hy, hm.1]
    · rfl
  · obtain ⟨j, hj1, hjn, hfull, hempj⟩ := exists_first_empty (2 ^ k) t.buckets _ hidx h0
      ⟨e, he, hemp⟩
    obtain ⟨t1, ht1, hmask1, hnum1, hstored, hspec⟩ :=
      evictHashBucket_spec t k hk1 hmask _ hidx h0 j hj1 hjn hfull hempj
    rw [ht1] at hres
    refine ⟨t1, _, hres, hidx, hmask1, hnum1, Or.inr ⟨?_, ?_, hstored⟩, ?_⟩
    · exact absent_of_probedPast pol _ hn0 _ hrun hao key pf hpast (Or.inr hlt)
    · rw [hspec _ hidx, if_pos rfl]
    · intro v hv
      have hpf0 : pf ≠ 0 := by omega
      apply runInv_fill_evicted _ hn2 t.buckets hrun _ hidx j hj1 hjn hfull hempj v
        (by rw [hv]; exact hao0) (by rw [hv, hpc]; exact hlt)
        (by rw [hv, hpc]; exact hprev hpf0)
      intro y hy
      unfold setBucket
      by_cases hyi : y = (hao + pf) % 2 ^ k
      · rw [if_pos hyi, if_pos hyi]
      · rw [if_neg hyi, if_neg hyi, hspec y hy, if_neg hyi]

/-! ## Backward-shift erase -/

/-- The first index after `i` that satisfies `P`. -/
theorem exists_first_after (n i : Nat) (hi : i < n) (P : Nat → Prop)
    (hex : ∃ e, e < n ∧ e ≠ i ∧ P e) :
    ∃ j, 1 ≤ j ∧ j < n ∧
      (∀ y, y < n → 1 ≤ distance n i y → distance n i y < j → ¬ P y) ∧
      (∀ y, y < n → distance n i y = j → P y) := by
  classical
  have hex' : ∃ d, ∃ y, y < n ∧ y ≠ i ∧ distance n i y = d ∧ P y := by
    obtain ⟨e, he, hne, hp⟩ := hex
    exact ⟨_, e, he, hne, rfl, hp⟩
  obtain ⟨y0, hy0, hne0, hd0, hp0⟩ := Nat.find_spec hex'
  have hmin := fun m (hm : m < Nat.find hex') => Nat.find_min hex' hm
  refine ⟨Nat.find hex', ?_, ?_, ?_, ?_⟩
  · by_contra hlt
    have hz : distance n i y0 = 0 := by omega
    exact hne0 ((distance_eq_zero n i y0 hi).1 hz)
  · rw [← hd0]; exact distance_lt n i y0 hi hy0
  · intro y hy h1 hlt hp
    have hne : y ≠ i := by
      intro h
      have := (distance_eq_zero n i y hi).2 h
      omega
    exact hmin _ hlt ⟨y, hy, hne, rfl, hp⟩
  · intro y hy hyj
    have := distance_inj n i y y0 hi hy hy0 (by rw [hyj, hd0])
    rw [this]; exact hp0

theorem eraseLoop_succ (t : HashTable Element) (k : Nat)
    (hmask : t.hashToBucketIndexMask = 2 ^ k - 1) (fuel x : Nat) (hx : x < 2 ^ k) :
    eraseLoop (fuel + 1) t x =
      if (t.buckets (nextIndex (2 ^ k) x)).hashAndOccupancy = 0 ∨
          probeCountOf (2 ^ k) (t.buckets (nextIndex (2 ^ k) x)).hashAndOccupancy
            (nextIndex (2 ^ k) x) = 0 then
        (if (t.buckets x).hashAndOccupancy = 0 then none
         else some { t with buckets := setBucket t.buckets x ⟨0, none⟩ })
      else
        eraseLoop fuel { t with buckets := setBucket t.buckets x (t.buckets (nextIndex (2 ^ k) x)) }
          (nextIndex (2 ^ k) x) := by
  have hn : numBuckets t = 2 ^ k := numBuckets_eq_of_mask hmask
  have hx1 : nextIndex (2 ^ k) x < numBuckets t := by
    rw [hn]; exact nextIndex_lt _ _ (by omega)
  have hidx : (x + 1) &&& t.hashToBucketIndexMask = nextIndex (2 ^ k) x := by
    rw [hmask]; exact succ_and_mask_eq_nextIndex k x hx
  simp only [eraseLoop, hidx, calcProbeCount_eq t k _ hmask hx1, hn]
  by_cases h0 : (t.buckets (nextIndex (2 ^ k) x)).hashAndOccupancy = 0
  · simp only [h0, true_or, if_true]
  · by_cases h1 : probeCountOf (2 ^ k) (t.buckets (nextIndex (2 ^ k) x)).hashAndOccupancy
        (nextIndex (2 ^ k) x) = 0
    · simp only [h0, h1, or_true, if_true, if_false]
    · simp only [h0, h1, or_self, if_false]

theorem eraseLoop_stored (k : Nat) :
    ∀ (fuel : Nat) (t : HashTable Element) (x : Nat) (t1 : HashTable Element),
      t.hashToBucketIndexMask = 2 ^ k - 1 → 1 ≤ k → x < 2 ^ k →
      (t.buckets x).hashAndOccupancy ≠ 0 → eraseLoop fuel t x = some t1 →
      storedBuckets (2 ^ k) t1.buckets + {t.buckets x} = storedBuckets (2 ^ k) t.buckets := by
  intro fuel
  induction fuel with
  | zero => intro t x t1 _ _ _ _ h; simp [eraseLoop] at h
  | succ fuel ih =>
    intro t x t1 hmask hk1 hx hocc h
    have hn2 := two_le_two_pow k hk1
    have hx1 : nextIndex (2 ^ k) x < 2 ^ k := nextIndex_lt _ _ (by omega)
    have hne := nextIndex_ne_self (2 ^ k) x hn2 hx
    rw [eraseLoop_succ t k hmask fuel x hx] at h
    by_cases hcont : (t.buckets (nextIndex (2 ^ k) x)).hashAndOccupancy = 0 ∨
          probeCountOf (2 ^ k) (t.buckets (nextIndex (2 ^ k) x)).hashAndOccupancy
            (nextIndex (2 ^ k) x) = 0
    · rw [if_pos hcont, if_neg hocc] at h
      simp only [Option.some.injEq] at h
      subst h
      have := storedBuckets_setBucket (2 ^ k) t.buckets x hx ⟨0, none⟩
      rw [if_pos hocc, if_neg (by simp)] at this
      simpa using this
    · rw [if_neg hcont] at h
      have hocc1 : (t.buckets (nextIndex (2 ^ k) x)).hashAndOccupancy ≠ 0 := fun h0 =>
        hcont (Or.inl h0)
      have hself : setBucket t.buckets x (t.buckets (nextIndex (2 ^ k) x)) (nextIndex (2 ^ k) x)
          = t.buckets (nextIndex (2 ^ k) x) := by
        unfold setBucket; rw [if_neg hne]
      have := ih _ _ t1 (by exact hmask) hk1 hx1 (by show (setBucket _ _ _ _).hashAndOccupancy ≠ 0; rw [hself]; exact hocc1) h
      simp only [hself] at this
      have hset := storedBuckets_setBucket (2 ^ k) t.buckets x hx (t.buckets (nextIndex (2 ^ k) x))
      rw [if_pos hocc, if_pos hocc1] at hset
      rw [← this] at hset
      have h3 : (storedBuckets (2 ^ k) t1.buckets + {t.buckets x})
          + {t.buckets (nextIndex (2 ^ k) x)}
          = storedBuckets (2 ^ k) t.buckets + {t.buckets (nextIndex (2 ^ k) x)} := by
        rw [← hset]; abel
      exact add_right_cancel h3

/-- The effect of the erase loop started at `x`, when the first bucket after `x`
that is empty or in its ideal slot lies at distance `j`: the buckets strictly
between move one slot back and the last of them is emptied. -/
theorem eraseLoop_spec (k : Nat) (hk1 : 1 ≤ k) :
    ∀ (fuel : Nat) (t : HashTable Element) (x j : Nat),
      t.hashToBucketIndexMask = 2 ^ k - 1 → x < 2 ^ k → 1 ≤ j → j < 2 ^ k → j ≤ fuel →
      (t.buckets x).hashAndOccupancy ≠ 0 →
      (∀ y, y < 2 ^ k → 1 ≤ distance (2 ^ k) x y → distance (2 ^ k) x y < j →
        ¬ ((t.buckets y).hashAndOccupancy = 0 ∨
            probeCountOf (2 ^ k) (t.buckets y).hashAndOccupancy y = 0)) →
      (∀ y, y < 2 ^ k → distance (2 ^ k) x y = j →
        ((t.buckets y).hashAndOccupancy = 0 ∨
            probeCountOf (2 ^ k) (t.buckets y).hashAndOccupancy y = 0)) →
      ∃ t1, eraseLoop fuel t x = some t1 ∧
        t1.hashToBucketIndexMask = t.hashToBucketIndexMask ∧ t1.numElements = t.numElements ∧
        ∀ y, y < 2 ^ k →
          t1.buckets y = if distance (2 ^ k) x y + 1 < j then t.buckets (nextIndex (2 ^ k) y)
            else if distance (2 ^ k) x y + 1 = j then ⟨0, none⟩ else t.buckets y := by
  have hn2 := two_le_two_pow k hk1
  intro fuel
  induction fuel with
  | zero => intro t x j _ _ h1 _ h2; omega
  | succ fuel ih =>
    intro t x j hmask hx hj1 hjn hjf hocc hmove hstop
    have hx1 : nextIndex (2 ^ k) x < 2 ^ k := nextIndex_lt _ _ (by omega)
    have hne := nextIndex_ne_self (2 ^ k) x hn2 hx
    have hd1 : distance (2 ^ k) x (nextIndex (2 ^ k) x) = 1 :=
      (distance_eq_one (2 ^ k) x _ hn2 hx hx1).2 rfl
    rw [eraseLoop_succ t k hmask fuel x hx]
    by_cases hcont : (t.buckets (nextIndex (2 ^ k) x)).hashAndOccupancy = 0 ∨
          probeCountOf (2 ^ k) (t.buckets (nextIndex (2 ^ k) x)).hashAndOccupancy
            (nextIndex (2 ^ k) x) = 0
    · rw [if_pos hcont, if_neg hocc]
      have hj : j = 1 := by
        by_contra hne1
        exact hmove _ hx1 (by omega) (by omega) hcont
      subst hj
      refine ⟨_, rfl, rfl, rfl, ?_⟩
      intro y hy
      have e0 := distance_eq_zero (2 ^ k) x y hx
      show setBucket t.buckets x ⟨0, none⟩ y = _
      unfold setBucket
      by_cases hyx : y = x
      · rw [if_pos hyx, if_neg (by omega), if_pos (by omega)]
      · have : distance (2 ^ k) x y ≠ 0 := fun h => hyx (e0.1 h)
        rw [if_neg hyx, if_neg (by omega), if_neg (by omega)]
    · rw [if_neg hcont]
      have hj : 2 ≤ j := by
        by_contra hlt
        exact hcont (hstop _ hx1 (by omega))
      have hkeep : ∀ y, y < 2 ^ k → y ≠ x →
          setBucket t.buckets x (t.buckets (nextIndex (2 ^ k) x)) y = t.buckets y := by
        intro y _ hyx
        unfold setBucket; rw [if_neg hyx]
      have hrel : ∀ y, y < 2 ^ k → distance (2 ^ k) (nextIndex (2 ^ k) x) y + 1 < 2 ^ k →
          y ≠ x ∧ distance (2 ^ k) x y = distance (2 ^ k) (nextIndex (2 ^ k) x) y + 1 := by
        intro y hy hlt
        have e2 := distance_nextIndex (2 ^ k) x y hn2 hx hy
        have e3 := distance_eq_zero (2 ^ k) x y hx
        have e4 := distance_lt (2 ^ k) x y hx hy
        constructor
        · intro h; rw [if_pos h] at e2; omega
        · split_ifs at e2 <;> omega
      obtain ⟨t1, ht1, hm1, hnum1, hspec⟩ := ih
        { t with buckets := setBucket t.buckets x (t.buckets (nextIndex (2 ^ k) x)) }
        (nextIndex (2 ^ k) x) (j - 1) hmask hx1 (by omega) (by omega) (by omega)
        (by
          show (setBucket _ _ _ _).hashAndOccupancy ≠ 0
          rw [hkeep _ hx1 hne]
          exact fun h => hcont (Or.inl h))
        (by
          intro y hy hy1 hy2
          obtain ⟨hyx, hd⟩ := hrel y hy (by omega)
          show ¬ ((setBucket _ _ _ y).hashAndOccupancy = 0 ∨
            probeCountOf (2 ^ k) (setBucket _ _ _ y).hashAndOccupancy y = 0)
          rw [hkeep y hy hyx]
          exact hmove y hy (by omega) (by omega))
        (by
          intro y hy hyj
          obtain ⟨hyx, hd⟩ := hrel y hy (by omega)
          show ((setBucket _ _ _ y).hashAndOccupancy = 0 ∨
            probeCountOf (2 ^ k) (setBucket _ _ _ y).hashAndOccupancy y = 0)
          rw [hkeep y hy hyx]
          exact hstop y hy (by omega))
      refine ⟨t1, ht1, hm1, hnum1, ?_⟩
      intro y hy
      rw [hspec y hy]
      show (if _ then setBucket t.buckets x _ _ else if _ then _ else setBucket t.buckets x _ y) = _
      have e2 := distance_nextIndex (2 ^ k) x y hn2 hx hy
      have e3 := distance_eq_zero (2 ^ k) x y hx
      have e4 := distance_lt (2 ^ k) x y hx hy
      have hny := nextIndex_lt (2 ^ k) y (by omega)
      have e5 := distance_nextIndex_right (2 ^ k) x y hx hy
      have e6 := distance_eq_zero (2 ^ k) x (nextIndex (2 ^ k) y) hx
      by_cases hyx : y = x
      · rw [if_pos hyx] at e2
        have hd0 := e3.2 hyx
        rw [if_neg (by omega), if_neg (by omega), if_pos (by omega)]
        unfold setBucket
        rw [if_pos hyx, hyx]
      · rw [if_neg hyx] at e2
        have hd0 : distance (2 ^ k) x y ≠ 0 := fun h => hyx (e3.1 h)
        by_cases c1 : distance (2 ^ k) x y + 1 < j
        · rw [if_pos (by omega), if_pos c1]
          apply hkeep _ hny
          intro h
          have := e6.2 h
          split_ifs at e5 <;> omega
        · rw [if_neg (by omega), if_neg c1]
          by_cases c2 : distance (2 ^ k) x y + 1 = j
          · rw [if_pos (by omega), if_pos c2]
          · rw [if_neg (by omega), if_neg c2]
            exact hkeep y hy hyx

/-- The backward shift keeps the run invariant. -/
theorem runInv_erase (n : Nat) (hn : 2 ≤ n) (b : Nat → HashTableBucket Element)
    (hrun : RunInv n b) (x : Nat) (hx : x < n) (j : Nat) (hj1 : 1 ≤ j) (hjn : j < n)
    (hmove : ∀ y, y < n → 1 ≤ distance n x y → distance n x y < j →
      ¬ ((b y).hashAndOccupancy = 0 ∨ probeCountOf n (b y).hashAndOccupancy y = 0))
    (hstop : ∀ y, y < n → distance n x y = j →
      ((b y).hashAndOccupancy = 0 ∨ probeCountOf n (b y).hashAndOccupancy y = 0))
    (R : Nat → HashTableBucket Element)
    (hR : ∀ y, y < n → R y = if distance n x y + 1 < j then b (nextIndex n y)
        else if distance n x y + 1 = j then ⟨0, none⟩ else b y) :
    RunInv n R := by
  have hn0 : 0 < n := by omega
  rw [runInv_iff] at hrun ⊢
  intro i hi hocc hpc
  have hs := nextIndex_lt n i hn0
  have hss := nextIndex_lt n (nextIndex n i) hn0
  have hds := distance_nextIndex_right n x i hx hi
  have hdss := distance_nextIndex_right n x (nextIndex n i) hx hs
  have hd0 := distance_eq_zero n x i hx
  have hds0 := distance_eq_zero n x (nextIndex n i) hx
  have hdlt := distance_lt n x i hx hi
  have hdslt := distance_lt n x _ hx hs
  rw [hR _ hs] at hocc hpc ⊢
  rw [hR _ hi]
  by_cases c1 : distance n x (nextIndex n i) + 1 < j
  · rw [if_pos c1] at hocc hpc ⊢
    -- the bucket at `next i` now holds the old bucket at `next (next i)`
    have hmv := hmove _ hss (by split_ifs at hdss <;> omega) (by split_ifs at hdss <;> omega)
    have hpp := probeCountOf_prevIndex n (b (nextIndex n (nextIndex n i))).hashAndOccupancy _ hss
    rw [prevIndex_nextIndex n _ hn0 hs, if_neg (fun h => hmv (Or.inr h))] at hpp
    have hr2 := hrun _ hs (fun h => hmv (Or.inl h)) (fun h => hmv (Or.inr h))
    by_cases hsx : nextIndex n i = x
    · -- `next i` is the erased bucket; its predecessor is untouched
      have hdi : distance n x i = n - 1 := by
        have := hds0.2 hsx
        split_ifs at hds <;> omega
      rw [if_neg (by omega), if_neg (by omega)]
      rw [hpp] at hpc ⊢
      have hx1 : probeCountOf n (b (nextIndex n i)).hashAndOccupancy (nextIndex n i) ≠ 0 := by
        omega
      have hr1 := hrun i hi hr2.1 hx1
      exact ⟨hr1.1, by omega⟩
    · have hds1 : 1 ≤ distance n x (nextIndex n i) := by
        by_contra hh; exact hsx (hds0.1 (by omega))
      have hmv1 := hmove _ hs hds1 (by omega)
      rw [if_pos (by split_ifs at hds <;> omega)]
      have hpp1 := probeCountOf_prevIndex n (b (nextIndex n i)).hashAndOccupancy _ hs
      rw [prevIndex_nextIndex n _ hn0 hi, if_neg (fun h => hmv1 (Or.inr h))] at hpp1
      rw [hpp, hpp1]
      exact ⟨fun h => hmv1 (Or.inl h), by omega⟩
  · rw [if_neg c1] at hocc hpc ⊢
    by_cases c2 : distance n x (nextIndex n i) + 1 = j
    · rw [if_pos c2] at hocc
      exact absurd rfl hocc
    · rw [if_neg c2] at hocc hpc ⊢
      have hsx : nextIndex n i ≠ x := by
        intro h
        have := hds0.2 h
        omega
      have hds1 : 1 ≤ distance n x (nextIndex n i) := by
        by_contra hh; exact hsx (hds0.1 (by omega))
      have hdi : distance n x i + 1 = distance n x (nextIndex n i) := by
        split_ifs at hds <;> omega
      rw [if_neg (by omega)]
      by_cases c3 : distance n x i + 1 = j
      · exfalso
        rcases hstop _ hs (by omega) with h | h
        · exact hocc h
        · exact hpc h
      · rw [if_neg c3]
        exact hrun i hi hocc hpc

/-- `eraseHashBucket` on an occupied bucket of an array that satisfies the run
invariant and has an empty bucket: it returns, removes exactly that bucket from
the stored buckets and keeps the run invariant. -/
theorem eraseHashBucket_spec (t : HashTable Element) (k : Nat) (hk1 : 1 ≤ k)
    (hmask : t.hashToBucketIndexMask = 2 ^ k - 1) (hrun : RunInv (2 ^ k) t.buckets)
    (hempty : ∃ e, e < 2 ^ k ∧ (t.buckets e).hashAndOccupancy = 0)
    (x : Nat) (hx : x < 2 ^ k) (hocc : (t.buckets x).hashAndOccupancy ≠ 0) :
    ∃ t1, eraseHashBucket t x = some t1 ∧
      t1.hashToBucketIndexMask = t.hashToBucketIndexMask ∧ t1.numElements = t.numElements ∧
      storedBuckets (2 ^ k) t1.buckets + {t.buckets x} = storedBuckets (2 ^ k) t.buckets ∧
      RunInv (2 ^ k) t1.buckets := by
  have hn : numBuckets t = 2 ^ k := numBuckets_eq_of_mask hmask
  have hn2 := two_le_two_pow k hk1
  obtain ⟨e, he, hemp⟩ := hempty
  have hex : e ≠ x := by intro h; rw [h] at hemp; exact hocc hemp
  obtain ⟨j, hj1, hjn, hmove, hstop⟩ := exists_first_after (2 ^ k) x hx
    (fun y => (t.buckets y).hashAndOccupancy = 0 ∨
      probeCountOf (2 ^ k) (t.buckets y).hashAndOccupancy y = 0)
    ⟨e, he, hex, Or.inl hemp⟩
  obtain ⟨t1, ht1, hm1, hnum1, hspec⟩ := eraseLoop_spec k hk1 (numBuckets t) t x j hmask hx hj1
    hjn (by omega) hocc hmove hstop
  refine ⟨t1, ht1, hm1, hnum1, ?_, ?_⟩
  · exact eraseLoop_stored k _ t x t1 hmask hk1 hx hocc ht1
  · exact runInv_erase _ hn2 t.buckets hrun x hx j hj1 hjn hmove hstop _ hspec

/-! ## Key uniqueness -/

theorem matches_congr (pol : HashTablePolicy Key Element) (hlaw : LawfulKeys pol)
    (x : HashTableBucket Element) (word : Nat) (k1 k2 : Key)
    (h12 : pol.areKeysEqual k1 k2 = true) (hm : Matches pol word k1 x) :
    Matches pol word k2 x := by
  obtain ⟨hw, hk⟩ := hm
  refine ⟨hw, ?_⟩
  unfold bucketHoldsKey at hk ⊢
  cases hc : x.contents with
  | none => rw [hc] at hk; simp at hk
  | some e =>
    rw [hc] at hk
    exact hlaw.trans _ _ _ hk h12

theorem matches_self (pol : HashTablePolicy Key Element) (hlaw : LawfulKeys pol)
    (word : Nat) (e : Element) : Matches pol word (pol.getKey e) ⟨word, some e⟩ :=
  ⟨rfl, hlaw.refl _⟩

/-- A bucket answers the lookup of a key equal to its own key exactly when a
second bucket with the same word and an equal key does. -/
theorem matches_iff_of_matches (pol : HashTablePolicy Key Element) (hlaw : LawfulKeys pol)
    (x : HashTableBucket Element) (hao : Nat) (e : Element)
    (hx : Matches pol hao (pol.getKey e) x) (word : Nat) (key : Key) :
    Matches pol word key x ↔ Matches pol word key ⟨hao, some e⟩ := by
  obtain ⟨hw, hk⟩ := hx
  unfold Matches bucketHoldsKey at *
  cases hc : x.contents with
  | none => rw [hc] at hk; simp at hk
  | some ex =>
    rw [hc] at hk
    simp only [hw]
    constructor
    · rintro ⟨h1, h2⟩
      exact ⟨h1, hlaw.trans _ _ _ (hlaw.symm _ _ hk) h2⟩
    · rintro ⟨h1, h2⟩
      exact ⟨h1, hlaw.trans _ _ _ hk h2⟩

theorem uniqueKeys_of_le (pol : HashTablePolicy Key Element)
    (S T : Multiset (HashTableBucket Element)) (hle : S ≤ T) (h : UniqueKeys pol T) :
    UniqueKeys pol S := fun word key =>
  le_trans (Multiset.card_le_card (Multiset.filter_le_filter _ hle)) (h word key)

theorem wordsOK_of_le (w : Nat) (S T : Multiset (HashTableBucket Element)) (hle : S ≤ T)
    (h : WordsOK w T) : WordsOK w S := fun x hx => h x (Multiset.mem_of_le hle hx)

/-- In a multiset with unique keys a bucket that answers a lookup is the only
one that does. -/
theorem uniqueKeys_add_singleton (pol : HashTablePolicy Key Element)
    (S : Multiset (HashTableBucket Element)) (x : HashTableBucket Element)
    (h : UniqueKeys pol (S + {x})) (word : Nat) (key : Key) (hx : Matches pol word key x) :
    ∀ y ∈ S, ¬ Matches pol word key y := by
  intro y hy hm
  have := h word key
  rw [Multiset.filter_add, Multiset.card_add, Multiset.filter_singleton, if_pos hx,
    Multiset.card_singleton] at this
  have hpos : 0 < Multiset.card (Multiset.filter (Matches pol word key) S) :=
    Multiset.card_pos_iff_exists_mem.2 ⟨y, Multiset.mem_filter.2 ⟨hy, hm⟩⟩
  omega

theorem uniqueKeys_eq (pol : HashTablePolicy Key Element)
    (S : Multiset (HashTableBucket Element)) (h : UniqueKeys pol S) (word : Nat) (key : Key)
    (x y : HashTableBucket Element) (hx : x ∈ S) (hy : y ∈ S)
    (hmx : Matches pol word key x) (hmy : Matches pol word key y) : x = y := by
  by_contra hne
  obtain ⟨S0, rfl⟩ := Multiset.exists_cons_of_mem hx
  have hy0 : y ∈ S0 := by
    rcases Multiset.mem_cons.1 hy with h1 | h1
    · exact absurd h1.symm hne
    · exact h1
  have h' : UniqueKeys pol (S0 + {x}) := by
    rwa [add_comm, Multiset.singleton_add]
  exact uniqueKeys_add_singleton pol S0 x h' word key hmx y hy0 hmy

/-- Adding an element whose key no stored bucket answers keeps the keys unique. -/
theorem uniqueKeys_add_new (pol : HashTablePolicy Key Element) (hlaw : LawfulKeys pol)
    (S : Multiset (HashTableBucket Element)) (h : UniqueKeys pol S) (hao : Nat) (e : Element)
    (habs : ∀ x ∈ S, ¬ Matches pol hao (pol.getKey e) x) :
    UniqueKeys pol (S + {⟨hao, some e⟩}) := by
  intro word key
  rw [Multiset.filter_add, Multiset.card_add, Multiset.filter_singleton]
  by_cases hm : Matches pol word key ⟨hao, some e⟩
  · rw [if_pos hm]
    have h0 : Multiset.filter (Matches pol word key) S = 0 := by
      rw [Multiset.filter_eq_nil]
      intro x hx hmx
      apply habs x hx
      obtain ⟨hw, hk⟩ := hmx
      refine ⟨hw.trans hm.1.symm, ?_⟩
      unfold bucketHoldsKey at hk ⊢
      cases hc : x.contents with
      | none => rw [hc] at hk; simp at hk
      | some ex =>
        rw [hc] at hk
        exact hlaw.trans _ _ _ hk (hlaw.symm _ _ hm.2)
    rw [h0]
    simp
  · rw [if_neg hm]
    simpa using h word key

/-! ## Insertion into a structured array -/

theorem hasEmpty_of_card_lt (t : HashTable Element)
    (h : Multiset.card (storedBuckets (numBuckets t) t.buckets) < numBuckets t) :
    HasEmptyBucket t :=
  exists_empty_of_card_lt _ _ h

/-- `getBucketForWrite` followed by the caller's fill, on a structured array with
an empty bucket: the call returns, the filled array is structured, and either the
key was stored and its bucket is overwritten, or the key was absent, the returned
bucket is empty and the new bucket is added to the stored ones. -/
theorem write_fill_spec (w : Nat) (pol : HashTablePolicy Key Element) (hlaw : LawfulKeys pol)
    (t : HashTable Element) (hs : Structured w pol t) (hempty : HasEmptyBucket t)
    (hash : Nat) (e : Element) :
    ∃ t1 idx, getBucketForWrite w pol t hash (pol.getKey e) = some (t1, idx) ∧
      idx < numBuckets t ∧
      t1.hashToBucketIndexMask = t.hashToBucketIndexMask ∧ t1.numElements = t.numElements ∧
      Structured w pol
        { t1 with buckets := setBucket t1.buckets idx ⟨hash ||| isOccupiedMask w, some e⟩ } ∧
      ((t1 = t ∧ (t.buckets idx).hashAndOccupancy ≠ 0 ∧
          Matches pol (hash ||| isOccupiedMask w) (pol.getKey e) (t.buckets idx) ∧
          storedBuckets (numBuckets t)
              (setBucket t1.buckets idx ⟨hash ||| isOccupiedMask w, some e⟩) + {t.buckets idx}
            = storedBuckets (numBuckets t) t.buckets + {⟨hash ||| isOccupiedMask w, some e⟩}) ∨
        ((t1.buckets idx).hashAndOccupancy = 0 ∧
          (∀ x ∈ storedBuckets (numBuckets t) t.buckets,
            ¬ Matches pol (hash ||| isOccupiedMask w) (pol.getKey e) x) ∧
          storedBuckets (numBuckets t)
              (setBucket t1.buckets idx ⟨hash ||| isOccupiedMask w, some e⟩)
            = storedBuckets (numBuckets t) t.buckets + {⟨hash ||| isOccupiedMask w, some e⟩})) := by
  obtain ⟨⟨k, hk1, hkw, hmask⟩, hrun, hwords, huniq⟩ := hs
  have hn : numBuckets t = 2 ^ k := numBuckets_eq_of_mask hmask
  rw [hn] at hrun hwords huniq ⊢
  obtain ⟨t1, idx, hres, hidx, hm1, hnum1, hcase, hfill⟩ :=
    getBucketForWrite_spec w pol t k hk1 hkw hmask hrun (by rw [← hn]; exact hempty) hash
      (pol.getKey e)
  have hv0 := or_isOccupiedMask_ne_zero w hash
  have hvidem := or_isOccupiedMask_idem w hash
  generalize hash ||| isOccupiedMask w = hao at *
  have hn1 : numBuckets ({ t1 with buckets := setBucket t1.buckets idx ⟨hao, some e⟩ }) = 2 ^ k := by
    show t1.hashToBucketIndexMask + 1 = 2 ^ k
    rw [hm1]; exact hn
  have hset := storedBuckets_setBucket (2 ^ k) t1.buckets idx hidx ⟨hao, some e⟩
  rw [if_pos (show (⟨hao, some e⟩ : HashTableBucket Element).hashAndOccupancy ≠ 0 from hv0)]
    at hset
  have hvw : ∀ x ∈ ({⟨hao, some e⟩} : Multiset (HashTableBucket Element)),
      x.hashAndOccupancy ||| isOccupiedMask w = x.hashAndOccupancy ∧ x.contents ≠ none := by
    intro x hx
    rw [Multiset.mem_singleton] at hx
    subst hx
    exact ⟨hvidem, by simp⟩
  refine ⟨t1, idx, hres, hidx, hm1, hnum1, ?_, ?_⟩
  · refine ⟨⟨k, hk1, hkw, by rw [← hmask]; exact hm1⟩, ?_, ?_, ?_⟩
    · rw [hn1]; exact hfill _ rfl
    · rw [hn1]
      show WordsOK w (storedBuckets (2 ^ k) (setBucket t1.buckets idx ⟨hao, some e⟩))
      rcases hcase with ⟨ht, hocc, hm⟩ | ⟨habs, h0, hst⟩
      · subst ht
        rw [if_pos hocc] at hset
        intro x hx
        have : x ∈ storedBuckets (2 ^ k) t1.buckets + {⟨hao, some e⟩} := by
          rw [← hset]; exact Multiset.mem_add.2 (Or.inl hx)
        rcases Multiset.mem_add.1 this with h | h
        · exact hwords x h
        · exact hvw x h
      · rw [if_neg (by simpa using h0), add_zero, hst] at hset
        rw [hset]
        intro x hx
        rcases Multiset.mem_add.1 hx with h | h
        · exact hwords x h
        · exact hvw x h
    · rw [hn1]
      show UniqueKeys pol (storedBuckets (2 ^ k) (setBucket t1.buckets idx ⟨hao, some e⟩))
      rcases hcase with ⟨ht, hocc, hm⟩ | ⟨habs, h0, hst⟩
      · subst ht
        rw [if_pos hocc] at hset
        intro word key
        have hc := congrArg (fun S => Multiset.card (Multiset.filter (Matches pol word key) S)) hset
        simp only [Multiset.filter_add, Multiset.card_add, Multiset.filter_singleton] at hc
        have hiff := matches_iff_of_matches pol hlaw (t1.buckets idx) hao e hm word key
        have hu := huniq word key
        by_cases hq : Matches pol word key (t1.buckets idx)
        · rw [if_pos hq, if_pos (hiff.1 hq)] at hc
          simp only [Multiset.card_singleton] at hc
          omega
        · rw [if_neg hq, if_neg (fun h => hq (hiff.2 h))] at hc
          simp only [Multiset.empty_eq_zero, Multiset.card_zero] at hc
          omega
      · rw [if_neg (by simpa using h0), add_zero, hst] at hset
        rw [hset]
        exact uniqueKeys_add_new pol hlaw _ huniq hao e habs
  · rcases hcase with ⟨ht, hocc, hm⟩ | ⟨habs, h0, hst⟩
    · left
      subst ht
      rw [if_pos hocc] at hset
      exact ⟨rfl, hocc, hm, hset⟩
    · right
      rw [if_neg (by simpa using h0), add_zero, hst] at hset
      exact ⟨h0, habs, hset⟩

/-! ## Resize -/

theorem runInv_of_all_empty (n : Nat) (b : Nat → HashTableBucket Element)
    (h : ∀ i, i < n → (b i).hashAndOccupancy = 0) : RunInv n b := by
  intro i _ hocc
  have hn : 0 < n := by omega
  exact absurd (h _ (Nat.mod_lt _ hn)) hocc

theorem lt_of_two_mul_two_pow_lt (w k : Nat) (h : 2 * 2 ^ k < 2 ^ w) : k + 1 < w := by
  have : 2 ^ (k + 1) < 2 ^ w := by rw [pow_succ]; omega
  exact (Nat.pow_lt_pow_iff_right (by omega)).1 this

/-- The reinsertion loop of `resize`: every pending old bucket is added to the
new array, which keeps the run invariant. -/
theorem resizeLoop_spec (w : Nat) (pol : HashTablePolicy Key Element) (hlaw : LawfulKeys pol)
    (old : Nat → HashTableBucket Element) (S : Multiset (HashTableBucket Element))
    (hwords : WordsOK w S) (huniq : UniqueKeys pol S) (k : Nat) (hk1 : 1 ≤ k) (hkw : k < w)
    (hcard : Multiset.card S < 2 ^ k) :
    ∀ (rest : List Nat) (T : HashTable Element), T.hashToBucketIndexMask = 2 ^ k - 1 →
      RunInv (2 ^ k) T.buckets →
      storedBuckets (2 ^ k) T.buckets
        + Multiset.filter (fun x => x.hashAndOccupancy ≠ 0) (Multiset.map old (rest : Multiset Nat))
        = S →
      ∃ T1, resizeLoop w pol old rest T = some T1 ∧ T1.hashToBucketIndexMask = 2 ^ k - 1 ∧
        T1.numElements = T.numElements ∧ RunInv (2 ^ k) T1.buckets ∧
        storedBuckets (2 ^ k) T1.buckets = S := by
  intro rest
  induction rest with
  | nil =>
    intro T hmask hrun hS
    refine ⟨T, rfl, hmask, rfl, hrun, ?_⟩
    simpa using hS
  | cons i rest ih =>
    intro T hmask hrun hS
    rw [← Multiset.cons_coe, Multiset.map_cons, Multiset.filter_cons] at hS
    unfold resizeLoop
    by_cases h0 : (old i).hashAndOccupancy = 0
    · rw [if_neg (by simpa using h0), zero_add] at hS
      simp only [h0, if_true]
      exact ih T hmask hrun hS
    · rw [if_pos h0] at hS
      simp only [h0, if_false]
      have hxS : old i ∈ S := by
        rw [← hS]
        exact Multiset.mem_add.2 (Or.inr (Multiset.mem_add.2 (Or.inl (Multiset.mem_singleton_self _))))
      obtain ⟨hxw, hxc⟩ := hwords _ hxS
      obtain ⟨e, he⟩ : ∃ e, (old i).contents = some e := Option.ne_none_iff_exists'.1 hxc
      have hxeq : old i = ⟨(old i).hashAndOccupancy, some e⟩ := by
        cases hx : old i with
        | mk a c => rw [hx] at he; simp only at he; rw [he]
      have hTle : storedBuckets (2 ^ k) T.buckets + {old i} ≤ S := by
        rw [← hS, ← add_assoc]
        exact Multiset.le_add_right _ _
      have hTcard : Multiset.card (storedBuckets (2 ^ k) T.buckets) < 2 ^ k := by
        have := Multiset.card_le_card hTle
        rw [Multiset.card_add, Multiset.card_singleton] at this
        omega
      obtain ⟨t1, idx, hres, hidx, hm1, hnum1, hcase, hfill⟩ :=
        getBucketForWrite_spec w pol T k hk1 hkw hmask hrun
          (exists_empty_of_card_lt _ _ hTcard) (old i).hashAndOccupancy (pol.getKey e)
      rw [hxw] at hcase hfill
      simp only [he, hres]
      have habs : ∀ x ∈ storedBuckets (2 ^ k) T.buckets,
          ¬ Matches pol (old i).hashAndOccupancy (pol.getKey e) x := by
        apply uniqueKeys_add_singleton pol _ (old i) (uniqueKeys_of_le pol _ _ hTle huniq)
        rw [hxeq]
        exact matches_self pol hlaw _ e
      rcases hcase with ⟨_, hocc, hm⟩ | ⟨_, hemp, hst⟩
      · exact absurd hm (habs _ ((mem_storedBuckets _ _ _).2 ⟨hocc, idx, hidx, rfl⟩))
      · have hset := storedBuckets_setBucket (2 ^ k) t1.buckets idx hidx
          ⟨(old i).hashAndOccupancy, some e⟩
        rw [if_neg (by simpa using hemp), add_zero, if_pos (by exact h0), hst, ← hxeq] at hset
        obtain ⟨T1, hT1, hmT1, hnT1, hrT1, hsT1⟩ := ih
          { t1 with buckets := setBucket t1.buckets idx ⟨(old i).hashAndOccupancy, some e⟩ }
          (by rw [← hmask]; exact hm1) (hfill _ rfl)
          (by
            show storedBuckets (2 ^ k) (setBucket t1.buckets idx _) + _ = S
            rw [← hxeq, hset, ← hS, add_assoc])
        exact ⟨T1, hT1, hmT1, by rw [hnT1]; exact hnum1, hrT1, hsT1⟩

theorem allocateBuckets_eq (w n : Nat) (h : 2 * n < 2 ^ w) :
    (allocateBuckets w n : Option (Nat → HashTableBucket Element))
      = some (fun _ => emptyBucket) := by
  unfold allocateBuckets; rw [if_pos h]

theorem allocateBuckets_some (w n : Nat) (b : Nat → HashTableBucket Element)
    (h : allocateBuckets w n = some b) : 2 * n < 2 ^ w ∧ b = fun _ => emptyBucket := by
  unfold allocateBuckets at h
  split at h
  · rename_i hlt
    simp only [Option.some.injEq] at h
    exact ⟨hlt, h.symm⟩
  · simp at h

/-- `resize` to a power of two that can be allocated and exceeds the number of
stored buckets: it returns a structured table of the new size with the same
element count and the same stored buckets. -/
theorem resize_spec (w : Nat) (pol : HashTablePolicy Key Element) (hlaw : LawfulKeys pol)
    (t : HashTable Element) (hs : Structured w pol t) (k : Nat) (hk1 : 1 ≤ k)
    (halloc : 2 * 2 ^ k < 2 ^ w)
    (hcard : Multiset.card (storedBuckets (numBuckets t) t.buckets) < 2 ^ k) :
    ∃ t1, resize w pol t (2 ^ k) = some t1 ∧ t1.hashToBucketIndexMask = 2 ^ k - 1 ∧
      t1.numElements = t.numElements ∧ Structured w pol t1 ∧
      storedBuckets (numBuckets t1) t1.buckets = storedBuckets (numBuckets t) t.buckets := by
  have hn2 := two_le_two_pow k hk1
  have hkw : k < w := by have := lt_of_two_mul_two_pow_lt w k halloc; omega
  obtain ⟨T1, hT1, hmT1, hnT1, hrT1, hsT1⟩ := resizeLoop_spec w pol hlaw t.buckets
    (storedBuckets (numBuckets t) t.buckets) hs.words hs.unique k hk1 hkw hcard
    (List.range (numBuckets t))
    { t with buckets := fun _ => emptyBucket, hashToBucketIndexMask := 2 ^ k - 1 } rfl
    (runInv_of_all_empty _ _ (fun _ _ => rfl))
    (by
      show storedBuckets (2 ^ k) (fun _ => emptyBucket) + _ = _
      rw [storedBuckets_empty, zero_add]
      rfl)
  have hn1 : numBuckets T1 = 2 ^ k := numBuckets_eq_of_mask hmT1
  refine ⟨T1, ?_, hmT1, hnT1, ⟨⟨k, hk1, hkw, hmT1⟩, ?_, ?_, ?_⟩, ?_⟩
  · unfold resize
    have hand : 2 ^ k &&& (2 ^ k - 1) = 0 := by
      rw [and_mask_eq_mod, Nat.mod_self]
    rw [if_neg (by omega), if_neg (by rw [hand]; simp)]
    simp only [allocateBuckets_eq w _ halloc]
    exact hT1
  · rw [hn1]; exact hrT1
  · rw [hn1, hsT1]; exact hs.words
  · rw [hn1, hsT1]; exact hs.unique
  · rw [hn1, hsT1]

/-! ## The public operations on a table that satisfies the invariants -/

theorem TableInv.hasEmpty {w : Nat} {pol : HashTablePolicy Key Element} {t : HashTable Element}
    (h : TableInv w pol t) : HasEmptyBucket t :=
  hasEmpty_of_card_lt t (by rw [← h.count]; exact h.room)

/-- The lookup on a structured table with an empty bucket, in terms of the
stored buckets. -/
theorem lookup_spec (w : Nat) (pol : HashTablePolicy Key Element) (t : HashTable Element)
    (hs : Structured w pol t) (hempty : HasEmptyBucket t) (hash : Nat) (key : Key) :
    (∃ r, getBucketForRead w pol t hash key = some r) ∧
    (∀ j, getBucketForRead w pol t hash key = some (some j) →
      j < numBuckets t ∧ t.buckets j ∈ storedBuckets (numBuckets t) t.buckets ∧
        Matches pol (hash ||| isOccupiedMask w) key (t.buckets j)) ∧
    ((∃ x ∈ storedBuckets (numBuckets t) t.buckets, Matches pol (hash ||| isOccupiedMask w) key x) →
      ∃ j, getBucketForRead w pol t hash key = some (some j)) ∧
    ((∀ x ∈ storedBuckets (numBuckets t) t.buckets,
        ¬ Matches pol (hash ||| isOccupiedMask w) key x) →
      getBucketForRead w pol t hash key = some none) := by
  obtain ⟨k, _, hkw, hmask⟩ := hs.size
  have hn : numBuckets t = 2 ^ k := numBuckets_eq_of_mask hmask
  obtain ⟨hret, hiff, hsound⟩ := getBucketForRead_spec w pol t k hkw hmask hs.run hempty hash key
  have hs2 : ∀ j, getBucketForRead w pol t hash key = some (some j) →
      j < numBuckets t ∧ t.buckets j ∈ storedBuckets (numBuckets t) t.buckets ∧
        Matches pol (hash ||| isOccupiedMask w) key (t.buckets j) := by
    intro j hj
    obtain ⟨h1, h2, h3, h4⟩ := hsound j hj
    exact ⟨h1, (mem_storedBuckets _ _ _).2 ⟨h2, j, h1, rfl⟩, h3, h4⟩
  refine ⟨hret, hs2, ?_, ?_⟩
  · rintro ⟨x, hx, hm⟩
    obtain ⟨hx0, i, hi, rfl⟩ := (mem_storedBuckets _ _ _).1 hx
    exact hiff.2 ⟨i, hi, hx0, hm.1, hm.2⟩
  · intro habs
    obtain ⟨r, hr⟩ := hret
    cases r with
    | none => exact hr
    | some j =>
      obtain ⟨_, h2, h3⟩ := hs2 j hr
      exact absurd h3 (habs _ h2)

theorem numElements_succ_mod (w : Nat) (pol : HashTablePolicy Key Element)
    (t : HashTable Element) (h : TableInv w pol t) :
    (t.numElements + 1) % 2 ^ w = t.numElements + 1 := by
  have h1 := h.allocated
  have h2 := h.room
  exact Nat.mod_eq_of_lt (by omega)

/-- The resize step at the start of `getBucketForAdd`. -/
theorem add_resize_spec (w : Nat) (pol : HashTablePolicy Key Element) (hlaw : LawfulKeys pol)
    (alloc : AllocPolicy) (hc : MinContract alloc) (t : HashTable Element)
    (h : TableInv w pol t)
    (hfit : numBuckets t < alloc.getMinDesiredBuckets (t.numElements + 1) →
      2 * alloc.getMinDesiredBuckets (t.numElements + 1) < 2 ^ w) :
    ∃ tr, (if numBuckets t < alloc.getMinDesiredBuckets ((t.numElements + 1) % 2 ^ w) then
          resize w pol t (alloc.getMinDesiredBuckets ((t.numElements + 1) % 2 ^ w))
        else some t) = some tr ∧
      Structured w pol tr ∧ tr.numElements = t.numElements ∧
      storedBuckets (numBuckets tr) tr.buckets = storedBuckets (numBuckets t) t.buckets ∧
      t.numElements + 1 < numBuckets tr ∧ 2 * numBuckets tr < 2 ^ w ∧
      numBuckets tr = (if numBuckets t < alloc.getMinDesiredBuckets (t.numElements + 1) then
          alloc.getMinDesiredBuckets (t.numElements + 1) else numBuckets t) := by
  rw [numElements_succ_mod w pol t h]
  have hroom := hc.minRoom (t.numElements + 1)
  by_cases hlt : numBuckets t < alloc.getMinDesiredBuckets (t.numElements + 1)
  · rw [if_pos hlt, if_pos hlt]
    obtain ⟨k, hk1, hk⟩ := hc.minPow (t.numElements + 1)
    rw [hk] at hroom hlt ⊢
    have hfit' := hfit (by rw [hk]; exact hlt)
    rw [hk] at hfit'
    obtain ⟨t1, hres, hm1, hnum1, hs1, hst1⟩ := resize_spec w pol hlaw t h.structured k hk1
      hfit' (by rw [← h.count]; omega)
    have hn1 : numBuckets t1 = 2 ^ k := numBuckets_eq_of_mask hm1
    exact ⟨t1, hres, hs1, hnum1, hst1, by rw [hn1]; exact hroom, by rw [hn1]; exact hfit', hn1⟩
  · rw [if_neg hlt, if_neg hlt]
    exact ⟨t, rfl, h.structured, rfl, rfl, by omega, h.allocated, rfl⟩

/-- When the growth that `getBucketForAdd` asks for cannot be allocated, the
call does not return. -/
theorem getBucketForAdd_none (w : Nat) (pol : HashTablePolicy Key Element)
    (alloc : AllocPolicy) (t : HashTable Element)
    (h : TableInv w pol t) (hash : Nat) (key : Key)
    (hlt : numBuckets t < alloc.getMinDesiredBuckets (t.numElements + 1))
    (hbig : ¬ 2 * alloc.getMinDesiredBuckets (t.numElements + 1) < 2 ^ w) :
    getBucketForAdd w pol alloc t hash key = none := by
  unfold getBucketForAdd
  simp only [numElements_succ_mod w pol t h, hlt, if_true]
  have : resize w pol t (alloc.getMinDesiredBuckets (t.numElements + 1)) = none := by
    unfold resize allocateBuckets
    simp only [hbig, if_false]
    split_ifs <;> rfl
  rw [this]

theorem structured_congr (w : Nat) (pol : HashTablePolicy Key Element)
    (t : HashTable Element) (h : Structured w pol t) (t1 : HashTable Element)
    (hb : t1.buckets = t.buckets)
    (hm : t1.hashToBucketIndexMask = t.hashToBucketIndexMask) :
    Structured w pol t1 := by
  have hn : numBuckets t1 = numBuckets t := by unfold numBuckets; rw [hm]
  obtain ⟨⟨k, hk1, hkw, hmask⟩, hrun, hwords, huniq⟩ := h
  exact ⟨⟨k, hk1, hkw, by rw [hm]; exact hmask⟩, by rw [hn, hb]; exact hrun,
    by rw [hn, hb]; exact hwords, by rw [hn, hb]; exact huniq⟩

theorem getBucketForAdd_eq (w : Nat) (pol : HashTablePolicy Key Element) (alloc : AllocPolicy)
    (t tr t2 : HashTable Element) (hash : Nat) (key : Key) (idx : Nat)
    (hres : (if numBuckets t < alloc.getMinDesiredBuckets ((t.numElements + 1) % 2 ^ w) then
          resize w pol t (alloc.getMinDesiredBuckets ((t.numElements + 1) % 2 ^ w))
        else some t) = some tr)
    (hwrite : getBucketForWrite w pol tr hash key = some (t2, idx)) :
    getBucketForAdd w pol alloc t hash key =
      if (t2.buckets idx).hashAndOccupancy = 0 then
        some ({ t2 with numElements := (t2.numElements + 1) % 2 ^ w }, idx)
      else if (t2.buckets idx).hashAndOccupancy = (hash ||| isOccupiedMask w) then
        some (t2, idx)
      else none := by
  unfold getBucketForAdd
  simp only [hres, hwrite]

/-- `getBucketForAdd` on a table that satisfies the invariants: it returns; if
no stored bucket answers the key the returned bucket is empty and `numElements`
has grown by one; otherwise the returned bucket holds the key under the word
`hash | OCCUPIED_MASK` and `numElements` is unchanged. -/
theorem getBucketForAdd_spec (w : Nat) (pol : HashTablePolicy Key Element)
    (hlaw : LawfulKeys pol) (alloc : AllocPolicy) (hc : MinContract alloc)
    (t : HashTable Element) (h : TableInv w pol t)
    (hfit : numBuckets t < alloc.getMinDesiredBuckets (t.numElements + 1) →
      2 * alloc.getMinDesiredBuckets (t.numElements + 1) < 2 ^ w)
    (hash : Nat) (key : Key) :
    ∃ t1 idx, getBucketForAdd w pol alloc t hash key = some (t1, idx) ∧ idx < numBuckets t1 ∧
      ((∀ x ∈ storedBuckets (numBuckets t) t.buckets,
          ¬ Matches pol (hash ||| isOccupiedMask w) key x) →
        (t1.buckets idx).hashAndOccupancy = 0 ∧ t1.numElements = t.numElements + 1) ∧
      ((∃ x ∈ storedBuckets (numBuckets t) t.buckets,
          Matches pol (hash ||| isOccupiedMask w) key x) →
        (t1.buckets idx).hashAndOccupancy ≠ 0 ∧
        Matches pol (hash ||| isOccupiedMask w) key (t1.buckets idx) ∧
        t1.buckets idx ∈ storedBuckets (numBuckets t) t.buckets ∧
        t1.numElements = t.numElements) := by
  obtain ⟨tr, hres, hsr, hnumr, hstr, hroomr, hallocr, _⟩ :=
    add_resize_spec w pol hlaw alloc hc t h hfit
  obtain ⟨k, hk1, hkw, hmask⟩ := hsr.size
  have hn : numBuckets tr = 2 ^ k := numBuckets_eq_of_mask hmask
  have hcard : Multiset.card (storedBuckets (numBuckets tr) tr.buckets) < numBuckets tr := by
    rw [hstr, ← h.count]; omega
  have hrun := hsr.run
  rw [hn] at hrun hcard hstr
  obtain ⟨t2, idx, hw, hidx, hm2, hnum2, hcase, _⟩ :=
    getBucketForWrite_spec w pol tr k hk1 hkw hmask hrun (exists_empty_of_card_lt _ _ hcard)
      hash key
  have hn2 : numBuckets t2 = 2 ^ k := by
    show t2.hashToBucketIndexMask + 1 = 2 ^ k
    rw [hm2]; exact hn
  have hmod : (t2.numElements + 1) % 2 ^ w = t.numElements + 1 := by
    rw [hnum2, hnumr]; exact numElements_succ_mod w pol t h
  rw [getBucketForAdd_eq w pol alloc t tr t2 hash key idx hres hw]
  rw [hstr] at hcase
  rcases hcase with ⟨ht, hocc, hm⟩ | ⟨habs, hemp, _⟩
  · subst ht
    rw [if_neg hocc, if_pos hm.1]
    refine ⟨_, _, rfl, by rw [hn2]; exact hidx, ?_, ?_⟩
    · intro habs
      have : t2.buckets idx ∈ storedBuckets (2 ^ k) t2.buckets :=
        (mem_storedBuckets _ _ _).2 ⟨hocc, idx, hidx, rfl⟩
      rw [hstr] at this
      exact absurd hm (habs _ this)
    · intro _
      have : t2.buckets idx ∈ storedBuckets (2 ^ k) t2.buckets :=
        (mem_storedBuckets _ _ _).2 ⟨hocc, idx, hidx, rfl⟩
      rw [hstr] at this
      exact ⟨hocc, hm, this, hnumr⟩
  · rw [if_pos hemp]
    refine ⟨_, _, rfl, by show idx < numBuckets t2; rw [hn2]; exact hidx, ?_, ?_⟩
    · intro _
      exact ⟨hemp, hmod⟩
    · rintro ⟨x, hx, hm⟩
      exact absurd hm (habs x hx)

/-- A completed insertion into a table that satisfies the invariants: it returns
a table that satisfies them; either no stored bucket answered the key and the new
bucket is added, or the bucket that answered it is replaced by the new one. -/
theorem insert_spec (w : Nat) (pol : HashTablePolicy Key Element)
    (hlaw : LawfulKeys pol) (alloc : AllocPolicy) (hc : MinContract alloc)
    (t : HashTable Element) (h : TableInv w pol t)
    (hfit : numBuckets t < alloc.getMinDesiredBuckets (t.numElements + 1) →
      2 * alloc.getMinDesiredBuckets (t.numElements + 1) < 2 ^ w)
    (hash : Nat) (e : Element) :
    ∃ t1, insert w pol alloc t hash e = some t1 ∧ TableInv w pol t1 ∧
      numBuckets t1 = (if numBuckets t < alloc.getMinDesiredBuckets (t.numElements + 1) then
          alloc.getMinDesiredBuckets (t.numElements + 1) else numBuckets t) ∧
      (((∀ x ∈ storedBuckets (numBuckets t) t.buckets,
            ¬ Matches pol (hash ||| isOccupiedMask w) (pol.getKey e) x) ∧
          storedBuckets (numBuckets t1) t1.buckets
            = storedBuckets (numBuckets t) t.buckets + {⟨hash ||| isOccupiedMask w, some e⟩} ∧
          t1.numElements = t.numElements + 1) ∨
        (∃ old, old ∈ storedBuckets (numBuckets t) t.buckets ∧
          Matches pol (hash ||| isOccupiedMask w) (pol.getKey e) old ∧
          storedBuckets (numBuckets t1) t1.buckets + {old}
            = storedBuckets (numBuckets t) t.buckets + {⟨hash ||| isOccupiedMask w, some e⟩} ∧
          t1.numElements = t.numElements)) := by
  obtain ⟨tr, hres, hsr, hnumr, hstr, hroomr, hallocr, hnr⟩ :=
    add_resize_spec w pol hlaw alloc hc t h hfit
  have hcard : Multiset.card (storedBuckets (numBuckets tr) tr.buckets) < numBuckets tr := by
    rw [hstr, ← h.count]; omega
  obtain ⟨t2, idx, hw, hidx, hm2, hnum2, hs2, hcase⟩ :=
    write_fill_spec w pol hlaw tr hsr (hasEmpty_of_card_lt tr hcard) hash e
  have hn2 : numBuckets t2 = numBuckets tr := by
    show t2.hashToBucketIndexMask + 1 = tr.hashToBucketIndexMask + 1
    rw [hm2]
  have hmod : (t2.numElements + 1) % 2 ^ w = t.numElements + 1 := by
    rw [hnum2, hnumr]; exact numElements_succ_mod w pol t h
  unfold insert
  rw [getBucketForAdd_eq w pol alloc t tr t2 hash (pol.getKey e) idx hres hw]
  rcases hcase with ⟨ht, hocc, hm, hst⟩ | ⟨hemp, habs, hst⟩
  · subst ht
    rw [if_neg hocc, if_pos hm.1]
    have hold : t2.buckets idx ∈ storedBuckets (numBuckets t) t.buckets := by
      rw [← hstr]
      exact (mem_storedBuckets _ _ _).2 ⟨hocc, idx, hidx, rfl⟩
    refine ⟨_, rfl, ⟨hs2, hallocr, ?_, ?_⟩, hnr, Or.inr ⟨t2.buckets idx, hold, hm, ?_, hnumr⟩⟩
    · show t2.numElements = Multiset.card (storedBuckets (numBuckets t2) (setBucket _ _ _))
      have hc1 := congrArg Multiset.card hst
      simp only [Multiset.card_add, Multiset.card_singleton] at hc1
      rw [hnumr, h.count, ← hstr]
      omega
    · show t2.numElements < numBuckets t2
      omega
    · show storedBuckets (numBuckets t2) (setBucket _ _ _) + _ = _
      rw [hst, hstr]
  · rw [if_pos hemp]
    refine ⟨_, rfl, ⟨structured_congr w pol _ hs2 _ rfl rfl,
        by show 2 * numBuckets t2 < _; rw [hn2]; exact hallocr, ?_, ?_⟩,
      by show numBuckets t2 = _; rw [hn2]; exact hnr, Or.inl ⟨?_, ?_, hmod⟩⟩
    · show (t2.numElements + 1) % 2 ^ w
        = Multiset.card (storedBuckets (numBuckets t2) (setBucket _ _ _))
      rw [hmod, hn2, hst, Multiset.card_add, Multiset.card_singleton, hstr, ← h.count]
    · show (t2.numElements + 1) % 2 ^ w < numBuckets t2
      rw [hmod, hn2]; exact hroomr
    · rw [← hstr]; exact habs
    · show storedBuckets (numBuckets t2) (setBucket _ _ _) = _
      rw [hn2, hst, hstr]

/-- `remove` hands `hash | OCCUPIED_MASK` to `getBucketForRead`, which sets the
bit again. -/
theorem getBucketForRead_or (w : Nat) (pol : HashTablePolicy Key Element)
    (t : HashTable Element) (hash : Nat) (key : Key) :
    getBucketForRead w pol t (hash ||| isOccupiedMask w) key
      = getBucketForRead w pol t hash key := by
  unfold getBucketForRead
  rw [or_isOccupiedMask_idem]

theorem pred_mod_two_pow (w n : Nat) (h1 : 1 ≤ n) (h2 : n < 2 ^ w) :
    (n + 2 ^ w - 1) % 2 ^ w = n - 1 := by
  have : n + 2 ^ w - 1 = (n - 1) + 2 ^ w := by omega
  rw [this, Nat.add_mod_right, Nat.mod_eq_of_lt (by omega)]

/-- `remove` on a table that satisfies the invariants: it returns a table that
satisfies them; either no stored bucket answers the key and nothing changes, or
the bucket found by `getBucketForRead` is removed, `numElements` drops by one and
the array shrinks to `maxDesiredBuckets` if it was larger. -/
theorem remove_spec (w : Nat) (pol : HashTablePolicy Key Element)
    (hlaw : LawfulKeys pol) (alloc : AllocPolicy) (hc : AllocContract alloc)
    (t : HashTable Element) (h : TableInv w pol t) (hash : Nat) (key : Key) :
    ∃ found t1, remove w pol alloc t hash key = some (found, t1) ∧ TableInv w pol t1 ∧
      ((found = false ∧ t1 = t ∧ getBucketForRead w pol t hash key = some none ∧
          ∀ x ∈ storedBuckets (numBuckets t) t.buckets,
            ¬ Matches pol (hash ||| isOccupiedMask w) key x) ∨
        (found = true ∧ ∃ j, getBucketForRead w pol t hash key = some (some j) ∧
          Matches pol (hash ||| isOccupiedMask w) key (t.buckets j) ∧
          storedBuckets (numBuckets t1) t1.buckets + {t.buckets j}
            = storedBuckets (numBuckets t) t.buckets ∧
          t1.numElements + 1 = t.numElements ∧
          numBuckets t1 = (if numBuckets t > alloc.getMaxDesiredBuckets t1.numElements then
            alloc.getMaxDesiredBuckets t1.numElements else numBuckets t))) := by
  obtain ⟨⟨r, hr⟩, hsound, hfinds, _⟩ := lookup_spec w pol t h.structured h.hasEmpty hash key
  unfold remove
  simp only [getBucketForRead_or, hr]
  cases r with
  | none =>
    refine ⟨false, t, rfl, h, Or.inl ⟨rfl, rfl, rfl, ?_⟩⟩
    intro x hx hm
    obtain ⟨j, hj⟩ := hfinds ⟨x, hx, hm⟩
    rw [hr] at hj
    simp at hj
  | some j =>
    obtain ⟨hj, hmem, hm⟩ := hsound j hr
    obtain ⟨k, hk1, hkw, hmask⟩ := h.structured.size
    have hn : numBuckets t = 2 ^ k := numBuckets_eq_of_mask hmask
    have hocc : (t.buckets j).hashAndOccupancy ≠ 0 := ((mem_storedBuckets _ _ _).1 hmem).1
    have hrun := h.structured.run
    obtain ⟨e0, he0, hemp0⟩ := h.hasEmpty
    rw [hn] at hrun hj he0
    obtain ⟨t1, ht1, hm1, hnum1, hst1, hrun1⟩ := eraseHashBucket_spec t k hk1 hmask hrun
      ⟨e0, he0, hemp0⟩ j hj hocc
    have hn1 : numBuckets t1 = 2 ^ k := by
      show t1.hashToBucketIndexMask + 1 = 2 ^ k
      rw [hm1]; exact hn
    have hcount := h.count
    have hroom := h.room
    have halloc := h.allocated
    rw [hn] at hcount hroom halloc
    have hcard := congrArg Multiset.card hst1
    rw [Multiset.card_add, Multiset.card_singleton, ← hcount] at hcard
    have hpred : (t1.numElements + 2 ^ w - 1) % 2 ^ w = t.numElements - 1 := by
      rw [hnum1]; exact pred_mod_two_pow w _ (by omega) (by omega)
    have hle : storedBuckets (2 ^ k) t1.buckets ≤ storedBuckets (2 ^ k) t.buckets := by
      rw [← hst1]; exact Multiset.le_add_right _ _
    -- the table after the erase and the decrement
    obtain ⟨t2, ht2⟩ : ∃ t2 : HashTable Element,
        t2 = { t1 with numElements := (t1.numElements + 2 ^ w - 1) % 2 ^ w } := ⟨_, rfl⟩
    have hb2 : t2.buckets = t1.buckets := by rw [ht2]
    have hm2 : t2.hashToBucketIndexMask = t1.hashToBucketIndexMask := by rw [ht2]
    have hnum2 : t2.numElements = t.numElements - 1 := by rw [ht2]; exact hpred
    have hn2 : numBuckets t2 = 2 ^ k := by
      show t2.hashToBucketIndexMask + 1 = 2 ^ k
      rw [hm2]; exact hn1
    have hs2 : Structured w pol t2 := by
      refine ⟨⟨k, hk1, hkw, by rw [hm2, hm1]; exact hmask⟩, ?_, ?_, ?_⟩
      · rw [hn2, hb2]; exact hrun1
      · rw [hn2, hb2]; exact wordsOK_of_le w _ _ hle (hn ▸ h.structured.words)
      · rw [hn2, hb2]; exact uniqueKeys_of_le pol _ _ hle (hn ▸ h.structured.unique)
    simp only [ht1, ← ht2]
    have hminroom := hc.minRoom (t.numElements - 1)
    have hminmax := hc.minLeMax (t.numElements - 1)
    rw [hpred, hn2]
    by_cases hshrink : 2 ^ k > alloc.getMaxDesiredBuckets (t.numElements - 1)
    · rw [if_pos hshrink]
      obtain ⟨k2, hk2, hmax⟩ := hc.maxPow (t.numElements - 1)
      rw [hmax] at hshrink hminmax ⊢
      obtain ⟨t3, hres, hm3, hnum3, hs3, hst3⟩ := resize_spec w pol hlaw t2 hs2 k2 hk2
        (by omega) (by rw [hn2, hb2]; omega)
      have hn3 : numBuckets t3 = 2 ^ k2 := numBuckets_eq_of_mask hm3
      have hnum3' : t3.numElements = t.numElements - 1 := by rw [hnum3]; exact hnum2
      have hst3' : storedBuckets (numBuckets t3) t3.buckets = storedBuckets (2 ^ k) t1.buckets := by
        rw [hst3, hn2, hb2]
      rw [hres]
      refine ⟨true, t3, rfl, ⟨hs3, by rw [hn3]; omega, ?_, ?_⟩,
        Or.inr ⟨rfl, j, rfl, hm, ?_, by omega, ?_⟩⟩
      · rw [hst3', hnum3']; omega
      · rw [hn3, hnum3']; omega
      · rw [hst3', hn]; exact hst1
      · rw [hn3, hnum3', hn, hmax, if_pos hshrink]
    · rw [if_neg hshrink]
      refine ⟨true, t2, rfl, ⟨hs2, by rw [hn2]; exact halloc, ?_, ?_⟩,
        Or.inr ⟨rfl, j, rfl, hm, ?_, ?_, ?_⟩⟩
      · rw [hnum2, hn2, hb2]; omega
      · rw [hnum2, hn2]; omega
      · rw [hn2, hb2, hn]; exact hst1
      · rw [hnum2]; omega
      · rw [hnum2, hn, if_neg hshrink]; exact hn2

theorem storedBuckets_congr (n : Nat) (b c : Nat → HashTableBucket Element)
    (h : ∀ i, i < n → c i = b i) : storedBuckets n c = storedBuckets n b := by
  unfold storedBuckets
  congr 1
  apply Multiset.map_congr rfl
  intro i hi
  exact h i (Multiset.mem_range.1 hi)

/-- A table whose array is empty satisfies the invariants. -/
theorem tableInv_of_empty (w : Nat) (pol : HashTablePolicy Key Element) (k : Nat)
    (hk1 : 1 ≤ k) (halloc : 2 * 2 ^ k < 2 ^ w) (t : HashTable Element)
    (hmask : t.hashToBucketIndexMask = 2 ^ k - 1) (hb : t.buckets = fun _ => emptyBucket)
    (hnum : t.numElements = 0) : TableInv w pol t := by
  have hn : numBuckets t = 2 ^ k := numBuckets_eq_of_mask hmask
  have hkw : k < w := by have := lt_of_two_mul_two_pow_lt w k halloc; omega
  have hst : storedBuckets (numBuckets t) t.buckets = 0 := by
    rw [hb]; exact storedBuckets_empty _
  refine ⟨⟨⟨k, hk1, hkw, hmask⟩, ?_, ?_, ?_⟩, by rw [hn]; exact halloc, ?_, ?_⟩
  · rw [hb]; exact runInv_of_all_empty _ _ (fun _ _ => rfl)
  · rw [hst]; intro x hx; simp at hx
  · rw [hst]; intro word key; simp
  · rw [hst, hnum]; rfl
  · rw [hnum, hn]; exact Nat.two_pow_pos k

/-- The constructor, under the policy contract: if it returns, the table is
empty, has `minDesiredBuckets(hint)` buckets and satisfies the invariants. -/
theorem construct_spec (w : Nat) (pol : HashTablePolicy Key Element) (alloc : AllocPolicy)
    (hc : MinContract alloc) (estimatedNumElements : Nat) (t : HashTable Element)
    (h : HashTable.construct w alloc estimatedNumElements = some t) :
    TableInv w pol t ∧ t.numElements = 0 ∧
      numBuckets t = alloc.getMinDesiredBuckets estimatedNumElements ∧
      t.buckets = fun _ => emptyBucket := by
  obtain ⟨k, hk1, hk⟩ := hc.minPow estimatedNumElements
  unfold HashTable.construct at h
  simp only [hk] at h
  split at h
  · cases ha : (allocateBuckets w (2 ^ k) : Option (Nat → HashTableBucket Element)) with
    | none => rw [ha] at h; simp at h
    | some b =>
      rw [ha] at h
      simp only [Option.some.injEq] at h
      obtain ⟨halloc, hb⟩ := allocateBuckets_some w _ b ha
      have hlt : 2 ^ k < 2 ^ w := by omega
      have hpos := Nat.two_pow_pos k
      have hmask : (2 ^ k + 2 ^ w - 1) % 2 ^ w = 2 ^ k - 1 :=
        pred_mod_two_pow w _ hpos hlt
      subst h
      refine ⟨tableInv_of_empty w pol k hk1 halloc _ hmask hb rfl, rfl, ?_, hb⟩
      show (2 ^ k + 2 ^ w - 1) % 2 ^ w + 1 = _
      rw [hmask, hk]; omega
  · simp at h

/-- The constructor returns whenever the array it asks for can be allocated. -/
theorem construct_returns (w : Nat) (alloc : AllocPolicy) (hc : MinContract alloc)
    (estimatedNumElements : Nat)
    (hfit : 2 * alloc.getMinDesiredBuckets estimatedNumElements < 2 ^ w) :
    ∃ t : HashTable Element, HashTable.construct w alloc estimatedNumElements = some t := by
  obtain ⟨k, hk1, hk⟩ := hc.minPow estimatedNumElements
  rw [hk] at hfit
  unfold HashTable.construct
  have hlt : 2 ^ k < 2 ^ w := by omega
  have hpos := Nat.two_pow_pos k
  have hmask : (2 ^ k + 2 ^ w - 1) % 2 ^ w = 2 ^ k - 1 := pred_mod_two_pow w _ hpos hlt
  have hand : 2 ^ k &&& (2 ^ k - 1) = 0 := by rw [and_mask_eq_mod, Nat.mod_self]
  simp only [hk, hmask, hand, if_true, allocateBuckets_eq w _ hfit]
  exact ⟨_, rfl⟩

/-- A copy satisfies the invariants of its source and stores the same buckets. -/
theorem copyFrom_spec (w : Nat) (pol : HashTablePolicy Key Element) (t : HashTable Element)
    (h : TableInv w pol t) :
    TableInv w pol (copyFrom t) ∧
      (∀ i, i < numBuckets t → (t.buckets i).hashAndOccupancy ≠ 0 →
        (copyFrom t).buckets i = t.buckets i) ∧
      storedBuckets (numBuckets (copyFrom t)) (copyFrom t).buckets
        = storedBuckets (numBuckets t) t.buckets := by
  have hn : numBuckets (copyFrom t) = numBuckets t := rfl
  have hword : ∀ i, i < numBuckets t →
      ((copyFrom t).buckets i).hashAndOccupancy = (t.buckets i).hashAndOccupancy := by
    intro i hi
    show (if i < numBuckets t then _ else _ : HashTableBucket Element).hashAndOccupancy = _
    rw [if_pos hi]
  have hocc : ∀ i, i < numBuckets t → (t.buckets i).hashAndOccupancy ≠ 0 →
      (copyFrom t).buckets i = t.buckets i := by
    intro i hi h0
    show (if i < numBuckets t then _ else _ : HashTableBucket Element) = _
    rw [if_pos hi, if_neg h0]
  have hst : storedBuckets (numBuckets t) (copyFrom t).buckets
      = storedBuckets (numBuckets t) t.buckets := by
    unfold storedBuckets
    rw [Multiset.filter_map, Multiset.filter_map]
    have hf : Multiset.filter ((fun x : HashTableBucket Element => x.hashAndOccupancy ≠ 0)
          ∘ (copyFrom t).buckets) (Multiset.range (numBuckets t))
        = Multiset.filter ((fun x : HashTableBucket Element => x.hashAndOccupancy ≠ 0)
          ∘ t.buckets) (Multiset.range (numBuckets t)) := by
      apply Multiset.filter_congr
      intro i hi
      simp only [Function.comp, hword i (Multiset.mem_range.1 hi)]
    rw [hf]
    apply Multiset.map_congr rfl
    intro i hi
    obtain ⟨hi1, hi2⟩ := Multiset.mem_filter.1 hi
    exact hocc i (Multiset.mem_range.1 hi1) hi2
  refine ⟨⟨⟨h.structured.size, ?_, ?_, ?_⟩, h.allocated, ?_, h.room⟩, hocc, by rw [hn, hst]⟩
  · rw [hn]; exact runInv_congr_words _ _ _ hword h.structured.run
  · rw [hn, hst]; exact h.structured.words
  · rw [hn, hst]; exact h.structured.unique
  · rw [hn, hst]; exact h.count

/-- A move, under the policy contract: the destination is the source table and
the moved-from table is empty with `maxDesiredBuckets(0)` buckets; both satisfy
the invariants. -/
theorem moveFrom_spec (w : Nat) (pol : HashTablePolicy Key Element) (alloc : AllocPolicy)
    (hc : AllocContract alloc) (t t1 t2 : HashTable Element) (h : TableInv w pol t)
    (hmove : moveFrom w alloc t = some (t1, t2)) :
    t1 = t ∧ TableInv w pol t1 ∧ TableInv w pol t2 ∧ t2.numElements = 0 ∧
      numBuckets t2 = alloc.getMaxDesiredBuckets 0 ∧ t2.buckets = fun _ => emptyBucket := by
  obtain ⟨k, hk1, hk⟩ := hc.maxPow 0
  unfold moveFrom at hmove
  simp only [hk] at hmove
  cases ha : (allocateBuckets w (2 ^ k) : Option (Nat → HashTableBucket Element)) with
  | none => rw [ha] at hmove; simp at hmove
  | some b =>
    rw [ha] at hmove
    simp only [Option.some.injEq, Prod.mk.injEq] at hmove
    obtain ⟨h1, h2⟩ := hmove
    obtain ⟨halloc, hb⟩ := allocateBuckets_some w _ b ha
    have hlt : 2 ^ k < 2 ^ w := by omega
    have hpos := Nat.two_pow_pos k
    have hmask : (2 ^ k + 2 ^ w - 1) % 2 ^ w = 2 ^ k - 1 := pred_mod_two_pow w _ hpos hlt
    have ht1 : t1 = t := by rw [← h1]
    subst h2
    refine ⟨ht1, by rw [ht1]; exact h, tableInv_of_empty w pol k hk1 halloc _ hmask hb rfl,
      rfl, ?_, hb⟩
    show (2 ^ k + 2 ^ w - 1) % 2 ^ w + 1 = _
    rw [hmask, hk]; omega

/-- Every reachable table satisfies the invariants. -/
theorem reachable_inv (w : Nat) (pol : HashTablePolicy Key Element) (hlaw : LawfulKeys pol)
    (alloc : AllocPolicy) (hc : AllocContract alloc) (t : HashTable Element)
    (h : Reachable w pol alloc t) : TableInv w pol t := by
  induction h with
  | construct hint t h => exact (construct_spec w pol alloc ⟨hc.minPow, hc.minRoom⟩ hint t h).1
  | insert t t1 hash e _ hins ih =>
    by_cases hfit : numBuckets t < alloc.getMinDesiredBuckets (t.numElements + 1) →
        2 * alloc.getMinDesiredBuckets (t.numElements + 1) < 2 ^ w
    · obtain ⟨t2, h2, hinv, _⟩ :=
        insert_spec w pol hlaw alloc ⟨hc.minPow, hc.minRoom⟩ t ih hfit hash e
      rw [hins] at h2
      simp only [Option.some.injEq] at h2
      rw [h2]; exact hinv
    · rw [Classical.not_imp] at hfit
      have := getBucketForAdd_none w pol alloc t ih hash (pol.getKey e) hfit.1 hfit.2
      unfold insert at hins
      rw [this] at hins
      simp at hins
  | remove t t1 hash key found _ hrem ih =>
    obtain ⟨f2, t2, h2, hinv, _⟩ := remove_spec w pol hlaw alloc hc t ih hash key
    rw [hrem] at h2
    simp only [Option.some.injEq, Prod.mk.injEq] at h2
    rw [h2.2]; exact hinv
  | copy t _ ih => exact (copyFrom_spec w pol t ih).1
  | moveTo t t1 t2 _ hmove ih => exact (moveFrom_spec w pol alloc hc t t1 t2 ih hmove).2.1
  | moveSource t t1 t2 _ hmove ih => exact (moveFrom_spec w pol alloc hc t t1 t2 ih hmove).2.2.1

/-! ## Example policies and tables -/

theorem natMapPolicy_lawful : LawfulKeys natMapPolicy :=
  ⟨fun a => by simp [natMapPolicy], fun a b h => by simp_all [natMapPolicy],
    fun a b c h1 h2 => by simp_all [natMapPolicy]⟩

theorem doublingPolicy_contract : AllocContract doublingPolicy :=
  ⟨fun n => ⟨n + 1, by omega, rfl⟩, fun n => ⟨n + 2, by omega, rfl⟩,
    fun n => lt_trans (Nat.lt_two_pow n) (Nat.pow_lt_pow_right (by omega) (by omega)),
    fun n => Nat.pow_le_pow_right (by omega) (by omega)⟩

theorem exampleEmpty_reachable : Reachable 64 natMapPolicy doublingPolicy exampleEmpty :=
  Reachable.construct 0 _ (Option.some_get _).symm

theorem exampleOne_reachable : Reachable 64 natMapPolicy doublingPolicy exampleOne :=
  Reachable.insert _ _ 5 (7, 70) exampleEmpty_reachable (Option.some_get _).symm

theorem exampleTwo_reachable : Reachable 64 natMapPolicy doublingPolicy exampleTwo :=
  Reachable.insert _ _ 1 (9, 90) exampleOne_reachable (Option.some_get _).symm

theorem insertAll_reachable (w : Nat) (pol : HashTablePolicy Key Element) (alloc : AllocPolicy)
    (items : List (Nat × Element)) :
    ∀ t t1, Reachable w pol alloc t → insertAll w pol alloc t items = some t1 →
      Reachable w pol alloc t1 := by
  induction items with
  | nil =>
    intro t t1 hr h
    simp only [insertAll, Option.some.injEq] at h
    rw [← h]; exact hr
  | cons item rest ih =>
    intro t t1 hr h
    unfold insertAll at h
    cases hins : insert w pol alloc t item.1 item.2 with
    | none => rw [hins] at h; simp at h
    | some t2 =>
      rw [hins] at h
      exact ih t2 t1 (Reachable.insert t t2 item.1 item.2 hr hins) h

theorem exampleRun_reachable : Reachable 64 natMapPolicy doublingPolicy exampleRun :=
  insertAll_reachable 64 natMapPolicy doublingPolicy _ exampleEmpty exampleRun
    exampleEmpty_reachable (Option.some_get _).symm

/-! ## C3, C4, C5: erase completeness and its frame -/

theorem robinHoodOrdering_of_runInv (w : Nat) (t : HashTable Element) (hsize : SizeInv w t)
    (hrun : RunInv (numBuckets t) t.buckets) : RobinHoodOrdering t := by
  obtain ⟨k, hk1, hkw, hmask⟩ := hsize
  have hn : 0 < numBuckets t := by unfold numBuckets; omega
  intro i hi _ hocc
  have hs : (i + 1) % numBuckets t < numBuckets t := Nat.mod_lt _ hn
  rw [calcProbeCount_eq t k _ hmask hs, calcProbeCount_eq t k _ hmask hi]
  by_cases h0 : probeCountOf (numBuckets t)
      (t.buckets ((i + 1) % numBuckets t)).hashAndOccupancy ((i + 1) % numBuckets t) = 0
  · omega
  · exact (hrun i hi hocc h0).2

/-- C4. For every table and every (hash, key) for which `getBucketForRead`
returns `nullptr`, `remove(hash, key)` returns false and the table it leaves is
the table it was given: the same mask and bucket count, the same `numElements`
and the same bucket array. -/
theorem remove_absent_unchanged (w : Nat) (pol : HashTablePolicy Key Element)
    (alloc : AllocPolicy) (t : HashTable Element) (hash : Nat) (key : Key)
    (habsent : getBucketForRead w pol t hash key = some none) :
    remove w pol alloc t hash key = some (false, t) := by
  unfold remove
  simp only [getBucketForRead_or, habsent]

/-- Witness for C4: removing the absent key 9 from `exampleOne`. -/
theorem remove_absent_unchanged_witness :
    remove 64 natMapPolicy doublingPolicy exampleOne 1 9 = some (false, exampleOne) :=
  remove_absent_unchanged 64 natMapPolicy doublingPolicy exampleOne 1 9 (by decide)

/-- C3. In every reachable table in which `getBucketForRead(h, k)` finds the key,
`remove(h, k)` returns true, `numElements` afterwards is one less than before and
`getBucketForRead(h, k)` on the table afterwards returns `nullptr`. -/
theorem remove_present_erases (w : Nat) (pol : HashTablePolicy Key Element)
    (hlaw : LawfulKeys pol) (alloc : AllocPolicy) (hc : AllocContract alloc)
    (t : HashTable Element) (hreach : Reachable w pol alloc t) (hash : Nat) (key : Key)
    (j : Nat) (hpresent : getBucketForRead w pol t hash key = some (some j)) :
    ∃ t1, remove w pol alloc t hash key = some (true, t1) ∧
      t1.numElements + 1 = t.numElements ∧
      getBucketForRead w pol t1 hash key = some none := by
  have hinv := reachable_inv w pol hlaw alloc hc t hreach
  obtain ⟨found, t1, hrem, hinv1, hcase⟩ := remove_spec w pol hlaw alloc hc t hinv hash key
  rcases hcase with ⟨_, _, habs, _⟩ | ⟨hf, j1, _, hm, hst, hnum, _⟩
  · rw [hpresent] at habs; simp at habs
  · subst hf
    refine ⟨t1, hrem, hnum, ?_⟩
    apply (lookup_spec w pol t1 hinv1.structured hinv1.hasEmpty hash key).2.2.2
    apply uniqueKeys_add_singleton pol _ (t.buckets j1) _ _ _ hm
    rw [hst]
    exact hinv.structured.unique

/-- Witness for C3: removing key 7 from `exampleTwo`. -/
theorem remove_present_erases_witness :
    ∃ t1, remove 64 natMapPolicy doublingPolicy exampleTwo 5 7 = some (true, t1) ∧
      t1.numElements + 1 = exampleTwo.numElements ∧
      getBucketForRead 64 natMapPolicy t1 5 7 = some none :=
  remove_present_erases 64 natMapPolicy natMapPolicy_lawful doublingPolicy
    doublingPolicy_contract exampleTwo exampleTwo_reachable 5 7 5 (by decide)

/-- C5. In every reachable table, after a `remove(h, k)` that returned true,
every lookup of another key that found a bucket before finds a bucket with the
same word and the same element, and every lookup that returned `nullptr` before
still does. -/
theorem remove_preserves_others (w : Nat) (pol : HashTablePolicy Key Element)
    (hlaw : LawfulKeys pol) (alloc : AllocPolicy) (hc : AllocContract alloc)
    (t : HashTable Element) (hreach : Reachable w pol alloc t) (hash : Nat) (key : Key)
    (t1 : HashTable Element) (hrem : remove w pol alloc t hash key = some (true, t1)) :
    (∀ hash2 key2 j2,
      ¬ ((hash2 ||| isOccupiedMask w) = (hash ||| isOccupiedMask w)
          ∧ pol.areKeysEqual key2 key = true) →
      getBucketForRead w pol t hash2 key2 = some (some j2) →
      ∃ j3, getBucketForRead w pol t1 hash2 key2 = some (some j3) ∧
        t1.buckets j3 = t.buckets j2) ∧
    (∀ hash2 key2, getBucketForRead w pol t hash2 key2 = some none →
      getBucketForRead w pol t1 hash2 key2 = some none) := by
  have hinv := reachable_inv w pol hlaw alloc hc t hreach
  obtain ⟨found, t2, hrem2, hinv1, hcase⟩ := remove_spec w pol hlaw alloc hc t hinv hash key
  rw [hrem] at hrem2
  simp only [Option.some.injEq, Prod.mk.injEq] at hrem2
  obtain ⟨hf, ht⟩ := hrem2
  subst ht
  rcases hcase with ⟨hff, _⟩ | ⟨_, j1, _, hm, hst, _, _⟩
  · rw [← hf] at hff; simp at hff
  · constructor
    · intro hash2 key2 j2 hother hfound
      obtain ⟨_, hmem2, hm2⟩ :=
        (lookup_spec w pol t hinv.structured hinv.hasEmpty hash2 key2).2.1 j2 hfound
      have hmem1 : t.buckets j2 ∈ storedBuckets (numBuckets t1) t1.buckets := by
        rw [← hst] at hmem2
        rcases Multiset.mem_add.1 hmem2 with h1 | h1
        · exact h1
        · exfalso
          rw [Multiset.mem_singleton] at h1
          rw [h1] at hm2
          apply hother
          refine ⟨hm2.1.symm.trans hm.1, ?_⟩
          have hk1 := hm.2
          have hk2 := hm2.2
          unfold bucketHoldsKey at hk1 hk2
          cases hc1 : (t.buckets j1).contents with
          | none => rw [hc1] at hk1; simp at hk1
          | some e1 =>
            rw [hc1] at hk1 hk2
            exact hlaw.trans _ _ _ (hlaw.symm _ _ hk2) hk1
      obtain ⟨j3, hj3⟩ := (lookup_spec w pol t1 hinv1.structured hinv1.hasEmpty hash2 key2).2.2.1
        ⟨_, hmem1, hm2⟩
      obtain ⟨_, hmem3, hm3⟩ :=
        (lookup_spec w pol t1 hinv1.structured hinv1.hasEmpty hash2 key2).2.1 j3 hj3
      exact ⟨j3, hj3, uniqueKeys_eq pol _ hinv1.structured.unique _ _ _ _ hmem3 hmem1 hm3 hm2⟩
    · intro hash2 key2 habs
      apply (lookup_spec w pol t1 hinv1.structured hinv1.hasEmpty hash2 key2).2.2.2
      intro x hx hmx
      have hx' : x ∈ storedBuckets (numBuckets t) t.buckets := by
        rw [← hst]; exact Multiset.mem_add.2 (Or.inl hx)
      obtain ⟨j, hj⟩ := (lookup_spec w pol t hinv.structured hinv.hasEmpty hash2 key2).2.2.1
        ⟨x, hx', hmx⟩
      rw [habs] at hj
      simp at hj

theorem exampleTwo_remove :
    remove 64 natMapPolicy doublingPolicy exampleTwo 5 7 = some (true, exampleTwoRemoved) := by
  have h1 : (remove 64 natMapPolicy doublingPolicy exampleTwo 5 7).get (by decide)
      = (true, exampleTwoRemoved) := Prod.ext (by decide) rfl
  rw [← h1]
  exact (Option.some_get _).symm

/-- Witness for C5: removing key 7 from `exampleTwo` leaves key 9 in place. -/
theorem remove_preserves_others_witness :
    (∀ hash2 key2 j2,
      ¬ ((hash2 ||| isOccupiedMask 64) = (5 ||| isOccupiedMask 64)
          ∧ natMapPolicy.areKeysEqual key2 7 = true) →
      getBucketForRead 64 natMapPolicy exampleTwo hash2 key2 = some (some j2) →
      ∃ j3, getBucketForRead 64 natMapPolicy exampleTwoRemoved hash2 key2 = some (some j3) ∧
        exampleTwoRemoved.buckets j3 = exampleTwo.buckets j2) ∧
    (∀ hash2 key2, getBucketForRead 64 natMapPolicy exampleTwo hash2 key2 = some none →
      getBucketForRead 64 natMapPolicy exampleTwoRemoved hash2 key2 = some none) :=
  remove_preserves_others 64 natMapPolicy natMapPolicy_lawful doublingPolicy
    doublingPolicy_contract exampleTwo exampleTwo_reachable 5 7 exampleTwoRemoved
    exampleTwo_remove

/-! ## C7 and C8: ordering and occupancy accounting of reachable tables -/

/-- C7. Every reachable table satisfies the Robin Hood ordering: whenever a
bucket and its successor (cyclically) are both occupied, the probe count of the
successor is at most one more than that of the bucket. -/
theorem reachable_robinHoodOrdering (w : Nat) (pol : HashTablePolicy Key Element)
    (hlaw : LawfulKeys pol) (alloc : AllocPolicy) (hc : AllocContract alloc)
    (t : HashTable Element) (hreach : Reachable w pol alloc t) : RobinHoodOrdering t :=
  robinHoodOrdering_of_runInv w t (reachable_inv w pol hlaw alloc hc t hreach).structured.size
    (reachable_inv w pol hlaw alloc hc t hreach).structured.run

/-- Witness for C7: in `exampleRun` the buckets 0, 1 and 2 are occupied, one after
the other, with probe counts 0, 1 and 0; the ordering holds of the table, so of
bucket 0 with its successor 1 and of bucket 1 with its successor 2. -/
theorem reachable_robinHoodOrdering_witness :
    RobinHoodOrdering exampleRun ∧
    ((exampleRun.buckets 0).hashAndOccupancy ≠ 0 ∧
      (exampleRun.buckets ((0 + 1) % numBuckets exampleRun)).hashAndOccupancy ≠ 0 ∧
      (exampleRun.buckets ((1 + 1) % numBuckets exampleRun)).hashAndOccupancy ≠ 0) ∧
    (calcProbeCount exampleRun 0 = 0 ∧
      calcProbeCount exampleRun ((0 + 1) % numBuckets exampleRun) = 1 ∧
      calcProbeCount exampleRun ((1 + 1) % numBuckets exampleRun) = 0) ∧
    calcProbeCount exampleRun ((0 + 1) % numBuckets exampleRun)
      ≤ calcProbeCount exampleRun 0 + 1 ∧
    calcProbeCount exampleRun ((1 + 1) % numBuckets exampleRun)
      ≤ calcProbeCount exampleRun 1 + 1 :=
  ⟨reachable_robinHoodOrdering 64 natMapPolicy natMapPolicy_lawful doublingPolicy
      doublingPolicy_contract exampleRun exampleRun_reachable,
    by decide, by decide,
    reachable_robinHoodOrdering 64 natMapPolicy natMapPolicy_lawful doublingPolicy
      doublingPolicy_contract exampleRun exampleRun_reachable 0 (by decide) (by decide)
      (by decide),
    reachable_robinHoodOrdering 64 natMapPolicy natMapPolicy_lawful doublingPolicy
      doublingPolicy_contract exampleRun exampleRun_reachable 1 (by decide) (by decide)
      (by decide)⟩

theorem and_isOccupiedMask_ne_zero (w x : Nat) (h : x ||| isOccupiedMask w = x) :
    x &&& isOccupiedMask w ≠ 0 := by
  intro h0
  have h1 : (x &&& isOccupiedMask w).testBit (w - 1) = true := by
    rw [Nat.testBit_and, ← h, Nat.testBit_or]
    unfold isOccupiedMask
    rw [Nat.testBit_two_pow_self]
    simp
  rw [h0] at h1
  simp at h1

theorem card_storedBuckets_eq (n : Nat) (b : Nat → HashTableBucket Element) :
    Multiset.card (storedBuckets n b)
      = ((List.range n).filter (fun i => decide ((b i).hashAndOccupancy ≠ 0))).length := by
  unfold storedBuckets
  rw [Multiset.filter_map, Multiset.card_map]
  show Multiset.card (Multiset.filter _ (↑(List.range n) : Multiset Nat)) = _
  rw [Multiset.filter_coe, Multiset.coe_card]
  congr 1

/-- A table whose stored words are well formed and whose `numElements` counts
the stored buckets has no phantom occupancy. -/
theorem noPhantom_of_counted (w : Nat) (t : HashTable Element)
    (hwords : WordsOK w (storedBuckets (numBuckets t) t.buckets))
    (hcount : t.numElements = Multiset.card (storedBuckets (numBuckets t) t.buckets)) :
    NoPhantomOccupancy w t := by
  have hbit : ∀ i, i < numBuckets t → (t.buckets i).hashAndOccupancy ≠ 0 →
      (t.buckets i).hashAndOccupancy &&& isOccupiedMask w ≠ 0 := by
    intro i hi h0
    exact and_isOccupiedMask_ne_zero w _
      (hwords _ ((mem_storedBuckets _ _ _).2 ⟨h0, i, hi, rfl⟩)).1
  constructor
  · rw [hcount, card_storedBuckets_eq]
    congr 1
    apply List.filter_congr
    intro i hi
    have hi' : i < numBuckets t := List.mem_range.1 hi
    by_cases h0 : (t.buckets i).hashAndOccupancy = 0
    · simp [h0]
    · simp [h0, hbit i hi' h0]
  · intro i hi
    by_cases h0 : (t.buckets i).hashAndOccupancy = 0
    · exact Or.inl h0
    · exact Or.inr (hbit i hi h0)

theorem resize_some (w : Nat) (pol : HashTablePolicy Key Element) (t t1 : HashTable Element)
    (m : Nat) (h : resize w pol t m = some t1) : 1 < m ∧ 2 * m < 2 ^ w := by
  unfold resize at h
  by_cases h1 : 1 < m
  · refine ⟨h1, ?_⟩
    by_contra hbig
    unfold allocateBuckets at h
    simp only [hbig, if_false] at h
    split_ifs at h
  · rw [if_pos (by omega)] at h
    simp at h

/-- C8. In every reachable table (after construction and after every completed
insertion, remove, copy and move) `numElements` is the number of buckets whose
word has the occupancy bit and every word is 0 or has the occupancy bit; the same
holds after a `resize` of such a table to a power of two above `numElements`. -/
theorem no_phantom_occupancy (w : Nat) (pol : HashTablePolicy Key Element)
    (hlaw : LawfulKeys pol) (alloc : AllocPolicy) (hc : AllocContract alloc)
    (t : HashTable Element) (hreach : Reachable w pol alloc t) :
    NoPhantomOccupancy w t ∧
      ∀ k t1, t.numElements < 2 ^ k → resize w pol t (2 ^ k) = some t1 →
        NoPhantomOccupancy w t1 := by
  have hinv := reachable_inv w pol hlaw alloc hc t hreach
  refine ⟨noPhantom_of_counted w t hinv.structured.words hinv.count, ?_⟩
  intro k t1 hlt hres
  obtain ⟨h1, halloc⟩ := resize_some w pol t t1 _ hres
  have hk1 : 1 ≤ k := by
    by_contra hk
    have : k = 0 := by omega
    subst this
    simp at h1
  obtain ⟨t2, hres2, _, hnum2, hs2, hst2⟩ := resize_spec w pol hlaw t hinv.structured k hk1
    halloc (by rw [← hinv.count]; exact hlt)
  rw [hres] at hres2
  simp only [Option.some.injEq] at hres2
  subst hres2
  exact noPhantom_of_counted w t1 hs2.words (by rw [hst2, hnum2]; exact hinv.count)

/-- Witness for C8: `exampleTwo`, and its resize to 16 buckets. -/
theorem no_phantom_occupancy_witness :
    NoPhantomOccupancy 64 exampleTwo ∧
      ∀ k t1, exampleTwo.numElements < 2 ^ k →
        resize 64 natMapPolicy exampleTwo (2 ^ k) = some t1 → NoPhantomOccupancy 64 t1 :=
  no_phantom_occupancy 64 natMapPolicy natMapPolicy_lawful doublingPolicy
    doublingPolicy_contract exampleTwo exampleTwo_reachable

/-! ## C10: power-of-two sizing -/

theorem testBit_of_between (x k : Nat) (h1 : 2 ^ k ≤ x) (h2 : x < 2 ^ (k + 1)) :
    x.testBit k = true := by
  rw [Nat.testBit_to_div_mod]
  have : x / 2 ^ k = 1 := by
    apply Nat.div_eq_of_lt_le
    · omega
    · rw [pow_succ] at h2; omega
  rw [this]
  rfl

/-- The bit test of `resize` and of the constructor characterises the powers of
two. -/
theorem pow_two_of_and_pred (m : Nat) (h0 : 0 < m) (h : m &&& (m - 1) = 0) :
    ∃ k, m = 2 ^ k := by
  refine ⟨Nat.log 2 m, ?_⟩
  have hlo : 2 ^ Nat.log 2 m ≤ m := Nat.pow_log_le_self 2 (by omega)
  have hhi : m < 2 ^ (Nat.log 2 m + 1) := Nat.lt_pow_succ_log_self (by omega) m
  by_contra hne
  have h1 : m.testBit (Nat.log 2 m) = true := testBit_of_between m _ hlo hhi
  have h2 : (m - 1).testBit (Nat.log 2 m) = true :=
    testBit_of_between (m - 1) _ (by omega) (by omega)
  have h3 : (m &&& (m - 1)).testBit (Nat.log 2 m) = true := by
    rw [Nat.testBit_and, h1, h2]; rfl
  rw [h] at h3
  simp at h3

theorem powerOfTwoSizing_of_sizeInv (w : Nat) (t : HashTable Element) (h : SizeInv w t) :
    PowerOfTwoSizing w t := by
  obtain ⟨k, hk1, hkw, hmask⟩ := h
  have hn : numBuckets t = 2 ^ k := numBuckets_eq_of_mask hmask
  have h2 := two_le_two_pow k hk1
  refine ⟨?_, ?_, ?_, ?_⟩
  · rw [hn, and_mask_eq_mod, Nat.mod_self]
  · rw [hn]; exact h2
  · rw [hn]; exact hmask
  · rw [hmask, Nat.land_comm, and_mask_eq_mod]
    unfold isOccupiedMask
    exact Nat.mod_eq_zero_of_dvd (Nat.pow_dvd_pow 2 (by omega))

theorem sizeInv_of_mask_eq (w : Nat) (t t1 : HashTable Element) (h : SizeInv w t)
    (hm : t1.hashToBucketIndexMask = t.hashToBucketIndexMask) : SizeInv w t1 := by
  obtain ⟨k, hk1, hkw, hmask⟩ := h
  exact ⟨k, hk1, hkw, hm.trans hmask⟩

theorem evictHashBucket_mask (t t1 : HashTable Element) (i : Nat)
    (h : evictHashBucket t i = some t1) :
    t1.hashToBucketIndexMask = t.hashToBucketIndexMask := by
  unfold evictHashBucket at h
  simp only at h
  split_ifs at h
  split at h
  · simp at h
  · simp only [Option.some.injEq] at h
    rw [← h]

theorem getBucketForWriteLoop_mask (w : Nat) (pol : HashTablePolicy Key Element)
    (t : HashTable Element) (hao : Nat) (key : Key) (fuel : Nat) :
    ∀ (probeCount : Nat) (t1 : HashTable Element) (idx : Nat),
      getBucketForWriteLoop w pol t hao key fuel probeCount = some (t1, idx) →
      t1.hashToBucketIndexMask = t.hashToBucketIndexMask := by
  induction fuel with
  | zero => intro p t1 idx h; simp [getBucketForWriteLoop] at h
  | succ fuel ih =>
    intro p t1 idx h
    unfold getBucketForWriteLoop at h
    simp only at h
    split_ifs at h with h1 h2 h3
    · simp only [Option.some.injEq, Prod.mk.injEq] at h; rw [← h.1]
    · simp only [Option.some.injEq, Prod.mk.injEq] at h; rw [← h.1]
    · cases he : evictHashBucket t (((hao + p) % 2 ^ w) &&& t.hashToBucketIndexMask) with
      | none => rw [he] at h; simp at h
      | some t2 =>
        rw [he] at h
        simp only [Option.some.injEq, Prod.mk.injEq] at h
        rw [← h.1]
        exact evictHashBucket_mask t t2 _ he
    · exact ih _ _ _ h

theorem getBucketForWrite_mask (w : Nat) (pol : HashTablePolicy Key Element)
    (t t1 : HashTable Element) (hash : Nat) (key : Key) (idx : Nat)
    (h : getBucketForWrite w pol t hash key = some (t1, idx)) :
    t1.hashToBucketIndexMask = t.hashToBucketIndexMask :=
  getBucketForWriteLoop_mask w pol t _ key _ 0 t1 idx h

theorem eraseLoop_mask (fuel : Nat) :
    ∀ (t t1 : HashTable Element) (i : Nat), eraseLoop fuel t i = some t1 →
      t1.hashToBucketIndexMask = t.hashToBucketIndexMask := by
  induction fuel with
  | zero => intro t t1 i h; simp [eraseLoop] at h
  | succ fuel ih =>
    intro t t1 i h
    unfold eraseLoop at h
    simp only at h
    split_ifs at h with h1 h2 h3 h4
    · simp only [Option.some.injEq] at h; rw [← h]
    · simp only [Option.some.injEq] at h; rw [← h]
    · have := ih _ _ _ h
      exact this

theorem resizeLoop_mask (w : Nat) (pol : HashTablePolicy Key Element)
    (old : Nat → HashTableBucket Element) (l : List Nat) :
    ∀ (t t1 : HashTable Element), resizeLoop w pol old l t = some t1 →
      t1.hashToBucketIndexMask = t.hashToBucketIndexMask := by
  induction l with
  | nil => intro t t1 h; simp only [resizeLoop, Option.some.injEq] at h; rw [← h]
  | cons i rest ih =>
    intro t t1 h
    unfold resizeLoop at h
    simp only at h
    by_cases h0 : (old i).hashAndOccupancy = 0
    · rw [if_pos h0] at h
      exact ih _ _ h
    · rw [if_neg h0] at h
      cases hc : (old i).contents with
      | none => rw [hc] at h; simp at h
      | some e =>
        rw [hc] at h
        simp only at h
        cases hw : getBucketForWrite w pol t (old i).hashAndOccupancy (pol.getKey e) with
        | none => rw [hw] at h; simp at h
        | some r =>
          obtain ⟨t2, idx⟩ := r
          rw [hw] at h
          simp only at h
          rw [ih _ _ h]
          exact getBucketForWrite_mask w pol t t2 _ _ idx hw

/-- A completed `resize` leaves a power-of-two sized table, whatever the table
was before. -/
theorem resize_sizeInv (w : Nat) (pol : HashTablePolicy Key Element) (t t1 : HashTable Element)
    (m : Nat) (h : resize w pol t m = some t1) :
    SizeInv w t1 ∧ numBuckets t1 = m := by
  obtain ⟨h1, halloc⟩ := resize_some w pol t t1 m h
  unfold resize at h
  rw [if_neg (by omega)] at h
  by_cases hand : m &&& (m - 1) = 0
  · rw [if_neg (by rw [hand]; simp)] at h
    obtain ⟨k, hk⟩ := pow_two_of_and_pred m (by omega) hand
    subst hk
    simp only [allocateBuckets_eq w _ halloc] at h
    have hm := resizeLoop_mask w pol _ _ _ _ h
    simp only at hm
    have hk1 : 1 ≤ k := by
      by_contra hk0
      have : k = 0 := by omega
      subst this
      simp at h1
    have hkw := lt_of_two_mul_two_pow_lt w k halloc
    exact ⟨⟨k, hk1, by omega, hm⟩, numBuckets_eq_of_mask hm⟩
  · rw [if_pos hand] at h
    simp at h

theorem construct_sizeInv (w : Nat) (alloc : AllocPolicy) (hp : PowContract alloc)
    (n : Nat) (t : HashTable Element) (h : HashTable.construct w alloc n = some t) :
    SizeInv w t := by
  obtain ⟨k, hk1, hk⟩ := hp.minPow n
  unfold HashTable.construct at h
  simp only [hk] at h
  split_ifs at h
  cases ha : (allocateBuckets w (2 ^ k) : Option (Nat → HashTableBucket Element)) with
  | none => rw [ha] at h; simp at h
  | some b =>
    rw [ha] at h
    simp only [Option.some.injEq] at h
    obtain ⟨halloc, -⟩ := allocateBuckets_some w _ b ha
    have hkw := lt_of_two_mul_two_pow_lt w k halloc
    have h2 := two_le_two_pow k hk1
    refine ⟨k, hk1, by omega, ?_⟩
    rw [← h]
    exact pred_mod_two_pow w _ (by omega) (by omega)

theorem moveFrom_sizeInv (w : Nat) (alloc : AllocPolicy) (hp : PowContract alloc)
    (t t1 t2 : HashTable Element) (hs : SizeInv w t)
    (h : moveFrom w alloc t = some (t1, t2)) : SizeInv w t1 ∧ SizeInv w t2 := by
  obtain ⟨k, hk1, hk⟩ := hp.maxPow 0
  unfold moveFrom at h
  simp only [hk] at h
  cases ha : (allocateBuckets w (2 ^ k) : Option (Nat → HashTableBucket Element)) with
  | none => rw [ha] at h; simp at h
  | some b =>
    rw [ha] at h
    simp only [Option.some.injEq, Prod.mk.injEq] at h
    obtain ⟨halloc, -⟩ := allocateBuckets_some w _ b ha
    have hkw := lt_of_two_mul_two_pow_lt w k halloc
    have h2 := two_le_two_pow k hk1
    constructor
    · exact sizeInv_of_mask_eq w t t1 hs (by rw [← h.1])
    · refine ⟨k, hk1, by omega, ?_⟩
      rw [← h.2]
      exact pred_mod_two_pow w _ (by omega) (by omega)

theorem getBucketForAdd_sizeInv (w : Nat) (pol : HashTablePolicy Key Element)
    (alloc : AllocPolicy) (t t1 : HashTable Element) (hash : Nat) (key : Key) (idx : Nat)
    (hs : SizeInv w t) (h : getBucketForAdd w pol alloc t hash key = some (t1, idx)) :
    SizeInv w t1 := by
  unfold getBucketForAdd at h
  simp only at h
  cases hr : (if numBuckets t < alloc.getMinDesiredBuckets ((t.numElements + 1) % 2 ^ w)
      then resize w pol t (alloc.getMinDesiredBuckets ((t.numElements + 1) % 2 ^ w))
      else some t) with
  | none => rw [hr] at h; simp at h
  | some tr =>
    rw [hr] at h
    simp only at h
    have hsr : SizeInv w tr := by
      split_ifs at hr
      · exact (resize_sizeInv w pol t tr _ hr).1
      · simp only [Option.some.injEq] at hr; rw [← hr]; exact hs
    cases hw : getBucketForWrite w pol tr hash key with
    | none => rw [hw] at h; simp at h
    | some r =>
      obtain ⟨t2, b⟩ := r
      rw [hw] at h
      simp only at h
      have hm := getBucketForWrite_mask w pol tr t2 hash key b hw
      split_ifs at h
      · simp only [Option.some.injEq, Prod.mk.injEq] at h
        exact sizeInv_of_mask_eq w tr t1 hsr (by rw [← h.1]; exact hm)
      · simp only [Option.some.injEq, Prod.mk.injEq] at h
        exact sizeInv_of_mask_eq w tr t1 hsr (by rw [← h.1]; exact hm)

theorem insert_sizeInv (w : Nat) (pol : HashTablePolicy Key Element)
    (alloc : AllocPolicy) (t t1 : HashTable Element) (hash : Nat) (element : Element)
    (hs : SizeInv w t) (h : insert w pol alloc t hash element = some t1) :
    SizeInv w t1 := by
  unfold insert at h
  cases ha : getBucketForAdd w pol alloc t hash (pol.getKey element) with
  | none => rw [ha] at h; simp at h
  | some r =>
    obtain ⟨t2, b⟩ := r
    rw [ha] at h
    simp only [Option.some.injEq] at h
    have := getBucketForAdd_sizeInv w pol alloc t t2 hash _ b hs ha
    exact sizeInv_of_mask_eq w t2 t1 this (by rw [← h])

theorem remove_sizeInv (w : Nat) (pol : HashTablePolicy Key Element)
    (alloc : AllocPolicy) (t t1 : HashTable Element) (hash : Nat) (key : Key) (found : Bool)
    (hs : SizeInv w t) (h : remove w pol alloc t hash key = some (found, t1)) :
    SizeInv w t1 := by
  unfold remove at h
  simp only at h
  cases hr : getBucketForRead w pol t (hash ||| isOccupiedMask w) key with
  | none => rw [hr] at h; simp at h
  | some r =>
    rw [hr] at h
    cases r with
    | none =>
      simp only [Option.some.injEq, Prod.mk.injEq] at h
      rw [← h.2]; exact hs
    | some j =>
      simp only at h
      cases he : eraseHashBucket t j with
      | none => rw [he] at h; simp at h
      | some te =>
        rw [he] at h
        simp only at h
        have hm : te.hashToBucketIndexMask = t.hashToBucketIndexMask :=
          eraseLoop_mask _ t te j he
        split_ifs at h
        · split at h
          · simp at h
          · rename_i t3 hres
            simp only [Option.some.injEq, Prod.mk.injEq] at h
            rw [← h.2]
            exact (resize_sizeInv w pol _ t3 _ hres).1
        · simp only [Option.some.injEq, Prod.mk.injEq] at h
          exact sizeInv_of_mask_eq w t t1 hs (by rw [← h.2]; exact hm)

/-- Power-of-two sizing of every reachable table needs only that the policy
returns powers of two that are at least 2. -/
theorem reachable_sizeInv (w : Nat) (pol : HashTablePolicy Key Element) (alloc : AllocPolicy)
    (hp : PowContract alloc) (t : HashTable Element) (h : Reachable w pol alloc t) :
    SizeInv w t := by
  induction h with
  | construct n t hcon => exact construct_sizeInv w alloc hp n t hcon
  | insert t t1 hash element _ hins ih => exact insert_sizeInv w pol alloc t t1 hash element ih hins
  | remove t t1 hash key found _ hrem ih =>
    exact remove_sizeInv w pol alloc t t1 hash key found ih hrem
  | copy t _ ih => exact sizeInv_of_mask_eq w t _ ih rfl
  | moveTo t t1 t2 _ hmove ih => exact (moveFrom_sizeInv w alloc hp t t1 t2 ih hmove).1
  | moveSource t t1 t2 _ hmove ih => exact (moveFrom_sizeInv w alloc hp t t1 t2 ih hmove).2

/-- C10. Given a policy whose two functions always return a power of two that is
at least 2, every reachable table (after construction and after every add,
remove, copy and move, for the destination and for the moved-from table) has
`bucketCount & (bucketCount - 1) == 0`, `bucketCount >= 2`,
`hashToBucketIndexMask == bucketCount - 1` and a mask disjoint from the occupancy
bit; so has the table after every completed `resize`. -/
theorem power_of_two_sizing (w : Nat) (pol : HashTablePolicy Key Element) (alloc : AllocPolicy)
    (hp : PowContract alloc) (t : HashTable Element) (hreach : Reachable w pol alloc t) :
    PowerOfTwoSizing w t ∧
      ∀ newNumBuckets t1, resize w pol t newNumBuckets = some t1 →
        PowerOfTwoSizing w t1 ∧ numBuckets t1 = newNumBuckets :=
  ⟨powerOfTwoSizing_of_sizeInv w t (reachable_sizeInv w pol alloc hp t hreach),
    fun m t1 h => ⟨powerOfTwoSizing_of_sizeInv w t1 (resize_sizeInv w pol t t1 m h).1,
      (resize_sizeInv w pol t t1 m h).2⟩⟩

/-- Witness for C10: `exampleTwo` under the doubling policy. -/
theorem power_of_two_sizing_witness :
    PowerOfTwoSizing 64 exampleTwo ∧
      ∀ newNumBuckets t1, resize 64 natMapPolicy exampleTwo newNumBuckets = some t1 →
        PowerOfTwoSizing 64 t1 ∧ numBuckets t1 = newNumBuckets :=
  power_of_two_sizing 64 natMapPolicy doublingPolicy
    ⟨doublingPolicy_contract.minPow, doublingPolicy_contract.maxPow⟩ exampleTwo
    exampleTwo_reachable

/-! ## C9 and C6: resize preservation and the contract of getBucketForAdd -/

/-- Two tables that satisfy the invariants and store the same buckets answer
every lookup alike: a key found in one is found in the other, in a bucket with
the same word and element, and a key absent from one is absent from the other. -/
theorem lookup_of_stored_eq (w : Nat) (pol : HashTablePolicy Key Element)
    (t t1 : HashTable Element) (h : TableInv w pol t) (h1 : TableInv w pol t1)
    (hst : storedBuckets (numBuckets t1) t1.buckets = storedBuckets (numBuckets t) t.buckets)
    (hash : Nat) (key : Key) :
    (∀ j, getBucketForRead w pol t hash key = some (some j) →
      ∃ j1, getBucketForRead w pol t1 hash key = some (some j1) ∧
        t1.buckets j1 = t.buckets j) ∧
    (getBucketForRead w pol t hash key = some none →
      getBucketForRead w pol t1 hash key = some none) := by
  obtain ⟨_, hsound, hfind, _⟩ := lookup_spec w pol t h.structured h.hasEmpty hash key
  obtain ⟨_, hsound1, hfind1, hmiss1⟩ :=
    lookup_spec w pol t1 h1.structured h1.hasEmpty hash key
  constructor
  · intro j hj
    obtain ⟨_, hmem, hm⟩ := hsound j hj
    obtain ⟨j1, hj1⟩ := hfind1 ⟨t.buckets j, by rw [hst]; exact hmem, hm⟩
    obtain ⟨_, hmem1, hm1⟩ := hsound1 j1 hj1
    refine ⟨j1, hj1, ?_⟩
    exact uniqueKeys_eq pol _ h.structured.unique _ key _ _ (by rw [← hst]; exact hmem1) hmem
      hm1 hm
  · intro hnone
    apply hmiss1
    intro x hx hm
    obtain ⟨j, hj⟩ := hfind ⟨x, by rw [← hst]; exact hx, hm⟩
    rw [hnone] at hj
    simp at hj

/-- C9. Resize preservation: on a table that satisfies the invariants, `resize`
to a power of two that is greater than 1 and greater than `numElements` (and can
be allocated) returns a table with that many buckets and the matching mask, the
same `numElements`, the same multiset of stored buckets, the Robin Hood ordering
and the table invariants; every key found before is found after it in a bucket
with the same word and element, and every absent key stays absent. -/
theorem resize_preserves (w : Nat) (pol : HashTablePolicy Key Element) (hlaw : LawfulKeys pol)
    (t : HashTable Element) (hinv : TableInv w pol t) (newNumBuckets : Nat)
    (hpow : newNumBuckets &&& (newNumBuckets - 1) = 0) (hgt : 1 < newNumBuckets)
    (hnum : t.numElements < newNumBuckets) (halloc : 2 * newNumBuckets < 2 ^ w) :
    ∃ t1, resize w pol t newNumBuckets = some t1 ∧ numBuckets t1 = newNumBuckets ∧
      t1.hashToBucketIndexMask = newNumBuckets - 1 ∧ t1.numElements = t.numElements ∧
      storedBuckets (numBuckets t1) t1.buckets = storedBuckets (numBuckets t) t.buckets ∧
      RobinHoodOrdering t1 ∧ TableInv w pol t1 ∧
      ∀ hash key,
        (∀ j, getBucketForRead w pol t hash key = some (some j) →
          ∃ j1, getBucketForRead w pol t1 hash key = some (some j1) ∧
            t1.buckets j1 = t.buckets j) ∧
        (getBucketForRead w pol t hash key = some none →
          getBucketForRead w pol t1 hash key = some none) := by
  obtain ⟨k, hk⟩ := pow_two_of_and_pred newNumBuckets (by omega) hpow
  subst hk
  have hk1 : 1 ≤ k := by
    by_contra hk0
    have : k = 0 := by omega
    subst this
    simp at hgt
  obtain ⟨t1, hres, hm1, hnum1, hs1, hst1⟩ := resize_spec w pol hlaw t hinv.structured k hk1
    halloc (by rw [← hinv.count]; exact hnum)
  have hn1 : numBuckets t1 = 2 ^ k := numBuckets_eq_of_mask hm1
  have hinv1 : TableInv w pol t1 :=
    ⟨hs1, by rw [hn1]; exact halloc, by rw [hst1, hnum1]; exact hinv.count,
      by rw [hn1, hnum1]; exact hnum⟩
  exact ⟨t1, hres, hn1, hm1, hnum1, hst1, robinHoodOrdering_of_runInv w t1 hs1.size hs1.run,
    hinv1, fun hash key => lookup_of_stored_eq w pol t t1 hinv hinv1 hst1 hash key⟩

/-- Witness for C9: `exampleTwo` resized to 16 buckets. -/
theorem resize_preserves_witness :
    ∃ t1, resize 64 natMapPolicy exampleTwo 16 = some t1 ∧ numBuckets t1 = 16 ∧
      t1.hashToBucketIndexMask = 16 - 1 ∧ t1.numElements = exampleTwo.numElements ∧
      storedBuckets (numBuckets t1) t1.buckets
        = storedBuckets (numBuckets exampleTwo) exampleTwo.buckets ∧
      RobinHoodOrdering t1 ∧ TableInv 64 natMapPolicy t1 ∧
      ∀ hash key,
        (∀ j, getBucketForRead 64 natMapPolicy exampleTwo hash key = some (some j) →
          ∃ j1, getBucketForRead 64 natMapPolicy t1 hash key = some (some j1) ∧
            t1.buckets j1 = exampleTwo.buckets j) ∧
        (getBucketForRead 64 natMapPolicy exampleTwo hash key = some none →
          getBucketForRead 64 natMapPolicy t1 hash key = some none) :=
  resize_preserves 64 natMapPolicy natMapPolicy_lawful exampleTwo
    (reachable_inv 64 natMapPolicy natMapPolicy_lawful doublingPolicy doublingPolicy_contract
      exampleTwo exampleTwo_reachable) 16 (by decide) (by decide) (by decide) (by decide)

/-- C6. `getBucketForAdd(hash, key)` on a table that satisfies the invariants
returns; if the key was absent the returned bucket is empty and `numElements` has
grown by exactly one; if the key was present in bucket `j` the returned bucket is
that bucket (same word and element), its word is `hash | OCCUPIED_MASK`, it holds
the key, and `numElements` is unchanged. -/
theorem getBucketForAdd_contract (w : Nat) (pol : HashTablePolicy Key Element)
    (hlaw : LawfulKeys pol) (alloc : AllocPolicy) (hc : MinContract alloc)
    (t : HashTable Element) (hinv : TableInv w pol t)
    (hfit : numBuckets t < alloc.getMinDesiredBuckets (t.numElements + 1) →
      2 * alloc.getMinDesiredBuckets (t.numElements + 1) < 2 ^ w)
    (hash : Nat) (key : Key) :
    ∃ t1 idx, getBucketForAdd w pol alloc t hash key = some (t1, idx) ∧ idx < numBuckets t1 ∧
      (getBucketForRead w pol t hash key = some none →
        (t1.buckets idx).hashAndOccupancy = 0 ∧ t1.numElements = t.numElements + 1) ∧
      (∀ j, getBucketForRead w pol t hash key = some (some j) →
        (t1.buckets idx).hashAndOccupancy = (hash ||| isOccupiedMask w) ∧
        bucketHoldsKey pol (t1.buckets idx) key = true ∧
        t1.buckets idx = t.buckets j ∧ t1.numElements = t.numElements) := by
  obtain ⟨t1, idx, hadd, hidx, habsent, hpresent⟩ :=
    getBucketForAdd_spec w pol hlaw alloc hc t hinv hfit hash key
  obtain ⟨_, hsound, hfind, _⟩ := lookup_spec w pol t hinv.structured hinv.hasEmpty hash key
  refine ⟨t1, idx, hadd, hidx, ?_, ?_⟩
  · intro hnone
    apply habsent
    intro x hx hm
    obtain ⟨j, hj⟩ := hfind ⟨x, hx, hm⟩
    rw [hnone] at hj
    simp at hj
  · intro j hj
    obtain ⟨_, hmem, hm⟩ := hsound j hj
    obtain ⟨_, hm1, hmem1, hnum1⟩ := hpresent ⟨t.buckets j, hmem, hm⟩
    exact ⟨hm1.1, hm1.2,
      uniqueKeys_eq pol _ hinv.structured.unique _ key _ _ hmem1 hmem hm1 hm, hnum1⟩

/-- Witness for C6: adding the key 7 (present, hash 5) to `exampleTwo`. -/
theorem getBucketForAdd_contract_witness :
    ∃ t1 idx, getBucketForAdd 64 natMapPolicy doublingPolicy exampleTwo 5 7 = some (t1, idx) ∧
      idx < numBuckets t1 ∧
      (getBucketForRead 64 natMapPolicy exampleTwo 5 7 = some none →
        (t1.buckets idx).hashAndOccupancy = 0 ∧
          t1.numElements = exampleTwo.numElements + 1) ∧
      (∀ j, getBucketForRead 64 natMapPolicy exampleTwo 5 7 = some (some j) →
        (t1.buckets idx).hashAndOccupancy = (5 ||| isOccupiedMask 64) ∧
        bucketHoldsKey natMapPolicy (t1.buckets idx) 7 = true ∧
        t1.buckets idx = exampleTwo.buckets j ∧ t1.numElements = exampleTwo.numElements) :=
  getBucketForAdd_contract 64 natMapPolicy natMapPolicy_lawful doublingPolicy
    ⟨doublingPolicy_contract.minPow, doublingPolicy_contract.minRoom⟩ exampleTwo
    (reachable_inv 64 natMapPolicy natMapPolicy_lawful doublingPolicy doublingPolicy_contract
      exampleTwo exampleTwo_reachable) (fun _ => by decide) 5 7

/-! ## C2: membership round trip -/

/-- A sequence of insertions of pairwise distinct keys into a table that stores
the buckets of the items inserted so far stores the buckets of all of them. -/
theorem insertAll_spec (w : Nat) (pol : HashTablePolicy Key Element)
    (hlaw : LawfulKeys pol) (alloc : AllocPolicy) (hc : MinContract alloc)
    (items : List (Nat × Element)) :
    ∀ (done : List (Nat × Element)) (t : HashTable Element), TableInv w pol t →
      storedBuckets (numBuckets t) t.buckets
        = Multiset.map (bucketOf w) (↑done : Multiset (Nat × Element)) →
      (done ++ items).Pairwise
        (fun p q => pol.areKeysEqual (pol.getKey p.2) (pol.getKey q.2) = false) →
      (∀ n, n ≤ (done ++ items).length → 2 * alloc.getMinDesiredBuckets n < 2 ^ w) →
      ∃ t1, insertAll w pol alloc t items = some t1 ∧ TableInv w pol t1 ∧
        storedBuckets (numBuckets t1) t1.buckets
          = Multiset.map (bucketOf w) (↑(done ++ items) : Multiset (Nat × Element)) := by
  induction items with
  | nil =>
    intro done t hinv hst _ _
    exact ⟨t, rfl, hinv, by rw [List.append_nil]; exact hst⟩
  | cons item rest ih =>
    intro done t hinv hst hpair hfit
    have hnum : t.numElements = done.length := by
      rw [hinv.count, hst, Multiset.card_map, Multiset.coe_card]
    obtain ⟨t1, hins, hinv1, _, hcase⟩ := insert_spec w pol hlaw alloc hc t hinv
      (fun _ => hfit _ (by rw [hnum, List.length_append, List.length_cons]; omega))
      item.1 item.2
    have hst1 : storedBuckets (numBuckets t1) t1.buckets
        = Multiset.map (bucketOf w) (↑(done ++ [item]) : Multiset (Nat × Element)) := by
      rcases hcase with ⟨_, hadd, _⟩ | ⟨old, hold, hm, _, _⟩
      · rw [hadd, hst, ← Multiset.coe_add, Multiset.map_add]
        rfl
      · exfalso
        rw [hst] at hold
        obtain ⟨q, hq, rfl⟩ := Multiset.mem_map.1 hold
        have hq' : q ∈ done := Multiset.mem_coe.1 hq
        have hne := (List.pairwise_append.1 hpair).2.2 q hq' item (List.mem_cons_self _ _)
        have heq : pol.areKeysEqual (pol.getKey q.2) (pol.getKey item.2) = true := hm.2
        rw [hne] at heq
        exact Bool.false_ne_true heq
    have happ : (done ++ [item]) ++ rest = done ++ item :: rest := by
      rw [List.append_assoc]; rfl
    obtain ⟨t2, hall, hinv2, hst2⟩ := ih (done ++ [item]) t1 hinv1 hst1
      (by rw [happ]; exact hpair) (by rw [happ]; exact hfit)
    refine ⟨t2, ?_, hinv2, by rw [← happ]; exact hst2⟩
    show (match insert w pol alloc t item.1 item.2 with
      | none => none
      | some t1 => insertAll w pol alloc t1 rest) = some t2
    rw [hins]
    exact hall

/-- C2. Membership round trip: starting from a freshly constructed table, every
finite sequence of insertions of items with pairwise distinct keys completes
(given that the arrays the policy asks for can be allocated), and afterwards
`getBucketForRead(hash, key)` of every inserted item returns a bucket that holds
the inserted element. -/
theorem membership_round_trip (w : Nat) (pol : HashTablePolicy Key Element)
    (hlaw : LawfulKeys pol) (alloc : AllocPolicy) (hc : MinContract alloc)
    (estimatedNumElements : Nat) (items : List (Nat × Element))
    (hdistinct : items.Pairwise
      (fun p q => pol.areKeysEqual (pol.getKey p.2) (pol.getKey q.2) = false))
    (hfit0 : 2 * alloc.getMinDesiredBuckets estimatedNumElements < 2 ^ w)
    (hfit : ∀ n, n ≤ items.length → 2 * alloc.getMinDesiredBuckets n < 2 ^ w) :
    ∃ t0 t, HashTable.construct w alloc estimatedNumElements = some t0 ∧
      insertAll w pol alloc t0 items = some t ∧
      ∀ item ∈ items, ∃ j, getBucketForRead w pol t item.1 (pol.getKey item.2) = some (some j) ∧
        (t.buckets j).hashAndOccupancy = (item.1 ||| isOccupiedMask w) ∧
        (t.buckets j).contents = some item.2 := by
  obtain ⟨t0, hcon⟩ : ∃ t0 : HashTable Element,
      HashTable.construct w alloc estimatedNumElements = some t0 :=
    construct_returns w alloc hc estimatedNumElements hfit0
  obtain ⟨hinv0, _, _, hb0⟩ := construct_spec w pol alloc hc estimatedNumElements t0 hcon
  obtain ⟨t, hall, hinv, hst⟩ := insertAll_spec w pol hlaw alloc hc items [] t0 hinv0
    (by rw [hb0, storedBuckets_empty]; rfl) (by simpa using hdistinct) (by simpa using hfit)
  refine ⟨t0, t, hcon, hall, ?_⟩
  intro item hitem
  obtain ⟨_, hsound, hfind, _⟩ :=
    lookup_spec w pol t hinv.structured hinv.hasEmpty item.1 (pol.getKey item.2)
  have hmem : bucketOf w item ∈ storedBuckets (numBuckets t) t.buckets := by
    rw [hst]
    exact Multiset.mem_map.2 ⟨item, by simpa using hitem, rfl⟩
  have hm : Matches pol (item.1 ||| isOccupiedMask w) (pol.getKey item.2) (bucketOf w item) :=
    matches_self pol hlaw _ _
  obtain ⟨j, hj⟩ := hfind ⟨_, hmem, hm⟩
  obtain ⟨_, hmemj, hmj⟩ := hsound j hj
  have heq : t.buckets j = bucketOf w item :=
    uniqueKeys_eq pol _ hinv.structured.unique _ _ _ _ hmemj hmem hmj hm
  exact ⟨j, hj, by rw [heq]; rfl, by rw [heq]; rfl⟩

/-- Witness for C2: keys 7 and 9 inserted into a fresh table are both found. -/
theorem membership_round_trip_witness :
    ∃ t0 t, HashTable.construct 64 doublingPolicy 0 = some t0 ∧
      insertAll 64 natMapPolicy doublingPolicy t0 exampleItems = some t ∧
      ∀ item ∈ exampleItems,
        ∃ j, getBucketForRead 64 natMapPolicy t item.1 (natMapPolicy.getKey item.2)
            = some (some j) ∧
          (t.buckets j).hashAndOccupancy = (item.1 ||| isOccupiedMask 64) ∧
          (t.buckets j).contents = some item.2 :=
  membership_round_trip 64 natMapPolicy natMapPolicy_lawful doublingPolicy
    ⟨doublingPolicy_contract.minPow, doublingPolicy_contract.minRoom⟩ 0 exampleItems
    (by decide) (by decide)
    (fun n hn => by
      have h2 : n ≤ 2 := hn
      interval_cases n <;> decide)

/-! ## C11: shrink on remove -/

theorem evictHashBucket_numElements (t t1 : HashTable Element) (i : Nat)
    (h : evictHashBucket t i = some t1) : t1.numElements = t.numElements := by
  unfold evictHashBucket at h
  simp only at h
  split_ifs at h
  split at h
  · simp at h
  · simp only [Option.some.injEq] at h
    rw [← h]

theorem getBucketForWriteLoop_numElements (w : Nat) (pol : HashTablePolicy Key Element)
    (t : HashTable Element) (hao : Nat) (key : Key) (fuel : Nat) :
    ∀ (probeCount : Nat) (t1 : HashTable Element) (idx : Nat),
      getBucketForWriteLoop w pol t hao key fuel probeCount = some (t1, idx) →
      t1.numElements = t.numElements := by
  induction fuel with
  | zero => intro p t1 idx h; simp [getBucketForWriteLoop] at h
  | succ fuel ih =>
    intro p t1 idx h
    unfold getBucketForWriteLoop at h
    simp only at h
    split_ifs at h with h1 h2 h3
    · simp only [Option.some.injEq, Prod.mk.injEq] at h; rw [← h.1]
    · simp only [Option.some.injEq, Prod.mk.injEq] at h; rw [← h.1]
    · cases he : evictHashBucket t (((hao + p) % 2 ^ w) &&& t.hashToBucketIndexMask) with
      | none => rw [he] at h; simp at h
      | some t2 =>
        rw [he] at h
        simp only [Option.some.injEq, Prod.mk.injEq] at h
        rw [← h.1]
        exact evictHashBucket_numElements t t2 _ he
    · exact ih _ _ _ h

theorem resizeLoop_numElements (w : Nat) (pol : HashTablePolicy Key Element)
    (old : Nat → HashTableBucket Element) (l : List Nat) :
    ∀ (t t1 : HashTable Element), resizeLoop w pol old l t = some t1 →
      t1.numElements = t.numElements := by
  induction l with
  | nil => intro t t1 h; simp only [resizeLoop, Option.some.injEq] at h; rw [← h]
  | cons i rest ih =>
    intro t t1 h
    unfold resizeLoop at h
    simp only at h
    by_cases h0 : (old i).hashAndOccupancy = 0
    · rw [if_pos h0] at h
      exact ih _ _ h
    · rw [if_neg h0] at h
      cases hc : (old i).contents with
      | none => rw [hc] at h; simp at h
      | some e =>
        rw [hc] at h
        simp only at h
        cases hw : getBucketForWrite w pol t (old i).hashAndOccupancy (pol.getKey e) with
        | none => rw [hw] at h; simp at h
        | some r =>
          obtain ⟨t2, idx⟩ := r
          rw [hw] at h
          simp only at h
          rw [ih _ _ h]
          exact getBucketForWriteLoop_numElements w pol t _ _ _ 0 t2 idx hw

theorem resize_numElements (w : Nat) (pol : HashTablePolicy Key Element)
    (t t1 : HashTable Element) (m : Nat) (h : resize w pol t m = some t1) :
    t1.numElements = t.numElements := by
  unfold resize at h
  split_ifs at h
  simp only at h
  split at h
  · simp at h
  · have := resizeLoop_numElements w pol _ _ _ _ h
    exact this

/-- The bucket count that a `remove` returning true leaves, for any table. -/
theorem remove_numBuckets (w : Nat) (pol : HashTablePolicy Key Element) (alloc : AllocPolicy)
    (t t1 : HashTable Element) (hash : Nat) (key : Key)
    (h : remove w pol alloc t hash key = some (true, t1)) :
    numBuckets t1 = (if numBuckets t > alloc.getMaxDesiredBuckets t1.numElements then
      alloc.getMaxDesiredBuckets t1.numElements else numBuckets t) := by
  unfold remove at h
  simp only at h
  cases hr : getBucketForRead w pol t (hash ||| isOccupiedMask w) key with
  | none => rw [hr] at h; simp at h
  | some r =>
    rw [hr] at h
    cases r with
    | none => simp at h
    | some j =>
      simp only at h
      cases he : eraseHashBucket t j with
      | none => rw [he] at h; simp at h
      | some te =>
        rw [he] at h
        simp only at h
        have hm : te.hashToBucketIndexMask = t.hashToBucketIndexMask :=
          eraseLoop_mask _ t te j he
        have hn : ∀ x : Nat, numBuckets { te with numElements := x } = numBuckets t := by
          intro x; unfold numBuckets; rw [← hm]
        by_cases hgt : numBuckets { te with numElements := (te.numElements + 2 ^ w - 1) % 2 ^ w }
            > alloc.getMaxDesiredBuckets ((te.numElements + 2 ^ w - 1) % 2 ^ w)
        · rw [if_pos hgt] at h
          split at h
          · simp at h
          · rename_i t3 hres
            simp only [Option.some.injEq, Prod.mk.injEq, true_and] at h
            subst h
            have hnum := resize_numElements w pol _ t3 _ hres
            have hsz := (resize_sizeInv w pol _ t3 _ hres).2
            simp only at hnum
            rw [hn] at hgt
            rw [hnum, if_pos hgt]
            exact hsz
        · rw [if_neg hgt] at h
          simp only [Option.some.injEq, Prod.mk.injEq, true_and] at h
          subst h
          rw [hn] at hgt ⊢
          show numBuckets t = if numBuckets t > alloc.getMaxDesiredBuckets
            ((te.numElements + 2 ^ w - 1) % 2 ^ w) then _ else _
          rw [if_neg hgt]

/-- C11. Shrink on remove: for every table, after `remove` has returned true with
new element count `n`, the bucket count is `maxDesiredBuckets(n)` if the bucket
count before the call was greater than that, and is unchanged otherwise; hence it
is at most `maxDesiredBuckets(n)`. On a table that satisfies the invariants,
`remove` of a present key does return true. -/
theorem remove_shrinks (w : Nat) (pol : HashTablePolicy Key Element) (alloc : AllocPolicy)
    (t : HashTable Element) (hash : Nat) (key : Key) :
    (∀ t1, remove w pol alloc t hash key = some (true, t1) →
      numBuckets t1 = (if numBuckets t > alloc.getMaxDesiredBuckets t1.numElements then
        alloc.getMaxDesiredBuckets t1.numElements else numBuckets t) ∧
      numBuckets t1 ≤ alloc.getMaxDesiredBuckets t1.numElements) ∧
    (LawfulKeys pol → AllocContract alloc → TableInv w pol t →
      ∀ j, getBucketForRead w pol t hash key = some (some j) →
        ∃ t1, remove w pol alloc t hash key = some (true, t1)) := by
  constructor
  · intro t1 h
    have hn := remove_numBuckets w pol alloc t t1 hash key h
    refine ⟨hn, ?_⟩
    rw [hn]
    split_ifs with hgt
    · exact le_refl _
    · omega
  · intro hlaw hc hinv j hj
    obtain ⟨found, t1, hrem, _, hcase⟩ := remove_spec w pol hlaw alloc hc t hinv hash key
    rcases hcase with ⟨_, _, habs, _⟩ | ⟨hf, _⟩
    · rw [hj] at habs; simp at habs
    · subst hf
      exact ⟨t1, hrem⟩

theorem tightPolicy_contract : AllocContract tightPolicy :=
  ⟨fun n => ⟨n + 1, by omega, rfl⟩, fun n => ⟨n + 1, by omega, rfl⟩,
    fun n => Nat.lt_of_lt_of_le (Nat.lt_two_pow n) (Nat.pow_le_pow_right (by omega) (by omega)),
    fun _ => le_refl _⟩

theorem tightEmpty_reachable : Reachable 64 natMapPolicy tightPolicy tightEmpty :=
  Reachable.construct 0 _ (Option.some_get _).symm

theorem tightOne_reachable : Reachable 64 natMapPolicy tightPolicy tightOne :=
  Reachable.insert _ tightOne 5 (7, 70) tightEmpty_reachable (Option.some_get _).symm

/-- Witness for C11: removing key 7 from the four-bucket table `tightOne`
shrinks it to the two buckets that `maxDesiredBuckets(0)` asks for. -/
theorem remove_shrinks_witness :
    ∃ t1, remove 64 natMapPolicy tightPolicy tightOne 5 7 = some (true, t1) ∧
      numBuckets tightOne = 4 ∧ numBuckets t1 = 2 ∧
      numBuckets t1 = (if numBuckets tightOne > tightPolicy.getMaxDesiredBuckets t1.numElements
        then tightPolicy.getMaxDesiredBuckets t1.numElements else numBuckets tightOne) ∧
      numBuckets t1 ≤ tightPolicy.getMaxDesiredBuckets t1.numElements := by
  obtain ⟨t1, h1⟩ := (remove_shrinks 64 natMapPolicy tightPolicy tightOne 5 7).2
    natMapPolicy_lawful tightPolicy_contract
    (reachable_inv 64 natMapPolicy natMapPolicy_lawful tightPolicy tightPolicy_contract
      tightOne tightOne_reachable) 1 (by decide)
  have h2 := (remove_shrinks 64 natMapPolicy tightPolicy tightOne 5 7).1 t1 h1
  refine ⟨t1, h1, by decide, ?_, h2.1, h2.2⟩
  have h3 : remove 64 natMapPolicy tightPolicy tightOne 5 7
      = some ((remove 64 natMapPolicy tightPolicy tightOne 5 7).get (by decide)) :=
    (Option.some_get _).symm
  rw [h3] at h1
  simp only [Option.some.injEq] at h1
  have h4 : ((remove 64 natMapPolicy tightPolicy tightOne 5 7).get (by decide)).2 = t1 := by
    rw [h1]
  rw [← h4]
  decide

/-! ## C12: hysteresis -/

/-- Counterexample to C12 as stated: `tightPolicy` returns powers of two that are
at least 2, has `min(n) ≤ max(n)` and is monotonic, yet toggling key 7 on the
reachable two-bucket table `tightEmpty` resizes every time: the add grows the
table to 4 buckets, the remove that follows shrinks it to 2, and the next add
grows it again. -/
theorem toggle_resizes_without_band :
    AllocContract tightPolicy ∧
    (∀ a b, a ≤ b → tightPolicy.getMinDesiredBuckets a ≤ tightPolicy.getMinDesiredBuckets b) ∧
    (∀ a b, a ≤ b → tightPolicy.getMaxDesiredBuckets a ≤ tightPolicy.getMaxDesiredBuckets b) ∧
    Reachable 64 natMapPolicy tightPolicy tightEmpty ∧
    getBucketForRead 64 natMapPolicy tightEmpty 5 7 = some none ∧
    numBuckets tightEmpty = 2 ∧
    insert 64 natMapPolicy tightPolicy tightEmpty 5 (7, 70) = some tightOne ∧
    numBuckets tightOne = 4 ∧
    remove 64 natMapPolicy tightPolicy tightOne 5 7 = some (true, tightEmptied) ∧
    numBuckets tightEmptied = 2 ∧
    insert 64 natMapPolicy tightPolicy tightEmptied 5 (7, 70) = some tightAgain ∧
    numBuckets tightAgain = 4 := by
  refine ⟨tightPolicy_contract, ?_, ?_, tightEmpty_reachable, by decide, by decide,
    (Option.some_get _).symm, by decide, ?_, by decide, (Option.some_get _).symm, by decide⟩
  · intro a b hab
    exact Nat.pow_le_pow_right (by omega) (by omega)
  · intro a b hab
    exact Nat.pow_le_pow_right (by omega) (by omega)
  · have h : remove 64 natMapPolicy tightPolicy tightOne 5 7
        = some ((remove 64 natMapPolicy tightPolicy tightOne 5 7).get (by decide)) :=
      (Option.some_get _).symm
    rw [h]
    exact congrArg some (Prod.ext (by decide) rfl)

/-- Inserting an absent element: the insertion returns, adds the element, and
the size is decided by `minDesiredBuckets(numElements + 1)` alone. -/
theorem insert_absent_spec (w : Nat) (pol : HashTablePolicy Key Element)
    (hlaw : LawfulKeys pol) (alloc : AllocPolicy) (hc : MinContract alloc)
    (t : HashTable Element) (h : TableInv w pol t)
    (hfit : numBuckets t < alloc.getMinDesiredBuckets (t.numElements + 1) →
      2 * alloc.getMinDesiredBuckets (t.numElements + 1) < 2 ^ w)
    (hash : Nat) (e : Element)
    (habsent : ∀ x ∈ storedBuckets (numBuckets t) t.buckets,
      ¬ Matches pol (hash ||| isOccupiedMask w) (pol.getKey e) x) :
    ∃ t1, insert w pol alloc t hash e = some t1 ∧ TableInv w pol t1 ∧
      numBuckets t1 = (if numBuckets t < alloc.getMinDesiredBuckets (t.numElements + 1) then
          alloc.getMinDesiredBuckets (t.numElements + 1) else numBuckets t) ∧
      t1.numElements = t.numElements + 1 ∧
      storedBuckets (numBuckets t1) t1.buckets
        = storedBuckets (numBuckets t) t.buckets + {⟨hash ||| isOccupiedMask w, some e⟩} ∧
      ∃ j, getBucketForRead w pol t1 hash (pol.getKey e) = some (some j) ∧
        t1.buckets j = ⟨hash ||| isOccupiedMask w, some e⟩ := by
  obtain ⟨t1, hins, hinv1, hn1, hcase⟩ := insert_spec w pol hlaw alloc hc t h hfit hash e
  rcases hcase with ⟨_, hst, hnum⟩ | ⟨old, hold, hm, _, _⟩
  · refine ⟨t1, hins, hinv1, hn1, hnum, hst, ?_⟩
    obtain ⟨_, hsound, hfind, _⟩ :=
      lookup_spec w pol t1 hinv1.structured hinv1.hasEmpty hash (pol.getKey e)
    have hmem : (⟨hash ||| isOccupiedMask w, some e⟩ : HashTableBucket Element)
        ∈ storedBuckets (numBuckets t1) t1.buckets := by
      rw [hst]; simp
    have hm := matches_self pol hlaw (hash ||| isOccupiedMask w) e
    obtain ⟨j, hj⟩ := hfind ⟨_, hmem, hm⟩
    obtain ⟨_, hmemj, hmj⟩ := hsound j hj
    exact ⟨j, hj, uniqueKeys_eq pol _ hinv1.structured.unique _ _ _ _ hmemj hmem hmj hm⟩
  · exact absurd hm (habsent old hold)

/-- Removing a present key: the removal returns true, takes one element away,
leaves the key absent, and the size is decided by `maxDesiredBuckets` of the new
element count alone. -/
theorem remove_present_spec (w : Nat) (pol : HashTablePolicy Key Element)
    (hlaw : LawfulKeys pol) (alloc : AllocPolicy) (hc : AllocContract alloc)
    (t : HashTable Element) (h : TableInv w pol t) (hash : Nat) (key : Key) (j : Nat)
    (hpresent : getBucketForRead w pol t hash key = some (some j)) :
    ∃ t1, remove w pol alloc t hash key = some (true, t1) ∧ TableInv w pol t1 ∧
      t1.numElements + 1 = t.numElements ∧
      numBuckets t1 = (if numBuckets t > alloc.getMaxDesiredBuckets t1.numElements then
        alloc.getMaxDesiredBuckets t1.numElements else numBuckets t) ∧
      storedBuckets (numBuckets t1) t1.buckets + {t.buckets j}
        = storedBuckets (numBuckets t) t.buckets ∧
      ∀ x ∈ storedBuckets (numBuckets t1) t1.buckets,
        ¬ Matches pol (hash ||| isOccupiedMask w) key x := by
  obtain ⟨found, t1, hrem, hinv1, hcase⟩ := remove_spec w pol hlaw alloc hc t h hash key
  rcases hcase with ⟨_, _, habs, _⟩ | ⟨hf, j1, hj1, hm, hst, hnum, hn⟩
  · rw [hpresent] at habs; simp at habs
  · subst hf
    rw [hpresent] at hj1
    simp only [Option.some.injEq] at hj1
    subst hj1
    refine ⟨t1, hrem, hinv1, hnum, hn, hst, ?_⟩
    apply uniqueKeys_add_singleton pol _ (t.buckets j) _ _ _ hm
    rw [hst]
    exact h.structured.unique

/-- One toggle from the state after the add: the remove does not shrink the
table and the add that follows does not grow it. -/
theorem toggle_step (w : Nat) (pol : HashTablePolicy Key Element)
    (hlaw : LawfulKeys pol) (alloc : AllocPolicy) (hc : AllocContract alloc)
    (hash : Nat) (e : Element) (n : Nat)
    (hband : alloc.getMinDesiredBuckets (n + 1) ≤ alloc.getMaxDesiredBuckets n)
    (ta : HashTable Element)
    (hinv : ToggleInv w pol hash e n (alloc.getMinDesiredBuckets (n + 1)) ta) :
    ∃ tr, remove w pol alloc ta hash (pol.getKey e) = some (true, tr) ∧
      numBuckets tr = alloc.getMinDesiredBuckets (n + 1) ∧
      ∃ ta1, insert w pol alloc tr hash e = some ta1 ∧
        ToggleInv w pol hash e n (alloc.getMinDesiredBuckets (n + 1)) ta1 := by
  obtain ⟨hti, hnum, hnb, j, hj⟩ := hinv
  obtain ⟨tr, hrem, hinvr, hnumr, hnbr, _, habs⟩ :=
    remove_present_spec w pol hlaw alloc hc ta hti hash (pol.getKey e) j hj
  have hnr : tr.numElements = n := by omega
  rw [hnr, hnb, if_neg (by omega)] at hnbr
  refine ⟨tr, hrem, hnbr, ?_⟩
  obtain ⟨ta1, hins, hinv1, hnb1, hnum1, _, j1, hj1, _⟩ :=
    insert_absent_spec w pol hlaw alloc ⟨hc.minPow, hc.minRoom⟩ tr hinvr
      (by rw [hnr, hnbr]; intro hlt; omega) hash e habs
  rw [hnr, hnbr, if_neg (by omega)] at hnb1
  exact ⟨ta1, hins, hinv1, by rw [hnum1, hnr], hnb1, j1, hj1⟩

theorem toggles_spec (w : Nat) (pol : HashTablePolicy Key Element)
    (hlaw : LawfulKeys pol) (alloc : AllocPolicy) (hc : AllocContract alloc)
    (hash : Nat) (e : Element) (n : Nat)
    (hband : alloc.getMinDesiredBuckets (n + 1) ≤ alloc.getMaxDesiredBuckets n) (m : Nat) :
    ∀ ta, ToggleInv w pol hash e n (alloc.getMinDesiredBuckets (n + 1)) ta →
      ∃ tb, toggles w pol alloc hash e m ta = some tb ∧
        ToggleInv w pol hash e n (alloc.getMinDesiredBuckets (n + 1)) tb := by
  induction m with
  | zero => intro ta hinv; exact ⟨ta, rfl, hinv⟩
  | succ m ih =>
    intro ta hinv
    obtain ⟨tr, hrem, _, ta1, hins, hinv1⟩ := toggle_step w pol hlaw alloc hc hash e n hband ta hinv
    obtain ⟨tb, htb, hinvb⟩ := ih ta1 hinv1
    refine ⟨tb, ?_, hinvb⟩
    have htog : toggle w pol alloc hash e ta = some ta1 := by
      unfold toggle
      rw [hrem]
      exact hins
    show (match toggle w pol alloc hash e ta with
      | none => none
      | some t1 => toggles w pol alloc hash e m t1) = some tb
    rw [htog]
    exact htb

/-- C12 (as amended). Hysteresis: for a policy that meets the contract and whose
band satisfies `minDesiredBuckets(n + 1) ≤ maxDesiredBuckets(n)`, on every
reachable table with `n` elements: if adding an absent key makes
`getBucketForAdd` grow the table, then after any number of remove/add toggles of
that key the table still has the bucket count that the first add gave it, and
the next remove of the key does not change it either. -/
theorem hysteresis (w : Nat) (pol : HashTablePolicy Key Element)
    (hlaw : LawfulKeys pol) (alloc : AllocPolicy) (hc : AllocContract alloc)
    (hband : ∀ n, alloc.getMinDesiredBuckets (n + 1) ≤ alloc.getMaxDesiredBuckets n)
    (t : HashTable Element) (hreach : Reachable w pol alloc t) (hash : Nat) (e : Element)
    (habsent : getBucketForRead w pol t hash (pol.getKey e) = some none)
    (hgrow : numBuckets t < alloc.getMinDesiredBuckets (t.numElements + 1))
    (hfit : 2 * alloc.getMinDesiredBuckets (t.numElements + 1) < 2 ^ w) :
    ∃ t1, insert w pol alloc t hash e = some t1 ∧
      numBuckets t1 = alloc.getMinDesiredBuckets (t.numElements + 1) ∧
      ∀ m, ∃ ta tr, toggles w pol alloc hash e m t1 = some ta ∧
        numBuckets ta = numBuckets t1 ∧
        remove w pol alloc ta hash (pol.getKey e) = some (true, tr) ∧
        numBuckets tr = numBuckets t1 := by
  have hinv := reachable_inv w pol hlaw alloc hc t hreach
  have habs : ∀ x ∈ storedBuckets (numBuckets t) t.buckets,
      ¬ Matches pol (hash ||| isOccupiedMask w) (pol.getKey e) x := by
    intro x hx hm
    obtain ⟨j, hj⟩ := (lookup_spec w pol t hinv.structured hinv.hasEmpty hash
      (pol.getKey e)).2.2.1 ⟨x, hx, hm⟩
    rw [habsent] at hj
    simp at hj
  obtain ⟨t1, hins, hinv1, hnb1, hnum1, _, j1, hj1, _⟩ :=
    insert_absent_spec w pol hlaw alloc ⟨hc.minPow, hc.minRoom⟩ t hinv (fun _ => hfit)
      hash e habs
  rw [if_pos hgrow] at hnb1
  have hT1 : ToggleInv w pol hash e t.numElements
      (alloc.getMinDesiredBuckets (t.numElements + 1)) t1 := ⟨hinv1, hnum1, hnb1, j1, hj1⟩
  refine ⟨t1, hins, hnb1, ?_⟩
  intro m
  obtain ⟨ta, hta, hTa⟩ :=
    toggles_spec w pol hlaw alloc hc hash e t.numElements (hband _) m t1 hT1
  obtain ⟨tr, hrem, hnbr, _⟩ :=
    toggle_step w pol hlaw alloc hc hash e t.numElements (hband _) ta hTa
  exact ⟨ta, tr, hta, by rw [hTa.2.2.1, hnb1], hrem, by rw [hnbr, hnb1]⟩

/-- Witness for C12: adding key 7 to the two-bucket table `exampleEmpty` under
the doubling policy grows it to four buckets, and no toggle changes that. -/
theorem hysteresis_witness :
    ∃ t1, insert 64 natMapPolicy doublingPolicy exampleEmpty 5 (7, 70) = some t1 ∧
      numBuckets t1 = doublingPolicy.getMinDesiredBuckets (exampleEmpty.numElements + 1) ∧
      ∀ m, ∃ ta tr, toggles 64 natMapPolicy doublingPolicy 5 (7, 70) m t1 = some ta ∧
        numBuckets ta = numBuckets t1 ∧
        remove 64 natMapPolicy doublingPolicy ta 5 (natMapPolicy.getKey (7, 70))
          = some (true, tr) ∧
        numBuckets tr = numBuckets t1 :=
  hysteresis 64 natMapPolicy natMapPolicy_lawful doublingPolicy doublingPolicy_contract
    (fun _ => le_refl _) exampleEmpty exampleEmpty_reachable 5 (7, 70) (by decide) (by decide)
    (by decide)

/-! ## C13 and C14: move -/

/-- The move returns whenever the array for the moved-from table can be
allocated. -/
theorem moveFrom_returns (w : Nat) (alloc : AllocPolicy) (t : HashTable Element)
    (hfit : 2 * alloc.getMaxDesiredBuckets 0 < 2 ^ w) :
    ∃ t1 t2, moveFrom w alloc t = some (t1, t2) := by
  unfold moveFrom
  simp only [allocateBuckets_eq w _ hfit]
  exact ⟨_, _, rfl⟩

/-- The size of the moved-from table. -/
theorem moveFrom_numBuckets (w : Nat) (alloc : AllocPolicy) (hp : PowContract alloc)
    (t t1 t2 : HashTable Element) (h : moveFrom w alloc t = some (t1, t2)) :
    numBuckets t2 = alloc.getMaxDesiredBuckets 0 ∧ t2.numElements = 0 ∧
      t2.buckets = fun _ => emptyBucket := by
  obtain ⟨k, hk1, hk⟩ := hp.maxPow 0
  unfold moveFrom at h
  simp only [hk] at h
  cases ha : (allocateBuckets w (2 ^ k) : Option (Nat → HashTableBucket Element)) with
  | none => rw [ha] at h; simp at h
  | some b =>
    rw [ha] at h
    simp only [Option.some.injEq, Prod.mk.injEq] at h
    obtain ⟨halloc, hb⟩ := allocateBuckets_some w _ b ha
    have hpos := Nat.two_pow_pos k
    have hmask : (2 ^ k + 2 ^ w - 1) % 2 ^ w = 2 ^ k - 1 :=
      pred_mod_two_pow w _ hpos (by omega)
    rw [← h.2, hk]
    refine ⟨?_, rfl, hb⟩
    show (2 ^ k + 2 ^ w - 1) % 2 ^ w + 1 = _
    rw [hmask]; omega

/-- The size of a freshly constructed table. -/
theorem construct_numBuckets (w : Nat) (alloc : AllocPolicy) (hp : PowContract alloc)
    (n : Nat) (t : HashTable Element) (h : HashTable.construct w alloc n = some t) :
    numBuckets t = alloc.getMinDesiredBuckets n := by
  obtain ⟨k, hk1, hk⟩ := hp.minPow n
  unfold HashTable.construct at h
  simp only [hk] at h
  split_ifs at h
  cases ha : (allocateBuckets w (2 ^ k) : Option (Nat → HashTableBucket Element)) with
  | none => rw [ha] at h; simp at h
  | some b =>
    rw [ha] at h
    simp only [Option.some.injEq] at h
    obtain ⟨halloc, -⟩ := allocateBuckets_some w _ b ha
    have hpos := Nat.two_pow_pos k
    have hmask : (2 ^ k + 2 ^ w - 1) % 2 ^ w = 2 ^ k - 1 :=
      pred_mod_two_pow w _ hpos (by omega)
    rw [← h, hk]
    show (2 ^ k + 2 ^ w - 1) % 2 ^ w + 1 = _
    rw [hmask]; omega

/-- C13. Move validity: for every table `A` that satisfies the invariants,
`moveFrom` (given that the array for `A` can be allocated) makes the destination
exactly the former `A` and leaves `A` with `numElements == 0`, every bucket
empty, power-of-two sizing, the Robin Hood ordering and the table invariants; an
insertion into `A` then returns and the inserted element is found by lookup. -/
theorem move_validity (w : Nat) (pol : HashTablePolicy Key Element) (hlaw : LawfulKeys pol)
    (alloc : AllocPolicy) (hc : AllocContract alloc) (t : HashTable Element)
    (hinv : TableInv w pol t) (hfit : 2 * alloc.getMaxDesiredBuckets 0 < 2 ^ w) :
    ∃ t1 t2, moveFrom w alloc t = some (t1, t2) ∧ t1 = t ∧
      t2.numElements = 0 ∧ (∀ i, (t2.buckets i).hashAndOccupancy = 0) ∧
      PowerOfTwoSizing w t2 ∧ RobinHoodOrdering t2 ∧ TableInv w pol t2 ∧
      ∀ hash e, (numBuckets t2 < alloc.getMinDesiredBuckets 1 →
          2 * alloc.getMinDesiredBuckets 1 < 2 ^ w) →
        ∃ t3 j, insert w pol alloc t2 hash e = some t3 ∧ t3.numElements = 1 ∧
          getBucketForRead w pol t3 hash (pol.getKey e) = some (some j) ∧
          t3.buckets j = ⟨hash ||| isOccupiedMask w, some e⟩ := by
  obtain ⟨t1, t2, hmove⟩ := moveFrom_returns w alloc t hfit
  obtain ⟨ht1, _, hinv2, hnum2, _, hb2⟩ := moveFrom_spec w pol alloc hc t t1 t2 hinv hmove
  refine ⟨t1, t2, hmove, ht1, hnum2, fun i => by rw [hb2]; rfl,
    powerOfTwoSizing_of_sizeInv w t2 hinv2.structured.size,
    robinHoodOrdering_of_runInv w t2 hinv2.structured.size hinv2.structured.run, hinv2, ?_⟩
  intro hash e hfit1
  have habs : ∀ x ∈ storedBuckets (numBuckets t2) t2.buckets,
      ¬ Matches pol (hash ||| isOccupiedMask w) (pol.getKey e) x := by
    intro x hx
    rw [hb2, storedBuckets_empty] at hx
    simp at hx
  obtain ⟨t3, hins, _, _, hnum3, _, j, hj, hbj⟩ :=
    insert_absent_spec w pol hlaw alloc ⟨hc.minPow, hc.minRoom⟩ t2 hinv2
      (by rw [hnum2]; exact hfit1) hash e habs
  exact ⟨t3, j, hins, by rw [hnum3, hnum2], hj, hbj⟩

/-- Witness for C13: moving from `exampleTwo`. -/
theorem move_validity_witness :
    ∃ t1 t2, moveFrom 64 doublingPolicy exampleTwo = some (t1, t2) ∧ t1 = exampleTwo ∧
      t2.numElements = 0 ∧ (∀ i, (t2.buckets i).hashAndOccupancy = 0) ∧
      PowerOfTwoSizing 64 t2 ∧ RobinHoodOrdering t2 ∧ TableInv 64 natMapPolicy t2 ∧
      ∀ hash e, (numBuckets t2 < doublingPolicy.getMinDesiredBuckets 1 →
          2 * doublingPolicy.getMinDesiredBuckets 1 < 2 ^ 64) →
        ∃ t3 j, insert 64 natMapPolicy doublingPolicy t2 hash e = some t3 ∧ t3.numElements = 1 ∧
          getBucketForRead 64 natMapPolicy t3 hash (natMapPolicy.getKey e) = some (some j) ∧
          t3.buckets j = ⟨hash ||| isOccupiedMask 64, some e⟩ :=
  move_validity 64 natMapPolicy natMapPolicy_lawful doublingPolicy doublingPolicy_contract
    exampleTwo
    (reachable_inv 64 natMapPolicy natMapPolicy_lawful doublingPolicy doublingPolicy_contract
      exampleTwo exampleTwo_reachable) (by decide)

/-- Counterexample to C14 as stated: the doubling policy meets the contract, and
the table moved from under it has the 4 buckets of `maxDesiredBuckets(0)`, not
the 2 buckets of `minDesiredBuckets(0)` that a table freshly constructed with
hint 0 has. -/
theorem moved_from_is_not_minimum_sized :
    AllocContract doublingPolicy ∧
    (∀ a b, a ≤ b →
      doublingPolicy.getMinDesiredBuckets a ≤ doublingPolicy.getMinDesiredBuckets b) ∧
    (∀ a b, a ≤ b →
      doublingPolicy.getMaxDesiredBuckets a ≤ doublingPolicy.getMaxDesiredBuckets b) ∧
    moveFrom 64 doublingPolicy exampleTwo = some (exampleTwo, exampleMovedFrom) ∧
    numBuckets exampleMovedFrom = 4 ∧
    HashTable.construct 64 doublingPolicy 0 = some exampleEmpty ∧
    numBuckets exampleEmpty = 2 ∧ doublingPolicy.getMinDesiredBuckets 0 = 2 := by
  refine ⟨doublingPolicy_contract, ?_, ?_, ?_, by decide, (Option.some_get _).symm, by decide,
    by decide⟩
  · intro a b hab
    exact Nat.pow_le_pow_right (by omega) (by omega)
  · intro a b hab
    exact Nat.pow_le_pow_right (by omega) (by omega)
  · have h : moveFrom 64 doublingPolicy exampleTwo
        = some ((moveFrom 64 doublingPolicy exampleTwo).get (by decide)) :=
      (Option.some_get _).symm
    rw [h]
    exact congrArg some (Prod.ext rfl rfl)

/-- C14 (as amended). After a move (given that the array can be allocated) the
moved-from table holds an empty array of `maxDesiredBuckets(0)` buckets; a table
freshly constructed with hint 0 has `minDesiredBuckets(0)` buckets, which is at
most that, and the two are equal exactly when
`maxDesiredBuckets(0) = minDesiredBuckets(0)`. -/
theorem moved_from_size (w : Nat) (alloc : AllocPolicy) (hc : AllocContract alloc)
    (t : HashTable Element) (hfit : 2 * alloc.getMaxDesiredBuckets 0 < 2 ^ w) :
    ∃ t1 t2 t0, moveFrom w alloc t = some (t1, t2) ∧
      (HashTable.construct w alloc 0 : Option (HashTable Element)) = some t0 ∧
      numBuckets t2 = alloc.getMaxDesiredBuckets 0 ∧ t2.numElements = 0 ∧
      (∀ i, (t2.buckets i).hashAndOccupancy = 0) ∧
      numBuckets t0 = alloc.getMinDesiredBuckets 0 ∧ numBuckets t0 ≤ numBuckets t2 ∧
      (numBuckets t2 = numBuckets t0 ↔
        alloc.getMaxDesiredBuckets 0 = alloc.getMinDesiredBuckets 0) := by
  have hp : PowContract alloc := ⟨hc.minPow, hc.maxPow⟩
  obtain ⟨t1, t2, hmove⟩ := moveFrom_returns w alloc t hfit
  obtain ⟨hn2, hnum2, hb2⟩ := moveFrom_numBuckets w alloc hp t t1 t2 hmove
  have hle := hc.minLeMax 0
  obtain ⟨t0, hcon⟩ : ∃ t0 : HashTable Element, HashTable.construct w alloc 0 = some t0 :=
    construct_returns w alloc ⟨hc.minPow, hc.minRoom⟩ 0 (by omega)
  have hn0 := construct_numBuckets w alloc hp 0 t0 hcon
  exact ⟨t1, t2, t0, hmove, hcon, hn2, hnum2, fun i => by rw [hb2]; rfl, hn0,
    by rw [hn0, hn2]; exact hle, by rw [hn0, hn2]⟩

/-- Witness for C14: moving from `exampleTwo` under the doubling policy. -/
theorem moved_from_size_witness :
    ∃ t1 t2 t0, moveFrom 64 doublingPolicy exampleTwo = some (t1, t2) ∧
      (HashTable.construct 64 doublingPolicy 0 : Option (HashTable (Nat × Nat))) = some t0 ∧
      numBuckets t2 = doublingPolicy.getMaxDesiredBuckets 0 ∧ t2.numElements = 0 ∧
      (∀ i, (t2.buckets i).hashAndOccupancy = 0) ∧
      numBuckets t0 = doublingPolicy.getMinDesiredBuckets 0 ∧ numBuckets t0 ≤ numBuckets t2 ∧
      (numBuckets t2 = numBuckets t0 ↔
        doublingPolicy.getMaxDesiredBuckets 0 = doublingPolicy.getMinDesiredBuckets 0) :=
  moved_from_size 64 doublingPolicy doublingPolicy_contract exampleTwo (by decide)

/-! ## C15: copy -/

theorem and_mask_lt_numBuckets (t : HashTable Element) (x : Nat) :
    x &&& t.hashToBucketIndexMask < numBuckets t := by
  have := @Nat.and_le_right x t.hashToBucketIndexMask
  unfold numBuckets
  omega

theorem sameLayout_numBuckets (t1 t : HashTable Element) (h : SameLayout t1 t) :
    numBuckets t1 = numBuckets t := by
  unfold numBuckets; rw [h.1]

theorem sameLayout_bucket (t1 t : HashTable Element) (h : SameLayout t1 t) (i : Nat)
    (hi : i < numBuckets t) (hocc : (t.buckets i).hashAndOccupancy ≠ 0) :
    t1.buckets i = t.buckets i := by
  obtain ⟨hw, hc⟩ := h.2 i hi
  have hc1 := hc hocc
  cases hb1 : t1.buckets i with
  | mk w1 c1 =>
    cases hb : t.buckets i with
    | mk w0 c0 =>
      rw [hb1, hb] at hw hc1
      simp only at hw hc1
      rw [hw, hc1]

theorem sameLayout_calcProbeCount (t1 t : HashTable Element) (h : SameLayout t1 t) (i : Nat)
    (hi : i < numBuckets t) : calcProbeCount t1 i = calcProbeCount t i := by
  unfold calcProbeCount
  rw [(h.2 i hi).1, h.1, sameLayout_numBuckets t1 t h]

theorem getBucketForReadLoop_congr (w : Nat) (pol : HashTablePolicy Key Element)
    (t1 t : HashTable Element) (h : SameLayout t1 t) (hao : Nat) (key : Key) (fuel : Nat) :
    ∀ p, getBucketForReadLoop w pol t1 hao key fuel p
      = getBucketForReadLoop w pol t hao key fuel p := by
  induction fuel with
  | zero => intro p; rfl
  | succ fuel ih =>
    intro p
    have hidx := and_mask_lt_numBuckets t ((hao + p) % 2 ^ w)
    have hcalc := sameLayout_calcProbeCount t1 t h _ hidx
    show (if (t1.buckets (((hao + p) % 2 ^ w) &&& t1.hashToBucketIndexMask)).hashAndOccupancy = 0
        then some none
      else if (t1.buckets (((hao + p) % 2 ^ w) &&& t1.hashToBucketIndexMask)).hashAndOccupancy
            = hao ∧
          bucketHoldsKey pol (t1.buckets (((hao + p) % 2 ^ w) &&& t1.hashToBucketIndexMask)) key
            = true then
        some (some (((hao + p) % 2 ^ w) &&& t1.hashToBucketIndexMask))
      else if p > calcProbeCount t1 (((hao + p) % 2 ^ w) &&& t1.hashToBucketIndexMask) then
        some none
      else getBucketForReadLoop w pol t1 hao key fuel (p + 1))
      = (if (t.buckets (((hao + p) % 2 ^ w) &&& t.hashToBucketIndexMask)).hashAndOccupancy = 0
        then some none
      else if (t.buckets (((hao + p) % 2 ^ w) &&& t.hashToBucketIndexMask)).hashAndOccupancy
            = hao ∧
          bucketHoldsKey pol (t.buckets (((hao + p) % 2 ^ w) &&& t.hashToBucketIndexMask)) key
            = true then
        some (some (((hao + p) % 2 ^ w) &&& t.hashToBucketIndexMask))
      else if p > calcProbeCount t (((hao + p) % 2 ^ w) &&& t.hashToBucketIndexMask) then
        some none
      else getBucketForReadLoop w pol t hao key fuel (p + 1))
    rw [h.1, ih (p + 1), hcalc]
    by_cases h0 : (t.buckets (((hao + p) % 2 ^ w) &&& t.hashToBucketIndexMask)).hashAndOccupancy = 0
    · rw [if_pos h0, if_pos (by rw [(h.2 _ hidx).1]; exact h0)]
    · rw [sameLayout_bucket t1 t h _ hidx h0]

theorem getBucketForRead_congr (w : Nat) (pol : HashTablePolicy Key Element)
    (t1 t : HashTable Element) (h : SameLayout t1 t) (hash : Nat) (key : Key) :
    getBucketForRead w pol t1 hash key = getBucketForRead w pol t hash key := by
  unfold getBucketForRead
  rw [sameLayout_numBuckets t1 t h]
  exact getBucketForReadLoop_congr w pol t1 t h _ key _ 0

theorem copyFrom_sameLayout (t : HashTable Element) : SameLayout (copyFrom t) t := by
  refine ⟨rfl, ?_⟩
  intro i hi
  constructor
  · show (if i < numBuckets t then _ else _ : HashTableBucket Element).hashAndOccupancy = _
    rw [if_pos hi]
  · intro h0
    show (if i < numBuckets t then _ else _ : HashTableBucket Element).contents = _
    rw [if_pos hi]
    show (if (t.buckets i).hashAndOccupancy = 0 then none else (t.buckets i).contents) = _
    rw [if_neg h0]

theorem sameLayout_robinHoodOrdering (t1 t : HashTable Element) (h : SameLayout t1 t)
    (hrh : RobinHoodOrdering t) : RobinHoodOrdering t1 := by
  have hn := sameLayout_numBuckets t1 t h
  intro i hi h1 h2
  rw [hn] at hi h2 ⊢
  have hpos : 0 < numBuckets t := by omega
  have hi2 : (i + 1) % numBuckets t < numBuckets t := Nat.mod_lt _ hpos
  rw [(h.2 i hi).1] at h1
  rw [(h.2 _ hi2).1] at h2
  rw [sameLayout_calcProbeCount t1 t h i hi, sameLayout_calcProbeCount t1 t h _ hi2]
  exact hrh i hi h1 h2

theorem sameLayout_powerOfTwoSizing (w : Nat) (t1 t : HashTable Element) (h : SameLayout t1 t)
    (hp : PowerOfTwoSizing w t) : PowerOfTwoSizing w t1 := by
  unfold PowerOfTwoSizing at hp ⊢
  rw [sameLayout_numBuckets t1 t h, h.1]
  exact hp

theorem sameLayout_noPhantom (w : Nat) (t : HashTable Element)
    (hp : NoPhantomOccupancy w t) : NoPhantomOccupancy w (copyFrom t) := by
  have h := copyFrom_sameLayout t
  have hn : numBuckets (copyFrom t) = numBuckets t := rfl
  unfold NoPhantomOccupancy at hp ⊢
  rw [hn]
  constructor
  · show t.numElements = _
    rw [hp.1]
    congr 1
    apply List.filter_congr
    intro i hi
    rw [(h.2 i (List.mem_range.1 hi)).1]
  · intro i hi
    rw [(h.2 i hi).1]
    exact hp.2 i hi

/-! ## C16: analyzeSpaceUsage -/

theorem analyzeProbeLoop_succ (w : Nat) (t : HashTable Element) (k : Nat) (hkw : k < w)
    (hmask : t.hashToBucketIndexMask = 2 ^ k - 1) (d fuel p : Nat) :
    analyzeProbeLoop w t d (fuel + 1) p =
      if (t.buckets ((d + p) % numBuckets t)).hashAndOccupancy = 0 ∨
          p > probeCountOf (numBuckets t) (t.buckets ((d + p) % numBuckets t)).hashAndOccupancy
            ((d + p) % numBuckets t) then some p
      else analyzeProbeLoop w t d fuel (p + 1) := by
  have hn : numBuckets t = 2 ^ k := numBuckets_eq_of_mask hmask
  have hidx : ((d + p) % 2 ^ w) &&& t.hashToBucketIndexMask = (d + p) % numBuckets t := by
    rw [hmask, hn]; exact probeIndex_eq_mod w k d p hkw
  have hlt : (d + p) % numBuckets t < numBuckets t :=
    Nat.mod_lt _ (by rw [hn]; exact Nat.two_pow_pos k)
  show (if (t.buckets (((d + p) % 2 ^ w) &&& t.hashToBucketIndexMask)).hashAndOccupancy = 0 ∨
        p > calcProbeCount t (((d + p) % 2 ^ w) &&& t.hashToBucketIndexMask) then some p
      else analyzeProbeLoop w t d fuel (p + 1)) = _
  rw [hidx, calcProbeCount_eq t k _ hmask hlt]

/-- What the inner loop returns: every probe position before the result is
occupied by an element whose probe count is at least the position, and the
position of the result is not. -/
theorem analyzeProbeLoop_sound (w : Nat) (t : HashTable Element) (k : Nat) (hkw : k < w)
    (hmask : t.hashToBucketIndexMask = 2 ^ k - 1) (d fuel : Nat) :
    ∀ p r, analyzeProbeLoop w t d fuel p = some r →
      p ≤ r ∧
      (∀ q, p ≤ q → q < r → (t.buckets ((d + q) % numBuckets t)).hashAndOccupancy ≠ 0 ∧
        q ≤ probeCountOf (numBuckets t) (t.buckets ((d + q) % numBuckets t)).hashAndOccupancy
          ((d + q) % numBuckets t)) ∧
      ((t.buckets ((d + r) % numBuckets t)).hashAndOccupancy = 0 ∨
        r > probeCountOf (numBuckets t) (t.buckets ((d + r) % numBuckets t)).hashAndOccupancy
          ((d + r) % numBuckets t)) := by
  induction fuel with
  | zero => intro p r h; simp [analyzeProbeLoop] at h
  | succ fuel ih =>
    intro p r h
    rw [analyzeProbeLoop_succ w t k hkw hmask] at h
    by_cases hstop : (t.buckets ((d + p) % numBuckets t)).hashAndOccupancy = 0 ∨
        p > probeCountOf (numBuckets t) (t.buckets ((d + p) % numBuckets t)).hashAndOccupancy
          ((d + p) % numBuckets t)
    · rw [if_pos hstop] at h
      simp only [Option.some.injEq] at h
      subst h
      exact ⟨le_refl _, fun q h1 h2 => by omega, hstop⟩
    · rw [if_neg hstop] at h
      obtain ⟨h1, h2, h3⟩ := ih (p + 1) r h
      refine ⟨by omega, ?_, h3⟩
      intro q hq1 hq2
      by_cases hqp : q = p
      · subst hqp
        rw [not_or] at hstop
        exact ⟨hstop.1, by omega⟩
      · exact h2 q (by omega) hq2

/-- The inner loop returns within `numBuckets + 1` iterations. -/
theorem analyzeProbeLoop_returns (w : Nat) (t : HashTable Element) (k : Nat) (hkw : k < w)
    (hmask : t.hashToBucketIndexMask = 2 ^ k - 1) (d fuel : Nat) :
    ∀ p, numBuckets t < p + fuel → p ≤ numBuckets t →
      ∃ r, analyzeProbeLoop w t d fuel p = some r := by
  have hn : numBuckets t = 2 ^ k := numBuckets_eq_of_mask hmask
  have hpos : 0 < numBuckets t := by rw [hn]; exact Nat.two_pow_pos k
  induction fuel with
  | zero => intro p h1 h2; omega
  | succ fuel ih =>
    intro p h1 h2
    rw [analyzeProbeLoop_succ w t k hkw hmask]
    by_cases hstop : (t.buckets ((d + p) % numBuckets t)).hashAndOccupancy = 0 ∨
        p > probeCountOf (numBuckets t) (t.buckets ((d + p) % numBuckets t)).hashAndOccupancy
          ((d + p) % numBuckets t)
    · rw [if_pos hstop]; exact ⟨p, rfl⟩
    · rw [if_neg hstop]
      rw [not_or] at hstop
      have hlt := probeCountOf_lt (numBuckets t)
        (t.buckets ((d + p) % numBuckets t)).hashAndOccupancy ((d + p) % numBuckets t) hpos
      exact ih (p + 1) (by omega) (by omega)

/-- The outer loop returns the largest of the carried value and the results of
the inner loop. -/
theorem analyzeSpaceUsageLoop_spec (w : Nat) (t : HashTable Element) (l : List Nat) :
    ∀ acc, (∀ d ∈ l, ∃ r, analyzeProbeLoop w t d (numBuckets t + 1) 0 = some r) →
      ∃ m, analyzeSpaceUsageLoop w t l acc = some m ∧ acc ≤ m ∧
        (∀ d ∈ l, ∀ r, analyzeProbeLoop w t d (numBuckets t + 1) 0 = some r → r ≤ m) ∧
        (m = acc ∨ ∃ d ∈ l, analyzeProbeLoop w t d (numBuckets t + 1) 0 = some m) := by
  induction l with
  | nil => intro acc _; exact ⟨acc, rfl, le_refl _, fun d hd => by simp at hd, Or.inl rfl⟩
  | cons d rest ih =>
    intro acc hret
    obtain ⟨r, hr⟩ := hret d (List.mem_cons_self _ _)
    obtain ⟨m, hm, hle, hall, hex⟩ := ih (if r > acc then r else acc)
      (fun d1 hd1 => hret d1 (List.mem_cons_of_mem _ hd1))
    refine ⟨m, ?_, ?_, ?_, ?_⟩
    · show (match analyzeProbeLoop w t d (numBuckets t + 1) 0 with
        | none => none
        | some probeCount => analyzeSpaceUsageLoop w t rest
            (if probeCount > acc then probeCount else acc)) = some m
      rw [hr]
      exact hm
    · split_ifs at hle <;> omega
    · intro d1 hd1 r1 hr1
      rcases List.mem_cons.1 hd1 with h | h
      · subst h
        rw [hr] at hr1
        simp only [Option.some.injEq] at hr1
        subst hr1
        split_ifs at hle <;> omega
      · exact hall d1 h r1 hr1
    · rcases hex with h | ⟨d1, hd1, h⟩
      · by_cases hgt : r > acc
        · rw [if_pos hgt] at h
          exact Or.inr ⟨d, List.mem_cons_self _ _, by rw [h]; exact hr⟩
        · rw [if_neg hgt] at h
          exact Or.inl h
      · exact Or.inr ⟨d1, List.mem_cons_of_mem _ hd1, h⟩

/-- C16 (as amended). On a table that satisfies the invariants,
`analyzeSpaceUsage` returns; `outMaxProbeCount` is 0 when the table is empty and
otherwise one more than the maximum of `calcProbeCount(i)` over the occupied
bucket indices `i`: it is at least `calcProbeCount(i) + 1` for every occupied
bucket and equal to it for one of them. -/
theorem analyzeSpaceUsage_max (w : Nat) (pol : HashTablePolicy Key Element)
    (t : HashTable Element) (hinv : TableInv w pol t) :
    ∃ m, analyzeSpaceUsage w t = some m ∧
      (t.numElements = 0 → m = 0) ∧
      (∀ i, i < numBuckets t → (t.buckets i).hashAndOccupancy ≠ 0 →
        calcProbeCount t i + 1 ≤ m) ∧
      (t.numElements ≠ 0 → ∃ i, i < numBuckets t ∧ (t.buckets i).hashAndOccupancy ≠ 0 ∧
        m = calcProbeCount t i + 1) := by
  obtain ⟨k, hk1, hkw, hmask⟩ := hinv.structured.size
  have hn : numBuckets t = 2 ^ k := numBuckets_eq_of_mask hmask
  have hpos : 0 < numBuckets t := by rw [hn]; exact Nat.two_pow_pos k
  have hrun := hinv.structured.run
  have hret : ∀ d ∈ List.range (numBuckets t),
      ∃ r, analyzeProbeLoop w t d (numBuckets t + 1) 0 = some r :=
    fun d _ => analyzeProbeLoop_returns w t k hkw hmask d _ 0 (by omega) (by omega)
  obtain ⟨m, hm, _, hall, hex⟩ := analyzeSpaceUsageLoop_spec w t (List.range (numBuckets t)) 0 hret
  have hlower : ∀ i, i < numBuckets t → (t.buckets i).hashAndOccupancy ≠ 0 →
      calcProbeCount t i + 1 ≤ m := by
    intro i hi hocc
    rw [calcProbeCount_eq t k i hmask hi]
    have hd : (t.buckets i).hashAndOccupancy % numBuckets t < numBuckets t := Nat.mod_lt _ hpos
    obtain ⟨r, hr⟩ := hret _ (List.mem_range.2 hd)
    have hrm := hall _ (List.mem_range.2 hd) r hr
    obtain ⟨_, _, hstop⟩ := analyzeProbeLoop_sound w t k hkw hmask _ _ 0 r hr
    rw [Nat.mod_add_mod] at hstop
    by_contra hlt
    obtain ⟨h1, h2⟩ := run_probe (numBuckets t) t.buckets hpos hrun i hi hocc r (by omega)
    rcases hstop with h | h
    · exact h1 h
    · omega
  have hupper : m = 0 ∨ ∃ i, i < numBuckets t ∧ (t.buckets i).hashAndOccupancy ≠ 0 ∧
      m ≤ calcProbeCount t i + 1 := by
    rcases hex with h | ⟨d, _, hd⟩
    · exact Or.inl h
    · by_cases hm0 : m = 0
      · exact Or.inl hm0
      · obtain ⟨_, hq, _⟩ := analyzeProbeLoop_sound w t k hkw hmask d _ 0 m hd
        obtain ⟨h1, h2⟩ := hq (m - 1) (by omega) (by omega)
        have hi : (d + (m - 1)) % numBuckets t < numBuckets t := Nat.mod_lt _ hpos
        refine Or.inr ⟨_, hi, h1, ?_⟩
        rw [calcProbeCount_eq t k _ hmask hi]
        omega
  refine ⟨m, hm, ?_, hlower, ?_⟩
  · intro h0
    rcases hupper with h | ⟨i, hi, hocc, _⟩
    · exact h
    · exfalso
      have hmem : t.buckets i ∈ storedBuckets (numBuckets t) t.buckets :=
        (mem_storedBuckets _ _ _).2 ⟨hocc, i, hi, rfl⟩
      have := Multiset.card_pos_iff_exists_mem.2 ⟨_, hmem⟩
      rw [← hinv.count] at this
      omega
  · intro hne
    have hcard : 0 < Multiset.card (storedBuckets (numBuckets t) t.buckets) := by
      rw [← hinv.count]; omega
    obtain ⟨x, hx⟩ := Multiset.card_pos_iff_exists_mem.1 hcard
    obtain ⟨hx0, i0, hi0, rfl⟩ := (mem_storedBuckets _ _ _).1 hx
    have h0 := hlower i0 hi0 hx0
    rcases hupper with h | ⟨i, hi, hocc, hle⟩
    · omega
    · exact ⟨i, hi, hocc, by have := hlower i hi hocc; omega⟩

/-- Witness for C16: `exampleTwo` satisfies the invariants. -/
theorem analyzeSpaceUsage_max_witness :
    ∃ m, analyzeSpaceUsage 64 exampleTwo = some m ∧
      (exampleTwo.numElements = 0 → m = 0) ∧
      (∀ i, i < numBuckets exampleTwo → (exampleTwo.buckets i).hashAndOccupancy ≠ 0 →
        calcProbeCount exampleTwo i + 1 ≤ m) ∧
      (exampleTwo.numElements ≠ 0 →
        ∃ i, i < numBuckets exampleTwo ∧ (exampleTwo.buckets i).hashAndOccupancy ≠ 0 ∧
          m = calcProbeCount exampleTwo i + 1) :=
  analyzeSpaceUsage_max 64 natMapPolicy exampleTwo
    (reachable_inv 64 natMapPolicy natMapPolicy_lawful doublingPolicy doublingPolicy_contract
      exampleTwo exampleTwo_reachable)

/-- Counterexample to C16 as stated: `exampleOne` satisfies the invariants and its
one element sits in its ideal bucket, so the maximum of `calcProbeCount` over the
occupied buckets is 0, yet `outMaxProbeCount` is 1. -/
theorem analyzeSpaceUsage_counts_probes :
    TableInv 64 natMapPolicy exampleOne ∧
    analyzeSpaceUsage 64 exampleOne = some 1 ∧
    (∃ i, i < numBuckets exampleOne ∧ (exampleOne.buckets i).hashAndOccupancy ≠ 0) ∧
    ∀ i, i < numBuckets exampleOne → (exampleOne.buckets i).hashAndOccupancy ≠ 0 →
      calcProbeCount exampleOne i = 0 :=
  ⟨reachable_inv 64 natMapPolicy natMapPolicy_lawful doublingPolicy doublingPolicy_contract
      exampleOne exampleOne_reachable,
    by decide, ⟨1, by decide, by decide⟩, by decide⟩

/-! ## C17 and C18: the shape of a run -/

/-- Counterexample to C17 as stated: in the reachable table `exampleRun` buckets
1 and 2 are both occupied, bucket 1 has probe count 1 and its successor has
probe count 0. -/
theorem probe_counts_can_decrease :
    Reachable 64 natMapPolicy doublingPolicy exampleRun ∧
    1 < numBuckets exampleRun ∧
    (exampleRun.buckets 1).hashAndOccupancy ≠ 0 ∧
    (exampleRun.buckets ((1 + 1) % numBuckets exampleRun)).hashAndOccupancy ≠ 0 ∧
    calcProbeCount exampleRun 1 = 1 ∧
    calcProbeCount exampleRun ((1 + 1) % numBuckets exampleRun) = 0 ∧
    ¬ (calcProbeCount exampleRun ((1 + 1) % numBuckets exampleRun)
        ≥ calcProbeCount exampleRun 1) :=
  ⟨exampleRun_reachable, by decide, by decide, by decide, by decide, by decide, by decide⟩

/-- Along a walk through occupied buckets the probe count grows by at most one
per step. -/
theorem robinHoodOrdering_walk (t : HashTable Element) (hrh : RobinHoodOrdering t)
    (i : Nat) (hi : i < numBuckets t) (s : Nat) :
    (∀ q, q ≤ s → (t.buckets ((i + q) % numBuckets t)).hashAndOccupancy ≠ 0) →
    calcProbeCount t ((i + s) % numBuckets t) ≤ calcProbeCount t i + s := by
  induction s with
  | zero =>
    intro _
    rw [Nat.add_zero, Nat.mod_eq_of_lt hi]
    omega
  | succ s ih =>
    intro hocc
    have h1 := ih (fun q hq => hocc q (by omega))
    have hlt : (i + s) % numBuckets t < numBuckets t := Nat.mod_lt _ (by omega)
    have hnext : ((i + s) % numBuckets t + 1) % numBuckets t = (i + (s + 1)) % numBuckets t := by
      rw [Nat.mod_add_mod]; rfl
    have h2 := hrh _ hlt (hocc s (by omega)) (by rw [hnext]; exact hocc (s + 1) (le_refl _))
    rw [hnext] at h2
    omega

/-- C17 (as amended). In every reachable table, walking forward from any
occupied bucket through consecutive occupied buckets, the probe count grows by
at most one per step (and it may drop): whenever the buckets `i`, `i + 1`, ...,
`i + s` (mod `bucketCount`) are all occupied,
`calcProbeCount(i + s) <= calcProbeCount(i) + s`. -/
theorem probe_counts_along_run (w : Nat) (pol : HashTablePolicy Key Element)
    (hlaw : LawfulKeys pol) (alloc : AllocPolicy) (hc : AllocContract alloc)
    (t : HashTable Element) (hreach : Reachable w pol alloc t)
    (i : Nat) (hi : i < numBuckets t) (s : Nat)
    (hocc : ∀ q, q ≤ s → (t.buckets ((i + q) % numBuckets t)).hashAndOccupancy ≠ 0) :
    calcProbeCount t ((i + s) % numBuckets t) ≤ calcProbeCount t i + s :=
  robinHoodOrdering_walk t
    (robinHoodOrdering_of_runInv w t (reachable_inv w pol hlaw alloc hc t hreach).structured.size
      (reachable_inv w pol hlaw alloc hc t hreach).structured.run) i hi s hocc

/-- Witness for C17: the walk over buckets 0, 1, 2 of `exampleRun`. -/
theorem probe_counts_along_run_witness :
    (∀ q, q ≤ 2 → (exampleRun.buckets ((0 + q) % numBuckets exampleRun)).hashAndOccupancy ≠ 0) ∧
    calcProbeCount exampleRun ((0 + 2) % numBuckets exampleRun)
      ≤ calcProbeCount exampleRun 0 + 2 :=
  ⟨by decide,
    probe_counts_along_run 64 natMapPolicy natMapPolicy_lawful doublingPolicy
      doublingPolicy_contract exampleRun exampleRun_reachable 0 (by decide) 2 (by decide)⟩

theorem pred_mod_eq_prevIndex (n i : Nat) (hi : i < n) : (i + n - 1) % n = prevIndex n i := by
  unfold prevIndex
  by_cases h0 : i = 0
  · rw [if_pos h0, h0, Nat.zero_add]
    exact Nat.mod_eq_of_lt (by omega)
  · rw [if_neg h0]
    have : i + n - 1 = (i - 1) + n := by omega
    rw [this, Nat.add_mod_right]
    exact Nat.mod_eq_of_lt (by omega)

/-- C18. Occupancy forms a run: in every reachable table, for every occupied
bucket at index `i` with ideal index `d` and probe count `c`, the bucket lies at
distance `c` from `d`, each of the `c` buckets at `d`, `d + 1`, ... before it
(mod `bucketCount`) is occupied, and the one at distance `j` from `d` has probe
count at least `j`; an occupied bucket whose predecessor is empty has probe
count 0. -/
theorem occupancy_forms_run (w : Nat) (pol : HashTablePolicy Key Element)
    (hlaw : LawfulKeys pol) (alloc : AllocPolicy) (hc : AllocContract alloc)
    (t : HashTable Element) (hreach : Reachable w pol alloc t)
    (i : Nat) (hi : i < numBuckets t) (hocc : (t.buckets i).hashAndOccupancy ≠ 0) :
    (((t.buckets i).hashAndOccupancy &&& t.hashToBucketIndexMask) + calcProbeCount t i)
        % numBuckets t = i ∧
    (∀ j, j < calcProbeCount t i →
      (t.buckets ((((t.buckets i).hashAndOccupancy &&& t.hashToBucketIndexMask) + j)
        % numBuckets t)).hashAndOccupancy ≠ 0 ∧
      j ≤ calcProbeCount t ((((t.buckets i).hashAndOccupancy &&& t.hashToBucketIndexMask) + j)
        % numBuckets t)) ∧
    ((t.buckets ((i + numBuckets t - 1) % numBuckets t)).hashAndOccupancy = 0 →
      calcProbeCount t i = 0) := by
  have hinv := reachable_inv w pol hlaw alloc hc t hreach
  obtain ⟨k, hk1, hkw, hmask⟩ := hinv.structured.size
  have hn : numBuckets t = 2 ^ k := numBuckets_eq_of_mask hmask
  have hpos : 0 < numBuckets t := by rw [hn]; exact Nat.two_pow_pos k
  have hrun := hinv.structured.run
  have hideal : (t.buckets i).hashAndOccupancy &&& t.hashToBucketIndexMask
      = (t.buckets i).hashAndOccupancy % numBuckets t := by
    rw [hmask, hn]; exact and_mask_eq_mod _ _
  rw [hideal, calcProbeCount_eq t k i hmask hi]
  refine ⟨?_, ?_, ?_⟩
  · rw [Nat.mod_add_mod]
    exact probeCountOf_spec _ _ _ hi
  · intro j hj
    rw [Nat.mod_add_mod]
    obtain ⟨h1, h2⟩ := run_probe (numBuckets t) t.buckets hpos hrun i hi hocc j (by omega)
    refine ⟨h1, ?_⟩
    rw [calcProbeCount_eq t k _ hmask (Nat.mod_lt _ hpos)]
    exact h2
  · intro hprev
    rw [pred_mod_eq_prevIndex _ _ hi] at hprev
    by_contra hne
    have h := (runInv_iff _ _).1 hrun (prevIndex (numBuckets t) i)
      (prevIndex_lt _ _ hpos hi)
    rw [nextIndex_prevIndex _ _ hpos hi] at h
    exact (h hocc hne).1 hprev

/-- Witness for C18: bucket 1 of `exampleRun`, one step after its ideal bucket 0. -/
theorem occupancy_forms_run_witness :
    (((exampleRun.buckets 1).hashAndOccupancy &&& exampleRun.hashToBucketIndexMask)
        + calcProbeCount exampleRun 1) % numBuckets exampleRun = 1 ∧
    (∀ j, j < calcProbeCount exampleRun 1 →
      (exampleRun.buckets ((((exampleRun.buckets 1).hashAndOccupancy
        &&& exampleRun.hashToBucketIndexMask) + j)
        % numBuckets exampleRun)).hashAndOccupancy ≠ 0 ∧
      j ≤ calcProbeCount exampleRun ((((exampleRun.buckets 1).hashAndOccupancy
        &&& exampleRun.hashToBucketIndexMask) + j) % numBuckets exampleRun)) ∧
    ((exampleRun.buckets ((1 + numBuckets exampleRun - 1)
        % numBuckets exampleRun)).hashAndOccupancy = 0 →
      calcProbeCount exampleRun 1 = 0) :=
  occupancy_forms_run 64 natMapPolicy natMapPolicy_lawful doublingPolicy
    doublingPolicy_contract exampleRun exampleRun_reachable 1 (by decide) (by decide)

/-! ## C19: backward-shift erase -/

theorem add_distance_mod (n x y : Nat) (hx : x < n) (hy : y < n) :
    (x + distance n x y) % n = y := by
  rw [distance_eq_probeCountOf n x y hx hy]
  exact probeCountOf_spec n x y hy

theorem nextIndex_add_mod (n a q : Nat) (hn : 0 < n) :
    nextIndex n ((a + q) % n) = (a + (q + 1)) % n := by
  rw [← succ_mod_eq_nextIndex n _ (Nat.mod_lt _ hn), Nat.mod_add_mod]
  rfl

/-- C19. Backward-shift erase: for every power-of-two sized table with at least
one empty bucket and every occupied index `e`, let `e + j` be the first index
after `e` (cyclically) whose bucket is empty or has probe count 0; then
`eraseHashBucket(e)` returns, each bucket at `e`, ..., `e + j - 2` holds the word
and element formerly at the next index, the bucket at `e + j - 1` is empty, and
every other bucket is unchanged. -/
theorem erase_backward_shift (w : Nat) (t : HashTable Element) (hsize : SizeInv w t)
    (hempty : HasEmptyBucket t) (e : Nat) (he : e < numBuckets t)
    (hocc : (t.buckets e).hashAndOccupancy ≠ 0) :
    ∃ j t1, 1 ≤ j ∧ j < numBuckets t ∧
      (∀ q, 1 ≤ q → q < j →
        (t.buckets ((e + q) % numBuckets t)).hashAndOccupancy ≠ 0 ∧
        calcProbeCount t ((e + q) % numBuckets t) ≠ 0) ∧
      ((t.buckets ((e + j) % numBuckets t)).hashAndOccupancy = 0 ∨
        calcProbeCount t ((e + j) % numBuckets t) = 0) ∧
      eraseHashBucket t e = some t1 ∧
      t1.hashToBucketIndexMask = t.hashToBucketIndexMask ∧ t1.numElements = t.numElements ∧
      (∀ q, q + 1 < j →
        t1.buckets ((e + q) % numBuckets t) = t.buckets ((e + (q + 1)) % numBuckets t)) ∧
      t1.buckets ((e + (j - 1)) % numBuckets t) = ⟨0, none⟩ ∧
      (∀ y, y < numBuckets t → (∀ q, q < j → y ≠ (e + q) % numBuckets t) →
        t1.buckets y = t.buckets y) := by
  obtain ⟨k, hk1, hkw, hmask⟩ := hsize
  have hn : numBuckets t = 2 ^ k := numBuckets_eq_of_mask hmask
  have hpos : 0 < numBuckets t := by rw [hn]; exact Nat.two_pow_pos k
  obtain ⟨e0, he0, hemp0⟩ := hempty
  obtain ⟨j, hj1, hjn, hmove, hstop⟩ := exists_first_after (numBuckets t) e he
    (fun y => (t.buckets y).hashAndOccupancy = 0 ∨
      probeCountOf (numBuckets t) (t.buckets y).hashAndOccupancy y = 0)
    ⟨e0, he0, fun h => hocc (h ▸ hemp0), Or.inl hemp0⟩
  have hspec := eraseLoop_spec k hk1 (numBuckets t) t e j hmask (by rw [← hn]; exact he) hj1
    (by rw [← hn]; exact hjn) (by omega) hocc
    (by rw [← hn]; exact hmove) (by rw [← hn]; exact hstop)
  rw [← hn] at hspec
  obtain ⟨t1, ht1, hm1, hnum1, hb1⟩ := hspec
  have hdist : ∀ q, q < numBuckets t → distance (numBuckets t) e ((e + q) % numBuckets t) = q :=
    fun q hq => distance_add_mod _ e q he hq
  have hlt : ∀ q, (e + q) % numBuckets t < numBuckets t := fun q => Nat.mod_lt _ hpos
  refine ⟨j, t1, hj1, hjn, ?_, ?_, ht1, hm1, hnum1, ?_, ?_, ?_⟩
  · intro q hq1 hqj
    have h := hmove _ (hlt q) (by rw [hdist q (by omega)]; exact hq1)
      (by rw [hdist q (by omega)]; exact hqj)
    rw [not_or] at h
    rw [calcProbeCount_eq t k _ hmask (hlt q)]
    exact h
  · have h := hstop _ (hlt j) (hdist j hjn)
    rw [calcProbeCount_eq t k _ hmask (hlt j)]
    exact h
  · intro q hq
    rw [hb1 _ (hlt q), hdist q (by omega), if_pos hq, nextIndex_add_mod _ _ _ hpos]
  · rw [hb1 _ (hlt (j - 1)), hdist (j - 1) (by omega), if_neg (by omega), if_pos (by omega)]
  · intro y hy hne
    have hd : ¬ distance (numBuckets t) e y < j := by
      intro hd
      exact hne _ hd (add_distance_mod _ e y he hy).symm
    rw [hb1 y hy, if_neg (by omega), if_neg (by omega)]

/-- Witness for C19, the first example of the claim: erasing index 0 of
`exampleChain`, whose buckets 0, 1, 2 have probe counts 0, 1, 2, shifts the
elements of buckets 1 and 2 back by one and empties bucket 2. -/
theorem erase_backward_shift_witness :
    (calcProbeCount exampleChain 0 = 0 ∧ calcProbeCount exampleChain 1 = 1 ∧
      calcProbeCount exampleChain 2 = 2) ∧
    (∃ j t1, 1 ≤ j ∧ j < numBuckets exampleChain ∧
      (∀ q, 1 ≤ q → q < j →
        (exampleChain.buckets ((0 + q) % numBuckets exampleChain)).hashAndOccupancy ≠ 0 ∧
        calcProbeCount exampleChain ((0 + q) % numBuckets exampleChain) ≠ 0) ∧
      ((exampleChain.buckets ((0 + j) % numBuckets exampleChain)).hashAndOccupancy = 0 ∨
        calcProbeCount exampleChain ((0 + j) % numBuckets exampleChain) = 0) ∧
      eraseHashBucket exampleChain 0 = some t1 ∧
      t1.hashToBucketIndexMask = exampleChain.hashToBucketIndexMask ∧
      t1.numElements = exampleChain.numElements ∧
      (∀ q, q + 1 < j →
        t1.buckets ((0 + q) % numBuckets exampleChain)
          = exampleChain.buckets ((0 + (q + 1)) % numBuckets exampleChain)) ∧
      t1.buckets ((0 + (j - 1)) % numBuckets exampleChain) = ⟨0, none⟩ ∧
      (∀ y, y < numBuckets exampleChain →
        (∀ q, q < j → y ≠ (0 + q) % numBuckets exampleChain) →
        t1.buckets y = exampleChain.buckets y)) ∧
    (∃ t1, eraseHashBucket exampleChain 0 = some t1 ∧
      (t1.buckets 0).contents = some (2, 20) ∧ calcProbeCount t1 0 = 0 ∧
      (t1.buckets 1).contents = some (3, 30) ∧ calcProbeCount t1 1 = 1 ∧
      (t1.buckets 2).hashAndOccupancy = 0) :=
  ⟨by decide,
    erase_backward_shift 64 exampleChain ⟨4, by decide, by decide, by decide⟩
      ⟨3, by decide, by decide⟩ 0 (by decide) (by decide),
    ⟨(eraseHashBucket exampleChain 0).get (by decide), (Option.some_get _).symm,
      by decide, by decide, by decide, by decide, by decide⟩⟩

/-- The second example of C19: buckets 0 and 1 of `examplePair` both have probe
count 0; erasing index 0 empties bucket 0 and leaves bucket 1 in place. -/
theorem erase_next_to_ideal_bucket :
    calcProbeCount examplePair 0 = 0 ∧ calcProbeCount examplePair 1 = 0 ∧
    (examplePair.buckets 0).hashAndOccupancy ≠ 0 ∧
    ∃ t1, eraseHashBucket examplePair 0 = some t1 ∧
      (t1.buckets 0).hashAndOccupancy = 0 ∧
      (t1.buckets 1).hashAndOccupancy = (examplePair.buckets 1).hashAndOccupancy ∧
      (t1.buckets 1).contents = some (2, 20) ∧
      (examplePair.buckets 1).contents = some (2, 20) :=
  ⟨by decide, by decide, by decide,
    (eraseHashBucket examplePair 0).get (by decide), (Option.some_get _).symm,
    by decide, by decide, by decide, by decide⟩

/-! ## C20: eviction -/

/-- Counterexample to C20 as stated: in `wrapTable` bucket 0 is occupied with
probe count 3 and bucket 1 is empty; `evictHashBucket(0)` moves the element with
its word to bucket 1, where its probe count is 0, not 4. -/
theorem evict_probe_count_can_wrap :
    SizeInv 64 wrapTable ∧
    (wrapTable.buckets 0).hashAndOccupancy ≠ 0 ∧
    (wrapTable.buckets 1).hashAndOccupancy = 0 ∧
    calcProbeCount wrapTable 0 = 3 ∧
    ∃ t1, evictHashBucket wrapTable 0 = some t1 ∧
      (t1.buckets 0).hashAndOccupancy = 0 ∧
      (t1.buckets 1).hashAndOccupancy = (wrapTable.buckets 0).hashAndOccupancy ∧
      (t1.buckets 1).contents = (wrapTable.buckets 0).contents ∧
      calcProbeCount t1 1 = 0 ∧
      calcProbeCount t1 1 ≠ calcProbeCount wrapTable 0 + 1 :=
  ⟨⟨2, by decide, by decide, by decide⟩, by decide, by decide, by decide,
    (evictHashBucket wrapTable 0).get (by decide), (Option.some_get _).symm,
    by decide, by decide, by decide, by decide, by decide⟩

/-- C20 (as amended). Eviction is a forward shift by one: for every power-of-two
sized table with an empty bucket and every occupied index `i`, let `i + j` be the
first empty index after `i` (cyclically); then `evictHashBucket(i)` returns,
bucket `i` is empty, each bucket at `i + 1`, ..., `i + j` holds the word and
element formerly at the preceding index, every bucket outside `i .. i + j` is
unchanged, and the multiset of stored buckets is preserved. The probe count of a
moved element becomes `(c + 1) mod bucketCount`; it is `c + 1` when the table
satisfies the run invariant. -/
theorem evict_forward_shift (w : Nat) (t : HashTable Element) (hsize : SizeInv w t)
    (hempty : HasEmptyBucket t) (i : Nat) (hi : i < numBuckets t)
    (hocc : (t.buckets i).hashAndOccupancy ≠ 0) :
    ∃ j t1, 1 ≤ j ∧ j < numBuckets t ∧
      (∀ q, q < j → (t.buckets ((i + q) % numBuckets t)).hashAndOccupancy ≠ 0) ∧
      (t.buckets ((i + j) % numBuckets t)).hashAndOccupancy = 0 ∧
      evictHashBucket t i = some t1 ∧
      t1.hashToBucketIndexMask = t.hashToBucketIndexMask ∧ t1.numElements = t.numElements ∧
      t1.buckets i = ⟨0, none⟩ ∧
      (∀ q, q < j →
        t1.buckets ((i + (q + 1)) % numBuckets t) = t.buckets ((i + q) % numBuckets t) ∧
        calcProbeCount t1 ((i + (q + 1)) % numBuckets t)
          = (calcProbeCount t ((i + q) % numBuckets t) + 1) % numBuckets t ∧
        (RunInv (numBuckets t) t.buckets →
          calcProbeCount t1 ((i + (q + 1)) % numBuckets t)
            = calcProbeCount t ((i + q) % numBuckets t) + 1)) ∧
      (∀ y, y < numBuckets t → (∀ q, q ≤ j → y ≠ (i + q) % numBuckets t) →
        t1.buckets y = t.buckets y) ∧
      storedBuckets (numBuckets t1) t1.buckets = storedBuckets (numBuckets t) t.buckets := by
  obtain ⟨k, hk1, hkw, hmask⟩ := hsize
  have hn : numBuckets t = 2 ^ k := numBuckets_eq_of_mask hmask
  have hpos : 0 < numBuckets t := by rw [hn]; exact Nat.two_pow_pos k
  obtain ⟨e0, he0, hemp0⟩ := hempty
  obtain ⟨j, hj1, hjn, hfull, hemp⟩ :=
    exists_first_empty (numBuckets t) t.buckets i hi hocc ⟨e0, he0, hemp0⟩
  have hspec := evictHashBucket_spec t k hk1 hmask i (by rw [← hn]; exact hi) hocc j hj1
    (by rw [← hn]; exact hjn) (by rw [← hn]; exact hfull) (by rw [← hn]; exact hemp)
  rw [← hn] at hspec
  obtain ⟨t1, ht1, hm1, hnum1, hst1, hb1⟩ := hspec
  have hn1 : numBuckets t1 = numBuckets t := by unfold numBuckets; rw [hm1]
  have hdist : ∀ q, q < numBuckets t → distance (numBuckets t) i ((i + q) % numBuckets t) = q :=
    fun q hq => distance_add_mod _ i q hi hq
  have hlt : ∀ q, (i + q) % numBuckets t < numBuckets t := fun q => Nat.mod_lt _ hpos
  refine ⟨j, t1, hj1, hjn, ?_, ?_, ht1, hm1, hnum1, ?_, ?_, ?_, by rw [hn1]; exact hst1⟩
  · intro q hq
    exact hfull _ (hlt q) (by rw [hdist q (by omega)]; exact hq)
  · exact hemp _ (hlt j) (hdist j hjn)
  · rw [hb1 i hi, if_pos rfl]
  · intro q hq
    have hne : (i + (q + 1)) % numBuckets t ≠ i := by
      intro h
      have := hdist (q + 1) (by omega)
      rw [h, (distance_eq_zero _ i i hi).2 rfl] at this
      omega
    have hmoved : t1.buckets ((i + (q + 1)) % numBuckets t)
        = t.buckets ((i + q) % numBuckets t) := by
      rw [hb1 _ (hlt (q + 1)), if_neg hne, hdist (q + 1) (by omega), if_pos (by omega),
        prevIndex_probe _ _ _ hpos]
    have hpc : calcProbeCount t1 ((i + (q + 1)) % numBuckets t)
        = if calcProbeCount t ((i + q) % numBuckets t) + 1 < numBuckets t then
            calcProbeCount t ((i + q) % numBuckets t) + 1 else 0 := by
      rw [calcProbeCount_eq t1 k _ (hm1.trans hmask) (by rw [hn1]; exact hlt (q + 1)), hn1,
        hmoved, calcProbeCount_eq t k _ hmask (hlt q), ← nextIndex_add_mod _ _ _ hpos]
      exact probeCountOf_nextIndex _ _ _ (hlt q)
    have hbound : calcProbeCount t ((i + q) % numBuckets t) < numBuckets t := by
      rw [calcProbeCount_eq t k _ hmask (hlt q)]
      exact probeCountOf_lt _ _ _ hpos
    refine ⟨hmoved, ?_, ?_⟩
    · rw [hpc]
      split_ifs with h
      · exact (Nat.mod_eq_of_lt h).symm
      · have : calcProbeCount t ((i + q) % numBuckets t) + 1 = numBuckets t := by omega
        rw [this, Nat.mod_self]
    · intro hrun
      have h := probeCountOf_succ_lt (numBuckets t) t.buckets hrun e0 he0 hemp0 _ (hlt q)
        (hfull _ (hlt q) (by rw [hdist q (by omega)]; exact hq))
      rw [← calcProbeCount_eq t k _ hmask (hlt q)] at h
      rw [hpc, if_pos h]
  · intro y hy hne
    have hd : ¬ distance (numBuckets t) i y ≤ j := by
      intro hd
      exact hne _ hd (add_distance_mod _ i y hi hy).symm
    have hyi : y ≠ i := by
      intro h
      apply hne 0 (by omega)
      rw [h, Nat.add_zero, Nat.mod_eq_of_lt hi]
    rw [hb1 y hy, if_neg hyi, if_neg hd]

/-- Witness for C20: evicting bucket 0 of `exampleChain`, whose buckets 0, 1, 2
are occupied and whose bucket 3 is empty. -/
theorem evict_forward_shift_witness :
    ∃ j t1, 1 ≤ j ∧ j < numBuckets exampleChain ∧
      (∀ q, q < j →
        (exampleChain.buckets ((0 + q) % numBuckets exampleChain)).hashAndOccupancy ≠ 0) ∧
      (exampleChain.buckets ((0 + j) % numBuckets exampleChain)).hashAndOccupancy = 0 ∧
      evictHashBucket exampleChain 0 = some t1 ∧
      t1.hashToBucketIndexMask = exampleChain.hashToBucketIndexMask ∧
      t1.numElements = exampleChain.numElements ∧
      t1.buckets 0 = ⟨0, none⟩ ∧
      (∀ q, q < j →
        t1.buckets ((0 + (q + 1)) % numBuckets exampleChain)
          = exampleChain.buckets ((0 + q) % numBuckets exampleChain) ∧
        calcProbeCount t1 ((0 + (q + 1)) % numBuckets exampleChain)
          = (calcProbeCount exampleChain ((0 + q) % numBuckets exampleChain) + 1)
              % numBuckets exampleChain ∧
        (RunInv (numBuckets exampleChain) exampleChain.buckets →
          calcProbeCount t1 ((0 + (q + 1)) % numBuckets exampleChain)
            = calcProbeCount exampleChain ((0 + q) % numBuckets exampleChain) + 1)) ∧
      (∀ y, y < numBuckets exampleChain →
        (∀ q, q ≤ j → y ≠ (0 + q) % numBuckets exampleChain) →
        t1.buckets y = exampleChain.buckets y) ∧
      storedBuckets (numBuckets t1) t1.buckets
        = storedBuckets (numBuckets exampleChain) exampleChain.buckets :=
  evict_forward_shift 64 exampleChain ⟨4, by decide, by decide, by decide⟩
    ⟨3, by decide, by decide⟩ 0 (by decide) (by decide)

/-! ## C21 and C22: the probe bound and the probe index -/

/-- The occupancy bit does not reach the bits that the index mask keeps. -/
theorem or_isOccupiedMask_mod (w k hash : Nat) (hkw : k < w) :
    (hash ||| isOccupiedMask w) % 2 ^ k = hash % 2 ^ k := by
  apply Nat.eq_of_testBit_eq
  intro i
  rw [Nat.testBit_mod_two_pow, Nat.testBit_mod_two_pow, Nat.testBit_or]
  unfold isOccupiedMask
  rw [Nat.testBit_two_pow]
  by_cases hik : i < k
  · have : ¬ (w - 1 = i) := by omega
    simp [this]
  · simp [hik]

/-- C21. Probe bound: on a table that satisfies the invariants and has an empty
bucket, for every hash and key, the probing loop of `getBucketForRead` returns
within `bucketCount` iterations (its fuel), so does `getBucketForWrite`, and
wherever the loop goes on to the next bucket the incremented probe count is still
below the bucket count, as `wavmAssert(probeCount < numBuckets())` demands. -/
theorem probe_bound (w : Nat) (pol : HashTablePolicy Key Element) (t : HashTable Element)
    (hs : Structured w pol t) (hempty : HasEmptyBucket t) (hash : Nat) (key : Key) :
    (∃ r, getBucketForRead w pol t hash key = some r ∧
      getBucketForReadLoop w pol t (hash ||| isOccupiedMask w) key (numBuckets t) 0 = some r) ∧
    (∃ t1 idx, getBucketForWrite w pol t hash key = some (t1, idx)) ∧
    (∀ probeCount,
      (t.buckets ((((hash ||| isOccupiedMask w) + probeCount) % 2 ^ w)
        &&& t.hashToBucketIndexMask)).hashAndOccupancy ≠ 0 →
      ¬ probeCount > calcProbeCount t
        ((((hash ||| isOccupiedMask w) + probeCount) % 2 ^ w) &&& t.hashToBucketIndexMask) →
      probeCount + 1 < numBuckets t) := by
  obtain ⟨k, hk1, hkw, hmask⟩ := hs.size
  have hn : numBuckets t = 2 ^ k := numBuckets_eq_of_mask hmask
  have hpos : 0 < numBuckets t := by rw [hn]; exact Nat.two_pow_pos k
  obtain ⟨⟨r, hr⟩, _, _⟩ := getBucketForRead_spec w pol t k hkw hmask hs.run hempty hash key
  obtain ⟨e, he, hemp⟩ := hempty
  obtain ⟨t1, idx, hw, _⟩ := getBucketForWrite_spec w pol t k hk1 hkw hmask
    (by rw [← hn]; exact hs.run) ⟨e, by rw [← hn]; exact he, hemp⟩ hash key
  refine ⟨⟨r, hr, hr⟩, ⟨t1, idx, hw⟩, ?_⟩
  intro p
  have hidx : (((hash ||| isOccupiedMask w) + p) % 2 ^ w) &&& t.hashToBucketIndexMask
      = ((hash ||| isOccupiedMask w) + p) % numBuckets t := by
    rw [hmask, hn]; exact probeIndex_eq_mod w k _ p hkw
  rw [hidx]
  intro hocc hle
  have hlt : ((hash ||| isOccupiedMask w) + p) % numBuckets t < numBuckets t :=
    Nat.mod_lt _ hpos
  rw [calcProbeCount_eq t k _ hmask hlt] at hle
  have := probeCountOf_succ_lt (numBuckets t) t.buckets hs.run e he hemp _ hlt hocc
  omega

/-- Witness for C21: looking up key 9 with hash 1 in `exampleTwo`. -/
theorem probe_bound_witness :
    (∃ r, getBucketForRead 64 natMapPolicy exampleTwo 1 9 = some r ∧
      getBucketForReadLoop 64 natMapPolicy exampleTwo (1 ||| isOccupiedMask 64) 9
        (numBuckets exampleTwo) 0 = some r) ∧
    (∃ t1 idx, getBucketForWrite 64 natMapPolicy exampleTwo 1 9 = some (t1, idx)) ∧
    (∀ probeCount,
      (exampleTwo.buckets ((((1 ||| isOccupiedMask 64) + probeCount) % 2 ^ 64)
        &&& exampleTwo.hashToBucketIndexMask)).hashAndOccupancy ≠ 0 →
      ¬ probeCount > calcProbeCount exampleTwo
        ((((1 ||| isOccupiedMask 64) + probeCount) % 2 ^ 64)
          &&& exampleTwo.hashToBucketIndexMask) →
      probeCount + 1 < numBuckets exampleTwo) :=
  probe_bound 64 natMapPolicy exampleTwo
    (reachable_inv 64 natMapPolicy natMapPolicy_lawful doublingPolicy doublingPolicy_contract
      exampleTwo exampleTwo_reachable).structured
    (reachable_inv 64 natMapPolicy natMapPolicy_lawful doublingPolicy doublingPolicy_contract
      exampleTwo exampleTwo_reachable).hasEmpty 1 9

/-- C22. Probe indices are taken modulo the bucket count even when the addition
wraps in the machine word: for a table of `2 ^ k` buckets with `k < w`, every
hash and every probe count, the index
`((hash | OCCUPIED_MASK) + probeCount) mod 2 ^ w`, masked with
`hashToBucketIndexMask`, is `((hash & mask) + probeCount) mod bucketCount`; so
probing starts at `hash & mask` and advances by one bucket (cyclically) per
step. -/
theorem probe_index_mod (w : Nat) (t : HashTable Element) (k : Nat) (hkw : k < w)
    (hmask : t.hashToBucketIndexMask = 2 ^ k - 1) (hash probeCount : Nat) :
    (((hash ||| isOccupiedMask w) + probeCount) % 2 ^ w) &&& t.hashToBucketIndexMask
      = ((hash &&& t.hashToBucketIndexMask) + probeCount) % numBuckets t ∧
    (((hash ||| isOccupiedMask w) + 0) % 2 ^ w) &&& t.hashToBucketIndexMask
      = hash &&& t.hashToBucketIndexMask ∧
    (((hash ||| isOccupiedMask w) + (probeCount + 1)) % 2 ^ w) &&& t.hashToBucketIndexMask
      = (((((hash ||| isOccupiedMask w) + probeCount) % 2 ^ w) &&& t.hashToBucketIndexMask) + 1)
          % numBuckets t := by
  have hn : numBuckets t = 2 ^ k := numBuckets_eq_of_mask hmask
  have hgen : ∀ p, (((hash ||| isOccupiedMask w) + p) % 2 ^ w) &&& t.hashToBucketIndexMask
      = (hash + p) % 2 ^ k := by
    intro p
    rw [hmask, probeIndex_eq_mod w k _ p hkw, ← Nat.mod_add_mod, or_isOccupiedMask_mod w k hash hkw,
      Nat.mod_add_mod]
  have hideal : hash &&& t.hashToBucketIndexMask = hash % 2 ^ k := by
    rw [hmask]; exact and_mask_eq_mod _ _
  refine ⟨?_, ?_, ?_⟩
  · rw [hgen, hideal, hn, Nat.mod_add_mod]
  · rw [hgen, hideal, Nat.add_zero]
  · rw [hgen, hgen, hn, Nat.mod_add_mod]
    rfl

/-- Witness for C22: a probe whose addition wraps in a 64-bit word. With hash
`2 ^ 63 - 1` and probe count 3 in a table of 8 buckets the sum is `2 ^ 64 + 2`,
and the index is `(7 + 3) mod 8 = 2`. -/
theorem probe_index_mod_witness :
    (((2 ^ 63 - 1) ||| isOccupiedMask 64) + 3 ≥ 2 ^ 64) ∧
    ((((2 ^ 63 - 1) ||| isOccupiedMask 64) + 3) % 2 ^ 64) &&& exampleTwo.hashToBucketIndexMask
      = 2 ∧
    ((((2 ^ 63 - 1) &&& exampleTwo.hashToBucketIndexMask) + 3) % numBuckets exampleTwo = 2) ∧
    ((((2 ^ 63 - 1) ||| isOccupiedMask 64) + 3) % 2 ^ 64) &&& exampleTwo.hashToBucketIndexMask
      = (((2 ^ 63 - 1) &&& exampleTwo.hashToBucketIndexMask) + 3) % numBuckets exampleTwo :=
  ⟨by decide, by decide, by decide,
    (probe_index_mod 64 exampleTwo 3 (by decide) (by decide) (2 ^ 63 - 1) 3).1⟩

/-! ## C23: the occupancy lower bound -/

theorem construct_shape (w : Nat) (alloc : AllocPolicy) (n : Nat) (t : HashTable Element)
    (h : HashTable.construct w alloc n = some t) :
    t.numElements = 0 ∧ alloc.getMinDesiredBuckets n ≤ numBuckets t := by
  unfold HashTable.construct at h
  simp only at h
  split_ifs at h
  cases ha : (allocateBuckets w (alloc.getMinDesiredBuckets n) :
      Option (Nat → HashTableBucket Element)) with
  | none => rw [ha] at h; simp at h
  | some b =>
    rw [ha] at h
    simp only [Option.some.injEq] at h
    obtain ⟨halloc, -⟩ := allocateBuckets_some w _ b ha
    rw [← h]
    refine ⟨rfl, ?_⟩
    show _ ≤ (alloc.getMinDesiredBuckets n + 2 ^ w - 1) % 2 ^ w + 1
    by_cases h0 : alloc.getMinDesiredBuckets n = 0
    · omega
    · rw [pred_mod_two_pow w _ (by omega) (by omega)]
      omega

theorem moveFrom_shape (w : Nat) (alloc : AllocPolicy) (t t1 t2 : HashTable Element)
    (h : moveFrom w alloc t = some (t1, t2)) :
    t1 = t ∧ t2.numElements = 0 ∧ alloc.getMaxDesiredBuckets 0 ≤ numBuckets t2 := by
  unfold moveFrom at h
  simp only at h
  cases ha : (allocateBuckets w (alloc.getMaxDesiredBuckets 0) :
      Option (Nat → HashTableBucket Element)) with
  | none => rw [ha] at h; simp at h
  | some b =>
    rw [ha] at h
    simp only [Option.some.injEq, Prod.mk.injEq] at h
    obtain ⟨halloc, -⟩ := allocateBuckets_some w _ b ha
    rw [← h.1, ← h.2]
    refine ⟨rfl, rfl, ?_⟩
    show _ ≤ (alloc.getMaxDesiredBuckets 0 + 2 ^ w - 1) % 2 ^ w + 1
    by_cases h0 : alloc.getMaxDesiredBuckets 0 = 0
    · omega
    · rw [pred_mod_two_pow w _ (by omega) (by omega)]
      omega

theorem eraseLoop_numElements (fuel : Nat) :
    ∀ (t t1 : HashTable Element) (i : Nat), eraseLoop fuel t i = some t1 →
      t1.numElements = t.numElements := by
  induction fuel with
  | zero => intro t t1 i h; simp [eraseLoop] at h
  | succ fuel ih =>
    intro t t1 i h
    unfold eraseLoop at h
    simp only at h
    split_ifs at h with h1 h2 h3 h4
    · simp only [Option.some.injEq] at h; rw [← h]
    · simp only [Option.some.injEq] at h; rw [← h]
    · have := ih _ _ _ h
      exact this

/-- What `getBucketForAdd` leaves of the sizes, for any table. -/
theorem getBucketForAdd_sizes (w : Nat) (pol : HashTablePolicy Key Element)
    (alloc : AllocPolicy) (t t1 : HashTable Element) (hash : Nat) (key : Key) (idx : Nat)
    (h : getBucketForAdd w pol alloc t hash key = some (t1, idx)) :
    alloc.getMinDesiredBuckets ((t.numElements + 1) % 2 ^ w) ≤ numBuckets t1 ∧
      (t1.numElements = (t.numElements + 1) % 2 ^ w ∨ t1.numElements = t.numElements) := by
  unfold getBucketForAdd at h
  simp only at h
  cases hr : (if numBuckets t < alloc.getMinDesiredBuckets ((t.numElements + 1) % 2 ^ w)
      then resize w pol t (alloc.getMinDesiredBuckets ((t.numElements + 1) % 2 ^ w))
      else some t) with
  | none => rw [hr] at h; simp at h
  | some tr =>
    rw [hr] at h
    simp only at h
    have hsr : alloc.getMinDesiredBuckets ((t.numElements + 1) % 2 ^ w) ≤ numBuckets tr ∧
        tr.numElements = t.numElements := by
      split_ifs at hr with hlt
      · exact ⟨le_of_eq (resize_sizeInv w pol t tr _ hr).2.symm, resize_numElements w pol t tr _ hr⟩
      · simp only [Option.some.injEq] at hr
        rw [← hr]
        exact ⟨by omega, rfl⟩
    cases hw : getBucketForWrite w pol tr hash key with
    | none => rw [hw] at h; simp at h
    | some r =>
      obtain ⟨t2, b⟩ := r
      rw [hw] at h
      simp only at h
      have hm := getBucketForWrite_mask w pol tr t2 hash key b hw
      have hnum := getBucketForWriteLoop_numElements w pol tr _ key _ 0 t2 b hw
      have hn2 : numBuckets t2 = numBuckets tr := by unfold numBuckets; rw [hm]
      split_ifs at h
      · simp only [Option.some.injEq, Prod.mk.injEq] at h
        rw [← h.1]
        refine ⟨by show _ ≤ numBuckets t2; rw [hn2]; exact hsr.1, Or.inl ?_⟩
        show (t2.numElements + 1) % 2 ^ w = _
        rw [hnum, hsr.2]
      · simp only [Option.some.injEq, Prod.mk.injEq] at h
        rw [← h.1]
        exact ⟨by rw [hn2]; exact hsr.1, Or.inr (by rw [hnum, hsr.2])⟩

/-- What `remove` leaves of the element count, for any table. -/
theorem remove_numElements (w : Nat) (pol : HashTablePolicy Key Element) (alloc : AllocPolicy)
    (t t1 : HashTable Element) (hash : Nat) (key : Key) (found : Bool)
    (h : remove w pol alloc t hash key = some (found, t1)) :
    (found = false ∧ t1 = t) ∨
      (found = true ∧ t1.numElements = (t.numElements + 2 ^ w - 1) % 2 ^ w) := by
  unfold remove at h
  simp only at h
  cases hr : getBucketForRead w pol t (hash ||| isOccupiedMask w) key with
  | none => rw [hr] at h; simp at h
  | some r =>
    rw [hr] at h
    cases r with
    | none =>
      simp only [Option.some.injEq, Prod.mk.injEq] at h
      exact Or.inl ⟨h.1.symm, h.2.symm⟩
    | some j =>
      simp only at h
      cases he : eraseHashBucket t j with
      | none => rw [he] at h; simp at h
      | some te =>
        rw [he] at h
        simp only at h
        have hnum : te.numElements = t.numElements := eraseLoop_numElements _ t te j he
        right
        split_ifs at h
        · split at h
          · simp at h
          · rename_i t3 hres
            simp only [Option.some.injEq, Prod.mk.injEq] at h
            refine ⟨h.1.symm, ?_⟩
            rw [← h.2, resize_numElements w pol _ t3 _ hres, ← hnum]
        · simp only [Option.some.injEq, Prod.mk.injEq] at h
          refine ⟨h.1.symm, ?_⟩
          rw [← h.2, ← hnum]

theorem pred_mod_le (w n : Nat) (h1 : 1 ≤ n) : (n + 2 ^ w - 1) % 2 ^ w ≤ n - 1 := by
  have hpos := Nat.two_pow_pos w
  have : n + 2 ^ w - 1 = (n - 1) + 2 ^ w := by omega
  rw [this, Nat.add_mod_right]
  exact Nat.mod_le _ _

theorem add_keeps_lowerBound (w : Nat) (pol : HashTablePolicy Key Element) (alloc : AllocPolicy)
    (hmono : ∀ a b, a ≤ b → alloc.getMinDesiredBuckets a ≤ alloc.getMinDesiredBuckets b)
    (t t1 : HashTable Element) (hash : Nat) (key : Key) (idx : Nat)
    (hnowrap : t.numElements + 1 < 2 ^ w)
    (h : getBucketForAdd w pol alloc t hash key = some (t1, idx)) :
    OccupancyLowerBound alloc t1 := by
  obtain ⟨hb, hnum⟩ := getBucketForAdd_sizes w pol alloc t t1 hash key idx h
  unfold OccupancyLowerBound
  rw [Nat.mod_eq_of_lt hnowrap] at hb hnum
  rcases hnum with h1 | h1
  · rw [h1]; exact hb
  · rw [h1]; exact le_trans (hmono _ _ (by omega)) hb

theorem remove_keeps_lowerBound (w : Nat) (pol : HashTablePolicy Key Element)
    (alloc : AllocPolicy)
    (hmono : ∀ a b, a ≤ b → alloc.getMinDesiredBuckets a ≤ alloc.getMinDesiredBuckets b)
    (hle : ∀ n, alloc.getMinDesiredBuckets n ≤ alloc.getMaxDesiredBuckets n)
    (t t1 : HashTable Element) (hash : Nat) (key : Key) (found : Bool)
    (hlb : OccupancyLowerBound alloc t) (hpos : found = true → 1 ≤ t.numElements)
    (h : remove w pol alloc t hash key = some (found, t1)) :
    OccupancyLowerBound alloc t1 := by
  rcases remove_numElements w pol alloc t t1 hash key found h with ⟨_, ht⟩ | ⟨hf, hnum⟩
  · rw [ht]; exact hlb
  · subst hf
    have hsize := remove_numBuckets w pol alloc t t1 hash key h
    have hdec := pred_mod_le w t.numElements (hpos rfl)
    unfold OccupancyLowerBound at hlb ⊢
    rw [hsize]
    split_ifs with hgt
    · exact hle _
    · rw [hnum]
      exact le_trans (hmono _ _ (by omega)) hlb

/-- C23. The occupancy lower bound `bucketCount >= minDesiredBuckets(numElements)`:
for every policy with `minDesiredBuckets` monotonic and
`minDesiredBuckets(n) <= maxDesiredBuckets(n)`, it holds after construction with
any hint and after every `getBucketForAdd`, and is preserved by `remove`, copy
and move (for both tables), as long as the element counter does not wrap. Hence
under the policy contract, with `minDesiredBuckets(n) > n`, every reachable table
has it and keeps at least one empty bucket. -/
theorem occupancy_lower_bound (w : Nat) (pol : HashTablePolicy Key Element)
    (alloc : AllocPolicy)
    (hmono : ∀ a b, a ≤ b → alloc.getMinDesiredBuckets a ≤ alloc.getMinDesiredBuckets b)
    (hle : ∀ n, alloc.getMinDesiredBuckets n ≤ alloc.getMaxDesiredBuckets n) :
    (∀ hint (t : HashTable Element), HashTable.construct w alloc hint = some t →
      OccupancyLowerBound alloc t) ∧
    (∀ (t t1 : HashTable Element) hash key idx, t.numElements + 1 < 2 ^ w →
      getBucketForAdd w pol alloc t hash key = some (t1, idx) → OccupancyLowerBound alloc t1) ∧
    (∀ (t t1 : HashTable Element) hash key found, OccupancyLowerBound alloc t →
      (found = true → 1 ≤ t.numElements) →
      remove w pol alloc t hash key = some (found, t1) → OccupancyLowerBound alloc t1) ∧
    (∀ t : HashTable Element, OccupancyLowerBound alloc t →
      OccupancyLowerBound alloc (copyFrom t)) ∧
    (∀ t t1 t2 : HashTable Element, OccupancyLowerBound alloc t →
      moveFrom w alloc t = some (t1, t2) →
      OccupancyLowerBound alloc t1 ∧ OccupancyLowerBound alloc t2) ∧
    (LawfulKeys pol → AllocContract alloc → ∀ t, Reachable w pol alloc t →
      OccupancyLowerBound alloc t ∧ t.numElements < numBuckets t ∧ HasEmptyBucket t) := by
  have hcon : ∀ hint (t : HashTable Element), HashTable.construct w alloc hint = some t →
      OccupancyLowerBound alloc t := by
    intro hint t h
    obtain ⟨h0, hb⟩ := construct_shape w alloc hint t h
    unfold OccupancyLowerBound
    rw [h0]
    exact le_trans (hmono 0 hint (Nat.zero_le _)) hb
  have hmove : ∀ t t1 t2 : HashTable Element, OccupancyLowerBound alloc t →
      moveFrom w alloc t = some (t1, t2) →
      OccupancyLowerBound alloc t1 ∧ OccupancyLowerBound alloc t2 := by
    intro t t1 t2 hlb h
    obtain ⟨h1, h0, hb⟩ := moveFrom_shape w alloc t t1 t2 h
    refine ⟨by rw [h1]; exact hlb, ?_⟩
    unfold OccupancyLowerBound
    rw [h0]
    exact le_trans (hle 0) hb
  refine ⟨hcon, ?_, ?_, fun t h => h, hmove, ?_⟩
  · intro t t1 hash key idx hnowrap h
    exact add_keeps_lowerBound w pol alloc hmono t t1 hash key idx hnowrap h
  · intro t t1 hash key found hlb hpos h
    exact remove_keeps_lowerBound w pol alloc hmono hle t t1 hash key found hlb hpos h
  · intro hlaw hc t hreach
    have hinv := reachable_inv w pol hlaw alloc hc t hreach
    refine ⟨?_, hinv.room, hinv.hasEmpty⟩
    clear hinv
    induction hreach with
    | construct hint t h => exact hcon hint t h
    | insert t t1 hash e hr hins _ =>
      have hinv := reachable_inv w pol hlaw alloc hc t hr
      unfold insert at hins
      cases ha : getBucketForAdd w pol alloc t hash (pol.getKey e) with
      | none => rw [ha] at hins; simp at hins
      | some r =>
        obtain ⟨t2, b⟩ := r
        rw [ha] at hins
        simp only [Option.some.injEq] at hins
        have h2 := add_keeps_lowerBound w pol alloc hmono t t2 hash _ b
          (by have := hinv.room; have := hinv.allocated; omega) ha
        rw [← hins]
        exact h2
    | remove t t1 hash key found hr hrem ih =>
      have hinv := reachable_inv w pol hlaw alloc hc t hr
      refine remove_keeps_lowerBound w pol alloc hmono hle t t1 hash key found ih ?_ hrem
      intro hf
      obtain ⟨found1, t3, hrem1, _, hcase⟩ := remove_spec w pol hlaw alloc hc t hinv hash key
      rw [hrem] at hrem1
      simp only [Option.some.injEq, Prod.mk.injEq] at hrem1
      rcases hcase with ⟨hfalse, _⟩ | ⟨_, _, _, _, _, hnum, _⟩
      · rw [← hrem1.1, hf] at hfalse
        exact absurd hfalse (by decide)
      · omega
    | copy t _ ih => exact ih
    | moveTo t t1 t2 _ hmv ih => exact (hmove t t1 t2 ih hmv).1
    | moveSource t t1 t2 _ hmv ih => exact (hmove t t1 t2 ih hmv).2

/-- Witness for C23: `exampleTwo` under the doubling policy. -/
theorem occupancy_lower_bound_witness :
    OccupancyLowerBound doublingPolicy exampleTwo ∧
    exampleTwo.numElements < numBuckets exampleTwo ∧ HasEmptyBucket exampleTwo :=
  (occupancy_lower_bound 64 natMapPolicy doublingPolicy
    (fun _ _ hab => Nat.pow_le_pow_right (by omega) (by omega))
    (fun _ => Nat.pow_le_pow_right (by omega) (by omega))).2.2.2.2.2
    natMapPolicy_lawful doublingPolicy_contract exampleTwo exampleTwo_reachable

/-! ## C24: key uniqueness -/

theorem reachableHashed_reachable (w : Nat) (pol : HashTablePolicy Key Element)
    (alloc : AllocPolicy) (hashOf : Key → Nat) (t : HashTable Element)
    (h : ReachableHashed w pol alloc hashOf t) : Reachable w pol alloc t := by
  induction h with
  | construct hint t h => exact Reachable.construct hint t h
  | insert t t1 e _ hins ih => exact Reachable.insert t t1 _ e ih hins
  | remove t t1 hash key found _ hrem ih => exact Reachable.remove t t1 hash key found ih hrem
  | copy t _ ih => exact Reachable.copy t ih
  | moveTo t t1 t2 _ hmv ih => exact Reachable.moveTo t t1 t2 ih hmv
  | moveSource t t1 t2 _ hmv ih => exact Reachable.moveSource t t1 t2 ih hmv

/-- A completed insertion stores nothing but what was stored and the new
bucket. -/
theorem insert_stored_subset (w : Nat) (pol : HashTablePolicy Key Element)
    (hlaw : LawfulKeys pol) (alloc : AllocPolicy) (hc : AllocContract alloc)
    (t t1 : HashTable Element) (hinv : TableInv w pol t) (hash : Nat) (e : Element)
    (hins : insert w pol alloc t hash e = some t1) :
    ∀ x ∈ storedBuckets (numBuckets t1) t1.buckets,
      x ∈ storedBuckets (numBuckets t) t.buckets ∨ x = ⟨hash ||| isOccupiedMask w, some e⟩ := by
  by_cases hfit : numBuckets t < alloc.getMinDesiredBuckets (t.numElements + 1) →
      2 * alloc.getMinDesiredBuckets (t.numElements + 1) < 2 ^ w
  · obtain ⟨t2, h2, _, _, hcase⟩ :=
      insert_spec w pol hlaw alloc ⟨hc.minPow, hc.minRoom⟩ t hinv hfit hash e
    rw [hins] at h2
    simp only [Option.some.injEq] at h2
    subst h2
    intro x hx
    rcases hcase with ⟨_, hst, _⟩ | ⟨old, _, _, hst, _⟩
    · rw [hst] at hx
      rcases Multiset.mem_add.1 hx with h | h
      · exact Or.inl h
      · exact Or.inr (Multiset.mem_singleton.1 h)
    · have hx2 : x ∈ storedBuckets (numBuckets t1) t1.buckets + {old} :=
        Multiset.mem_add.2 (Or.inl hx)
      rw [hst] at hx2
      rcases Multiset.mem_add.1 hx2 with h | h
      · exact Or.inl h
      · exact Or.inr (Multiset.mem_singleton.1 h)
  · rw [Classical.not_imp] at hfit
    have := getBucketForAdd_none w pol alloc t hinv hash (pol.getKey e) hfit.1 hfit.2
    unfold insert at hins
    rw [this] at hins
    simp at hins

/-- A `remove` stores nothing but what was stored. -/
theorem remove_stored_subset (w : Nat) (pol : HashTablePolicy Key Element)
    (hlaw : LawfulKeys pol) (alloc : AllocPolicy) (hc : AllocContract alloc)
    (t t1 : HashTable Element) (hinv : TableInv w pol t) (hash : Nat) (key : Key)
    (found : Bool) (hrem : remove w pol alloc t hash key = some (found, t1)) :
    ∀ x ∈ storedBuckets (numBuckets t1) t1.buckets,
      x ∈ storedBuckets (numBuckets t) t.buckets := by
  obtain ⟨f2, t2, h2, _, hcase⟩ := remove_spec w pol hlaw alloc hc t hinv hash key
  rw [hrem] at h2
  simp only [Option.some.injEq, Prod.mk.injEq] at h2
  obtain ⟨_, h3⟩ := h2
  subst h3
  intro x hx
  rcases hcase with ⟨_, ht, _⟩ | ⟨_, j, _, _, hst, _⟩
  · rw [ht] at hx; exact hx
  · rw [← hst]
    exact Multiset.mem_add.2 (Or.inl hx)

/-- With consistent hashing every stored word is the hash of the key stored with
it. -/
theorem reachableHashed_words (w : Nat) (pol : HashTablePolicy Key Element)
    (hlaw : LawfulKeys pol) (alloc : AllocPolicy) (hc : AllocContract alloc)
    (hashOf : Key → Nat) (t : HashTable Element)
    (h : ReachableHashed w pol alloc hashOf t) :
    HashedWords w pol hashOf (storedBuckets (numBuckets t) t.buckets) := by
  induction h with
  | construct hint t h =>
    obtain ⟨_, _, _, hb⟩ := construct_spec w pol alloc ⟨hc.minPow, hc.minRoom⟩ hint t h
    rw [hb, storedBuckets_empty]
    intro x hx
    simp at hx
  | insert t t1 e hr hins ih =>
    have hinv := reachable_inv w pol hlaw alloc hc t
      (reachableHashed_reachable w pol alloc hashOf t hr)
    intro x hx e1 he1
    rcases insert_stored_subset w pol hlaw alloc hc t t1 hinv _ e hins x hx with h | h
    · exact ih x h e1 he1
    · rw [h] at he1 ⊢
      simp only [Option.some.injEq] at he1
      rw [← he1]
  | remove t t1 hash key found hr hrem ih =>
    have hinv := reachable_inv w pol hlaw alloc hc t
      (reachableHashed_reachable w pol alloc hashOf t hr)
    intro x hx
    exact ih x (remove_stored_subset w pol hlaw alloc hc t t1 hinv hash key found hrem x hx)
  | copy t hr ih =>
    have hinv := reachable_inv w pol hlaw alloc hc t
      (reachableHashed_reachable w pol alloc hashOf t hr)
    rw [(copyFrom_spec w pol t hinv).2.2]
    exact ih
  | moveTo t t1 t2 hr hmv ih =>
    have hinv := reachable_inv w pol hlaw alloc hc t
      (reachableHashed_reachable w pol alloc hashOf t hr)
    rw [(moveFrom_spec w pol alloc hc t t1 t2 hinv hmv).1]
    exact ih
  | moveSource t t1 t2 hr hmv _ =>
    have hinv := reachable_inv w pol hlaw alloc hc t
      (reachableHashed_reachable w pol alloc hashOf t hr)
    rw [(moveFrom_spec w pol alloc hc t t1 t2 hinv hmv).2.2.2.2.2, storedBuckets_empty]
    intro x hx
    simp at hx

/-- Two different occupied buckets are two members of the stored buckets. -/
theorem pair_le_storedBuckets (n : Nat) (b : Nat → HashTableBucket Element) (i j : Nat)
    (hi : i < n) (hj : j < n) (hij : i ≠ j) (hocci : (b i).hashAndOccupancy ≠ 0)
    (hoccj : (b j).hashAndOccupancy ≠ 0) :
    b i ::ₘ {b j} ≤ storedBuckets n b := by
  have hle : (i ::ₘ {j} : Multiset Nat) ≤ Multiset.range n := by
    rw [Multiset.le_iff_subset]
    · intro x hx
      rcases Multiset.mem_cons.1 hx with h | h
      · rw [h]; exact Multiset.mem_range.2 hi
      · rw [Multiset.mem_singleton.1 h]; exact Multiset.mem_range.2 hj
    · rw [Multiset.nodup_cons]
      exact ⟨fun h => hij (Multiset.mem_singleton.1 h), Multiset.nodup_singleton j⟩
  have h1 := Multiset.filter_le_filter (fun x : HashTableBucket Element => x.hashAndOccupancy ≠ 0)
    (Multiset.map_le_map (f := b) hle)
  unfold storedBuckets
  refine le_trans (le_of_eq ?_) h1
  rw [Multiset.map_cons, Multiset.map_singleton, Multiset.filter_cons, if_pos hocci,
    Multiset.filter_singleton, if_pos hoccj, Multiset.singleton_add]

/-- With unique keys, two occupied buckets that answer the same lookup are the
same bucket. -/
theorem uniqueKeys_index (pol : HashTablePolicy Key Element) (n : Nat)
    (b : Nat → HashTableBucket Element) (huniq : UniqueKeys pol (storedBuckets n b))
    (word : Nat) (key : Key) (i j : Nat) (hi : i < n) (hj : j < n)
    (hocci : (b i).hashAndOccupancy ≠ 0) (hoccj : (b j).hashAndOccupancy ≠ 0)
    (hmi : Matches pol word key (b i)) (hmj : Matches pol word key (b j)) : i = j := by
  by_contra hij
  have hle := pair_le_storedBuckets n b i j hi hj hij hocci hoccj
  have h2 := Multiset.card_le_card (Multiset.filter_le_filter (Matches pol word key) hle)
  rw [Multiset.filter_cons, if_pos hmi, Multiset.filter_singleton, if_pos hmj] at h2
  have h1 := huniq word key
  simp only [Multiset.card_add, Multiset.card_singleton] at h2
  omega

/-- C24. Key uniqueness: if equal keys are always supplied with the same hash,
then in every reachable table no two occupied buckets hold equal keys, and
`getBucketForWrite` for a key that is stored in bucket `i` returns that bucket
and leaves the table as it is: it neither evicts nor returns an empty bucket. -/
theorem key_uniqueness (w : Nat) (pol : HashTablePolicy Key Element) (hlaw : LawfulKeys pol)
    (alloc : AllocPolicy) (hc : AllocContract alloc) (hashOf : Key → Nat)
    (hcons : ConsistentHash pol hashOf) (t : HashTable Element)
    (hreach : ReachableHashed w pol alloc hashOf t) :
    (∀ i j ei ej, i < numBuckets t → j < numBuckets t →
      (t.buckets i).hashAndOccupancy ≠ 0 → (t.buckets j).hashAndOccupancy ≠ 0 →
      (t.buckets i).contents = some ei → (t.buckets j).contents = some ej →
      pol.areKeysEqual (pol.getKey ei) (pol.getKey ej) = true → i = j) ∧
    (∀ i ei key, i < numBuckets t → (t.buckets i).hashAndOccupancy ≠ 0 →
      (t.buckets i).contents = some ei → pol.areKeysEqual (pol.getKey ei) key = true →
      getBucketForWrite w pol t (hashOf key) key = some (t, i)) := by
  have hinv := reachable_inv w pol hlaw alloc hc t
    (reachableHashed_reachable w pol alloc hashOf t hreach)
  have hwords := reachableHashed_words w pol hlaw alloc hc hashOf t hreach
  have hmem : ∀ i, i < numBuckets t → (t.buckets i).hashAndOccupancy ≠ 0 →
      t.buckets i ∈ storedBuckets (numBuckets t) t.buckets :=
    fun i hi hocc => (mem_storedBuckets _ _ _).2 ⟨hocc, i, hi, rfl⟩
  have hholds : ∀ i ei key, (t.buckets i).contents = some ei →
      pol.areKeysEqual (pol.getKey ei) key = true →
      bucketHoldsKey pol (t.buckets i) key = true := by
    intro i ei key hci hk
    unfold bucketHoldsKey
    rw [hci]
    exact hk
  have hmatch : ∀ i ei key, i < numBuckets t → (t.buckets i).hashAndOccupancy ≠ 0 →
      (t.buckets i).contents = some ei → pol.areKeysEqual (pol.getKey ei) key = true →
      Matches pol (hashOf key ||| isOccupiedMask w) key (t.buckets i) := by
    intro i ei key hi hocc hci hk
    refine ⟨?_, hholds i ei key hci hk⟩
    rw [hwords _ (hmem i hi hocc) ei hci, hcons _ _ hk]
  constructor
  · intro i j ei ej hi hj hocci hoccj hci hcj hk
    exact uniqueKeys_index pol _ _ hinv.structured.unique _ (pol.getKey ej) i j hi hj hocci hoccj
      (hmatch i ei _ hi hocci hci hk) (hmatch j ej _ hj hoccj hcj (hlaw.refl _))
  · intro i ei key hi hocc hci hk
    obtain ⟨k, hk1, hkw, hmask⟩ := hinv.structured.size
    have hn : numBuckets t = 2 ^ k := numBuckets_eq_of_mask hmask
    obtain ⟨e0, he0, hemp0⟩ := hinv.hasEmpty
    obtain ⟨t1, idx, hw, hidx, _, _, hcase, _⟩ := getBucketForWrite_spec w pol t k hk1 hkw hmask
      (by rw [← hn]; exact hinv.structured.run) ⟨e0, by rw [← hn]; exact he0, hemp0⟩
      (hashOf key) key
    have hmi := hmatch i ei key hi hocc hci hk
    rcases hcase with ⟨ht1, hoccx, hmx⟩ | ⟨habs, _⟩
    · have : idx = i := uniqueKeys_index pol _ _ hinv.structured.unique _ key idx i
        (by rw [hn]; exact hidx) hi hoccx hocc hmx hmi
      rw [hw, ht1, this]
    · exact absurd hmi (habs _ (by rw [← hn]; exact hmem i hi hocc))

theorem exampleHash_consistent : ConsistentHash natMapPolicy exampleHash := by
  intro a b h
  have : a = b := of_decide_eq_true h
  rw [this]

theorem exampleTwo_reachableHashed :
    ReachableHashed 64 natMapPolicy doublingPolicy exampleHash exampleTwo :=
  ReachableHashed.insert exampleOne exampleTwo (9, 90)
    (ReachableHashed.insert exampleEmpty exampleOne (7, 70)
      (ReachableHashed.construct 0 exampleEmpty (Option.some_get _).symm)
      (Option.some_get _).symm)
    (Option.some_get _).symm

/-- Witness for C24: in `exampleTwo`, built with the hashes of `exampleHash`, the
keys are unique and `getBucketForWrite` for the stored key 7 returns its bucket
5 without changing the table. -/
theorem key_uniqueness_witness :
    (∀ i j ei ej, i < numBuckets exampleTwo → j < numBuckets exampleTwo →
      (exampleTwo.buckets i).hashAndOccupancy ≠ 0 →
      (exampleTwo.buckets j).hashAndOccupancy ≠ 0 →
      (exampleTwo.buckets i).contents = some ei → (exampleTwo.buckets j).contents = some ej →
      natMapPolicy.areKeysEqual (natMapPolicy.getKey ei) (natMapPolicy.getKey ej) = true →
      i = j) ∧
    getBucketForWrite 64 natMapPolicy exampleTwo (exampleHash 7) 7 = some (exampleTwo, 5) :=
  ⟨(key_uniqueness 64 natMapPolicy natMapPolicy_lawful doublingPolicy doublingPolicy_contract
      exampleHash exampleHash_consistent exampleTwo exampleTwo_reachableHashed).1,
    (key_uniqueness 64 natMapPolicy natMapPolicy_lawful doublingPolicy doublingPolicy_contract
      exampleHash exampleHash_consistent exampleTwo exampleTwo_reachableHashed).2
      5 (7, 70) 7 (by decide) (by decide) (by decide) (by decide)⟩

/-! ## C25: termination of the shifting loops -/

/-- More fuel does not change what the eviction loop returns. -/
theorem evictLoop_mono (mask : Nat) (fuel : Nat) :
    ∀ (B : Nat → HashTableBucket Element) (x : Nat) (e : Option Element) (h : Nat)
      (R : Nat → HashTableBucket Element),
      evictLoop mask fuel B x e h = some R → evictLoop mask (fuel + 1) B x e h = some R := by
  induction fuel with
  | zero => intro B x e h R hR; simp [evictLoop] at hR
  | succ fuel ih =>
    intro B x e h R hR
    unfold evictLoop at hR ⊢
    simp only at hR ⊢
    split_ifs at hR ⊢ with h0
    · exact hR
    · exact ih _ _ _ _ _ hR

/-- More fuel does not change what the erase loop returns. -/
theorem eraseLoop_mono (fuel : Nat) :
    ∀ (t : HashTable Element) (x : Nat) (t1 : HashTable Element),
      eraseLoop fuel t x = some t1 → eraseLoop (fuel + 1) t x = some t1 := by
  induction fuel with
  | zero => intro t x t1 h; simp [eraseLoop] at h
  | succ fuel ih =>
    intro t x t1 h
    unfold eraseLoop at h ⊢
    simp only at h ⊢
    split_ifs at h ⊢ with h1 h2 h3 h4
    · exact h
    · exact h
    · exact ih _ _ _ h

/-- C25. Termination of the shifting loops: on a table that satisfies the
invariants and has an empty bucket, for every occupied index `i`, the loops of
`evictHashBucket(i)` and `eraseHashBucket(i)` return within `bucketCount - 1`
iterations, each of which visits one further bucket; after the eviction bucket
`i` is still empty, so the bucket that `getBucketForWrite` hands to the caller is
empty unless it already holds the key. -/
theorem shifting_loops_terminate (w : Nat) (pol : HashTablePolicy Key Element)
    (t : HashTable Element) (hs : Structured w pol t) (hempty : HasEmptyBucket t)
    (i : Nat) (hi : i < numBuckets t) (hocc : (t.buckets i).hashAndOccupancy ≠ 0) :
    (∃ R, evictLoop t.hashToBucketIndexMask (numBuckets t - 1)
          (setBucket t.buckets i ⟨0, none⟩) i (t.buckets i).contents
          (t.buckets i).hashAndOccupancy = some R ∧
        evictHashBucket t i = some { t with buckets := R } ∧
        (R i).hashAndOccupancy = 0) ∧
    (∃ t1, eraseLoop (numBuckets t - 1) t i = some t1 ∧ eraseHashBucket t i = some t1) ∧
    (∀ hash key, ∃ t1 idx, getBucketForWrite w pol t hash key = some (t1, idx) ∧
      ((t1 = t ∧ (t.buckets idx).hashAndOccupancy ≠ 0 ∧
          Matches pol (hash ||| isOccupiedMask w) key (t.buckets idx)) ∨
        (t1.buckets idx).hashAndOccupancy = 0)) := by
  obtain ⟨k, hk1, hkw, hmask⟩ := hs.size
  have hn : numBuckets t = 2 ^ k := numBuckets_eq_of_mask hmask
  have hn2 : 2 ≤ numBuckets t := by rw [hn]; exact two_le_two_pow k hk1
  have hfuel : numBuckets t - 1 + 1 = numBuckets t := by omega
  obtain ⟨e0, he0, hemp0⟩ := hempty
  refine ⟨?_, ?_, ?_⟩
  · obtain ⟨j, hj1, hjn, hfull, hemp⟩ :=
      exists_first_empty (numBuckets t) t.buckets i hi hocc ⟨e0, he0, hemp0⟩
    have hne : ∀ y, 1 ≤ distance (numBuckets t) i y → y ≠ i := by
      intro y hd hy
      rw [hy, (distance_eq_zero _ i i hi).2 rfl] at hd
      omega
    have hB : ∀ y, y ≠ i → setBucket t.buckets i (⟨0, none⟩ : HashTableBucket Element) y
        = t.buckets y := by
      intro y hy
      unfold setBucket
      rw [if_neg hy]
    have hspec := evictLoop_spec k (numBuckets t - 1)
      (setBucket t.buckets i (⟨0, none⟩ : HashTableBucket Element)) i (t.buckets i).contents
      (t.buckets i).hashAndOccupancy j (by rw [← hn]; exact hi) hj1 (by rw [← hn]; exact hjn)
      (by omega)
      (by
        rw [← hn]
        intro y hy hd1 hdj
        rw [hB y (hne y hd1)]
        exact hfull y hy hdj)
      (by
        rw [← hn]
        intro y hy hd
        rw [hB y (hne y (by omega))]
        exact hemp y hy hd)
    rw [← hmask, ← hn] at hspec
    obtain ⟨R, hR, hRy⟩ := hspec
    refine ⟨R, hR, ?_, ?_⟩
    · have hmono := evictLoop_mono _ _ _ _ _ _ _ hR
      rw [hfuel] at hmono
      unfold evictHashBucket
      simp only [hocc, if_false, hmono]
    · rw [hRy i hi, (distance_eq_zero _ i i hi).2 rfl, if_neg (by omega)]
      unfold setBucket
      rw [if_pos rfl]
  · obtain ⟨j, hj1, hjn, hmove, hstop⟩ := exists_first_after (numBuckets t) i hi
      (fun y => (t.buckets y).hashAndOccupancy = 0 ∨
        probeCountOf (numBuckets t) (t.buckets y).hashAndOccupancy y = 0)
      ⟨e0, he0, fun h => hocc (h ▸ hemp0), Or.inl hemp0⟩
    have hspec := eraseLoop_spec k hk1 (numBuckets t - 1) t i j hmask (by rw [← hn]; exact hi)
      hj1 (by rw [← hn]; exact hjn) (by omega) hocc
      (by rw [← hn]; exact hmove) (by rw [← hn]; exact hstop)
    obtain ⟨t1, ht1, _⟩ := hspec
    refine ⟨t1, ht1, ?_⟩
    have hmono := eraseLoop_mono _ _ _ _ ht1
    rw [hfuel] at hmono
    exact hmono
  · intro hash key
    obtain ⟨t1, idx, hw, _, _, _, hcase, _⟩ := getBucketForWrite_spec w pol t k hk1 hkw hmask
      (by rw [← hn]; exact hs.run) ⟨e0, by rw [← hn]; exact he0, hemp0⟩ hash key
    refine ⟨t1, idx, hw, ?_⟩
    rcases hcase with h | ⟨_, h, _⟩
    · exact Or.inl h
    · exact Or.inr h

theorem exampleChain_reachable : Reachable 64 natMapPolicy doublingPolicy exampleChain :=
  insertAll_reachable 64 natMapPolicy doublingPolicy _ exampleEmpty exampleChain
    exampleEmpty_reachable (Option.some_get _).symm

/-- Witness for C25: evicting and erasing bucket 0 of `exampleChain`. -/
theorem shifting_loops_terminate_witness :
    (∃ R, evictLoop exampleChain.hashToBucketIndexMask (numBuckets exampleChain - 1)
          (setBucket exampleChain.buckets 0 ⟨0, none⟩) 0 (exampleChain.buckets 0).contents
          (exampleChain.buckets 0).hashAndOccupancy = some R ∧
        evictHashBucket exampleChain 0 = some { exampleChain with buckets := R } ∧
        (R 0).hashAndOccupancy = 0) ∧
    (∃ t1, eraseLoop (numBuckets exampleChain - 1) exampleChain 0 = some t1 ∧
      eraseHashBucket exampleChain 0 = some t1) ∧
    (∀ hash key, ∃ t1 idx,
      getBucketForWrite 64 natMapPolicy exampleChain hash key = some (t1, idx) ∧
      ((t1 = exampleChain ∧ (exampleChain.buckets idx).hashAndOccupancy ≠ 0 ∧
          Matches natMapPolicy (hash ||| isOccupiedMask 64) key (exampleChain.buckets idx)) ∨
        (t1.buckets idx).hashAndOccupancy = 0)) :=
  shifting_loops_terminate 64 natMapPolicy exampleChain
    (reachable_inv 64 natMapPolicy natMapPolicy_lawful doublingPolicy doublingPolicy_contract
      exampleChain exampleChain_reachable).structured
    ⟨3, by decide, by decide⟩ 0 (by decide) (by decide)

/-! ## C15: a copy and its source on the store -/

theorem load_live (s : BucketStore Element) (hwf : s.WellFormed) (object : HashTableObject)
    (t : HashTable Element) (h : s.load object = some t) : object.buckets < s.nextAddress := by
  by_contra hge
  unfold BucketStore.load at h
  rw [hwf _ (by omega)] at h
  simp at h

theorem load_congr (s s1 : BucketStore Element) (object : HashTableObject)
    (h : s1.arrays object.buckets = s.arrays object.buckets) : s1.load object = s.load object := by
  unfold BucketStore.load
  rw [h]

theorem load_of_arrays (s : BucketStore Element) (object : HashTableObject)
    (b : Nat → HashTableBucket Element) (h : s.arrays object.buckets = some b) :
    s.load object = some { buckets := b, hashToBucketIndexMask := object.hashToBucketIndexMask,
                           numElements := object.numElements } := by
  unfold BucketStore.load
  rw [h]

/-- A completed insertion through one object leaves every table alone whose
array is another live array. -/
theorem insertStore_frame (w : Nat) (pol : HashTablePolicy Key Element) (alloc : AllocPolicy)
    (s : BucketStore Element) (object other : HashTableObject) (hash : Nat) (e : Element)
    (object1 : HashTableObject) (s1 : BucketStore Element)
    (hne : other.buckets ≠ object.buckets) (hlive : other.buckets < s.nextAddress)
    (h : insertStore w pol alloc s object hash e = some (object1, s1)) :
    s1.load other = s.load other := by
  apply load_congr
  unfold insertStore at h
  cases hl : s.load object with
  | none => rw [hl] at h; simp at h
  | some t =>
    rw [hl] at h
    simp only at h
    cases hi : insert w pol alloc t hash e with
    | none => rw [hi] at h; simp at h
    | some t1 =>
      rw [hi] at h
      simp only at h
      split_ifs at h
      · simp only [Option.some.injEq, Prod.mk.injEq] at h
        rw [← h.2]
        show (if other.buckets = object.buckets then none
          else if other.buckets = s.nextAddress then some t1.buckets
          else s.arrays other.buckets) = _
        rw [if_neg hne, if_neg (by omega)]
      · simp only [Option.some.injEq, Prod.mk.injEq] at h
        rw [← h.2]
        show (if other.buckets = object.buckets then some t1.buckets
          else s.arrays other.buckets) = _
        rw [if_neg hne]

/-- A `remove` through one object leaves every table alone whose array is
another live array. -/
theorem removeStore_frame (w : Nat) (pol : HashTablePolicy Key Element) (alloc : AllocPolicy)
    (s : BucketStore Element) (object other : HashTableObject) (hash : Nat) (key : Key)
    (found : Bool) (object1 : HashTableObject) (s1 : BucketStore Element)
    (hne : other.buckets ≠ object.buckets) (hlive : other.buckets < s.nextAddress)
    (h : removeStore w pol alloc s object hash key = some (found, object1, s1)) :
    s1.load other = s.load other := by
  apply load_congr
  unfold removeStore at h
  cases hl : s.load object with
  | none => rw [hl] at h; simp at h
  | some t =>
    rw [hl] at h
    simp only at h
    cases hr : remove w pol alloc t hash key with
    | none => rw [hr] at h; simp at h
    | some r =>
      obtain ⟨f, t1⟩ := r
      rw [hr] at h
      simp only at h
      split_ifs at h
      · simp only [Option.some.injEq, Prod.mk.injEq] at h
        rw [← h.2.2]
        show (if other.buckets = object.buckets then none
          else if other.buckets = s.nextAddress then some t1.buckets
          else s.arrays other.buckets) = _
        rw [if_neg hne, if_neg (by omega)]
      · simp only [Option.some.injEq, Prod.mk.injEq] at h
        rw [← h.2.2]
        show (if other.buckets = object.buckets then some t1.buckets
          else s.arrays other.buckets) = _
        rw [if_neg hne]

/-- The copy on the store: it returns, the copy has an array of its own that
holds the buckets of `copyFrom`, and the source is as it was. -/
theorem copyFromStore_spec (s : BucketStore Element) (hwf : s.WellFormed)
    (source : HashTableObject) (t : HashTable Element) (hload : s.load source = some t) :
    ∃ copy s1, copyFromStore s source = some (copy, s1) ∧
      copy.buckets ≠ source.buckets ∧ copy.buckets < s1.nextAddress ∧
      source.buckets < s1.nextAddress ∧
      s1.load source = some t ∧ s1.load copy = some (copyFrom t) := by
  have hlive := load_live s hwf source t hload
  have ht : t.hashToBucketIndexMask = source.hashToBucketIndexMask ∧
      t.numElements = source.numElements := by
    unfold BucketStore.load at hload
    split at hload
    · simp at hload
    · simp only [Option.some.injEq] at hload
      rw [← hload]
      exact ⟨rfl, rfl⟩
  refine ⟨_, _, by unfold copyFromStore; rw [hload], ?_, ?_, ?_, ?_, ?_⟩
  · show s.nextAddress ≠ source.buckets
    omega
  · show s.nextAddress < s.nextAddress + 1
    omega
  · show source.buckets < s.nextAddress + 1
    omega
  · rw [← hload]
    apply load_congr
    show (if source.buckets = s.nextAddress then _ else s.arrays source.buckets) = _
    rw [if_neg (by omega)]
  · rw [load_of_arrays _ _ (copyFrom t).buckets
      (by show (if s.nextAddress = s.nextAddress then _ else _) = _; rw [if_pos rfl])]
    show some (⟨(copyFrom t).buckets, source.hashToBucketIndexMask, source.numElements⟩ :
      HashTable Element) = some (copyFrom t)
    rw [← ht.1, ← ht.2]
    rfl

theorem newBuckets_wellFormed (s : BucketStore Element) (hwf : s.WellFormed)
    (contents : Nat → HashTableBucket Element) : (s.newBuckets contents).2.WellFormed := by
  intro a ha
  have ha1 : s.nextAddress + 1 ≤ a := ha
  show (if a = s.nextAddress then some contents else s.arrays a) = none
  rw [if_neg (by omega)]
  exact hwf a (by omega)

/-- A completed insertion on the store returns whenever the insertion into the
table of the object does, and the object then denotes the table it returns. -/
theorem insertStore_spec (w : Nat) (pol : HashTablePolicy Key Element) (alloc : AllocPolicy)
    (s : BucketStore Element) (hwf : s.WellFormed) (object : HashTableObject)
    (t t1 : HashTable Element) (hash : Nat) (e : Element) (hload : s.load object = some t)
    (hins : insert w pol alloc t hash e = some t1) :
    ∃ object1 s1, insertStore w pol alloc s object hash e = some (object1, s1) ∧
      s1.load object1 = some t1 := by
  have hlive := load_live s hwf object t hload
  unfold insertStore
  rw [hload]
  simp only [hins]
  split_ifs
  · refine ⟨_, _, rfl, ?_⟩
    apply load_of_arrays
    show (if s.nextAddress = object.buckets then none
      else if s.nextAddress = s.nextAddress then some t1.buckets
      else s.arrays s.nextAddress) = _
    rw [if_neg (by omega), if_pos rfl]
  · refine ⟨_, _, rfl, ?_⟩
    apply load_of_arrays
    show (if object.buckets = object.buckets then some t1.buckets
      else s.arrays object.buckets) = _
    rw [if_pos rfl]

/-- A `remove` on the store returns whenever `remove` on the table of the object
does, and the object then denotes the table it returns. -/
theorem removeStore_spec (w : Nat) (pol : HashTablePolicy Key Element) (alloc : AllocPolicy)
    (s : BucketStore Element) (hwf : s.WellFormed) (object : HashTableObject)
    (t t1 : HashTable Element) (hash : Nat) (key : Key) (found : Bool)
    (hload : s.load object = some t)
    (hrem : remove w pol alloc t hash key = some (found, t1)) :
    ∃ object1 s1, removeStore w pol alloc s object hash key = some (found, object1, s1) ∧
      s1.load object1 = some t1 := by
  have hlive := load_live s hwf object t hload
  unfold removeStore
  rw [hload]
  simp only [hrem]
  split_ifs
  · refine ⟨_, _, rfl, ?_⟩
    apply load_of_arrays
    show (if s.nextAddress = object.buckets then none
      else if s.nextAddress = s.nextAddress then some t1.buckets
      else s.arrays s.nextAddress) = _
    rw [if_neg (by omega), if_pos rfl]
  · refine ⟨_, _, rfl, ?_⟩
    apply load_of_arrays
    show (if object.buckets = object.buckets then some t1.buckets
      else s.arrays object.buckets) = _
    rw [if_pos rfl]

/-- An insertion into one of two tables with different live arrays changes that
table as `insert` says and leaves the other as it was. -/
theorem insertStore_independent (w : Nat) (pol : HashTablePolicy Key Element)
    (alloc : AllocPolicy) (s : BucketStore Element) (hwf : s.WellFormed)
    (object other : HashTableObject) (t tOther : HashTable Element)
    (hload : s.load object = some t) (hother : s.load other = some tOther)
    (hne : other.buckets ≠ object.buckets) (hash : Nat) (e : Element) (t1 : HashTable Element)
    (hins : insert w pol alloc t hash e = some t1) :
    ∃ object1 s1, insertStore w pol alloc s object hash e = some (object1, s1) ∧
      s1.load object1 = some t1 ∧ s1.load other = some tOther := by
  obtain ⟨object1, s1, h1, h2⟩ := insertStore_spec w pol alloc s hwf object t t1 hash e hload hins
  refine ⟨object1, s1, h1, h2, ?_⟩
  rw [insertStore_frame w pol alloc s object other hash e object1 s1 hne
    (load_live s hwf other tOther hother) h1]
  exact hother

/-- A `remove` on one of two tables with different live arrays changes that
table as `remove` says and leaves the other as it was. -/
theorem removeStore_independent (w : Nat) (pol : HashTablePolicy Key Element)
    (alloc : AllocPolicy) (s : BucketStore Element) (hwf : s.WellFormed)
    (object other : HashTableObject) (t tOther : HashTable Element)
    (hload : s.load object = some t) (hother : s.load other = some tOther)
    (hne : other.buckets ≠ object.buckets) (hash : Nat) (key : Key) (found : Bool)
    (t1 : HashTable Element) (hrem : remove w pol alloc t hash key = some (found, t1)) :
    ∃ object1 s1, removeStore w pol alloc s object hash key = some (found, object1, s1) ∧
      s1.load object1 = some t1 ∧ s1.load other = some tOther := by
  obtain ⟨object1, s1, h1, h2⟩ :=
    removeStore_spec w pol alloc s hwf object t t1 hash key found hload hrem
  refine ⟨object1, s1, h1, h2, ?_⟩
  rw [removeStore_frame w pol alloc s object other hash key found object1 s1 hne
    (load_live s hwf other tOther hother) h1]
  exact hother

/-- C15. Copy preserves layout exactly: for every source table, `copyFrom` gives
a table with the same bucket count, mask and `numElements`, whose bucket at every
index has the same word and, when occupied, the same element; every lookup gives
the same answer on both, and the copy has power-of-two sizing, the Robin Hood
ordering, an exact element count and the table invariants whenever the source
has; the storage of an empty slot of the copy is not constructed. On the store
the copy has an array of its own: a later insertion or remove
on the copy changes the copy and leaves the source as it was, and a later
insertion or remove on the source changes the source and leaves the copy as it
was. -/
theorem copy_preserves_layout (w : Nat) (pol : HashTablePolicy Key Element)
    (alloc : AllocPolicy) (t : HashTable Element) :
    numBuckets (copyFrom t) = numBuckets t ∧
    (copyFrom t).hashToBucketIndexMask = t.hashToBucketIndexMask ∧
    (copyFrom t).numElements = t.numElements ∧
    (∀ i, i < numBuckets t →
      ((copyFrom t).buckets i).hashAndOccupancy = (t.buckets i).hashAndOccupancy ∧
      ((t.buckets i).hashAndOccupancy ≠ 0 →
        ((copyFrom t).buckets i).contents = (t.buckets i).contents)) ∧
    (∀ hash key,
      getBucketForRead w pol (copyFrom t) hash key = getBucketForRead w pol t hash key) ∧
    (PowerOfTwoSizing w t → PowerOfTwoSizing w (copyFrom t)) ∧
    (RobinHoodOrdering t → RobinHoodOrdering (copyFrom t)) ∧
    (NoPhantomOccupancy w t → NoPhantomOccupancy w (copyFrom t)) ∧
    (TableInv w pol t → TableInv w pol (copyFrom t)) ∧
    (∀ i, i < numBuckets t → (t.buckets i).hashAndOccupancy = 0 →
      ((copyFrom t).buckets i).contents = none) ∧
    (∀ (s : BucketStore Element) (source : HashTableObject), s.WellFormed →
      s.load source = some t →
      ∃ copy s1, copyFromStore s source = some (copy, s1) ∧
        copy.buckets ≠ source.buckets ∧
        s1.load source = some t ∧ s1.load copy = some (copyFrom t) ∧
        (∀ hash e t1, insert w pol alloc (copyFrom t) hash e = some t1 →
          ∃ copy1 s2, insertStore w pol alloc s1 copy hash e = some (copy1, s2) ∧
            s2.load copy1 = some t1 ∧ s2.load source = some t) ∧
        (∀ hash key found t1, remove w pol alloc (copyFrom t) hash key = some (found, t1) →
          ∃ copy1 s2, removeStore w pol alloc s1 copy hash key = some (found, copy1, s2) ∧
            s2.load copy1 = some t1 ∧ s2.load source = some t) ∧
        (∀ hash e t1, insert w pol alloc t hash e = some t1 →
          ∃ source1 s2, insertStore w pol alloc s1 source hash e = some (source1, s2) ∧
            s2.load source1 = some t1 ∧ s2.load copy = some (copyFrom t)) ∧
        (∀ hash key found t1, remove w pol alloc t hash key = some (found, t1) →
          ∃ source1 s2, removeStore w pol alloc s1 source hash key = some (found, source1, s2) ∧
            s2.load source1 = some t1 ∧ s2.load copy = some (copyFrom t))) := by
  refine ⟨rfl, rfl, rfl, (copyFrom_sameLayout t).2,
    fun hash key => getBucketForRead_congr w pol _ t (copyFrom_sameLayout t) hash key,
    sameLayout_powerOfTwoSizing w _ t (copyFrom_sameLayout t),
    sameLayout_robinHoodOrdering _ t (copyFrom_sameLayout t),
    sameLayout_noPhantom w t,
    fun h => (copyFrom_spec w pol t h).1, ?_, ?_⟩
  · intro i hi h0
    show (if i < numBuckets t then _ else _ : HashTableBucket Element).contents = _
    rw [if_pos hi]
    show (if (t.buckets i).hashAndOccupancy = 0 then none else (t.buckets i).contents) = _
    rw [if_pos h0]
  intro s source hwf hload
  obtain ⟨copy, s1, hcopy, hne, _, _, hsrc, hcp⟩ := copyFromStore_spec s hwf source t hload
  have hwf1 : s1.WellFormed := by
    unfold copyFromStore at hcopy
    rw [hload] at hcopy
    simp only [Option.some.injEq, Prod.mk.injEq] at hcopy
    rw [← hcopy.2]
    exact newBuckets_wellFormed s hwf _
  refine ⟨copy, s1, hcopy, hne, hsrc, hcp, ?_, ?_, ?_, ?_⟩
  · intro hash e t1 hins
    exact insertStore_independent w pol alloc s1 hwf1 copy source _ t hcp hsrc
      (fun h => hne h.symm) hash e t1 hins
  · intro hash key found t1 hrem
    exact removeStore_independent w pol alloc s1 hwf1 copy source _ t hcp hsrc
      (fun h => hne h.symm) hash key found t1 hrem
  · intro hash e t1 hins
    exact insertStore_independent w pol alloc s1 hwf1 source copy t _ hsrc hcp hne hash e t1 hins
  · intro hash key found t1 hrem
    exact removeStore_independent w pol alloc s1 hwf1 source copy t _ hsrc hcp hne hash key
      found t1 hrem

theorem exampleStore_wellFormed : exampleStore.WellFormed := by
  intro a ha
  have ha1 : 1 ≤ a := ha
  show (if a = 0 then some exampleTwo.buckets else none) = none
  rw [if_neg (by omega)]

theorem exampleStore_load : exampleStore.load exampleObject = some exampleTwo := rfl

/-- Witness for C15: the copy of `exampleTwo` finds key 7 in bucket 5, as the
source does, and satisfies the invariants; on the store the copy of the object of
`exampleTwo` has another array, and inserting key 11 into the copy makes it a
table of three elements while the source is still `exampleTwo`. -/
theorem copy_preserves_layout_witness :
    getBucketForRead 64 natMapPolicy (copyFrom exampleTwo) 5 7 = some (some 5) ∧
    TableInv 64 natMapPolicy (copyFrom exampleTwo) ∧
    RobinHoodOrdering (copyFrom exampleTwo) ∧
    ∃ copy s1, copyFromStore exampleStore exampleObject = some (copy, s1) ∧
      copy.buckets ≠ exampleObject.buckets ∧
      s1.load exampleObject = some exampleTwo ∧
      ∃ copy1 s2 t1,
        insertStore 64 natMapPolicy doublingPolicy s1 copy 3 (11, 110) = some (copy1, s2) ∧
        s2.load copy1 = some t1 ∧ t1.numElements = 3 ∧
        s2.load exampleObject = some exampleTwo := by
  have h := copy_preserves_layout 64 natMapPolicy doublingPolicy exampleTwo
  have hinv := reachable_inv 64 natMapPolicy natMapPolicy_lawful doublingPolicy
    doublingPolicy_contract exampleTwo exampleTwo_reachable
  refine ⟨(h.2.2.2.2.1 5 7).trans (by decide), h.2.2.2.2.2.2.2.2.1 hinv,
    h.2.2.2.2.2.2.1 (robinHoodOrdering_of_runInv 64 exampleTwo hinv.structured.size
      hinv.structured.run), ?_⟩
  obtain ⟨copy, s1, hcopy, hne, hsrc, _, hins, _⟩ :=
    h.2.2.2.2.2.2.2.2.2.2 exampleStore exampleObject exampleStore_wellFormed exampleStore_load
  obtain ⟨copy1, s2, h1, h2, h3⟩ := hins 3 (11, 110)
    ((insert 64 natMapPolicy doublingPolicy (copyFrom exampleTwo) 3 (11, 110)).get (by decide))
    (Option.some_get _).symm
  exact ⟨copy, s1, hcopy, hne, hsrc, copy1, s2, _, h1, h2, by decide, h3⟩

end WAVM
